import Mathlib

/-!
Formal model of the bit-oriented record serializer
(include/serialize.h, include/record.h, src/record.cpp, include/record_bits.h).

The C++ `Serializer` keeps a `std::vector<uint64_t>` buffer, a capacity in
bits, and a cursor.  We model the buffer as a `List Nat` of 64-bit words.
C++ `uint64_t` arithmetic is modelled with `Nat` operations masked to the
relevant windows; C++ `int64_t` values are modelled as `Int` with explicit
two's-complement pattern conversions (`toPat64` / `ofPat64`).

Notes on fidelity:
* `~x` on `uint64_t` is modelled as `compl64 x = (2^64 - 1) ^^^ x`.
* `(1ULL << bits) - 1` at `bits = 64` is undefined behaviour in C++; the
  model follows what mainstream targets produce for a variable shift count
  (the count is taken modulo the 64-bit operand width, so the mask is 0
  and an aligned 64-bit write stores nothing and the matching read
  returns 0).  This is `(1 <<< (bits % 64)) - 1` below.
* The sign-handling branches of the templated `writeBits`/`readBits` build
  an `int` mask `1 << (bits-1)`.  For `bits - 1 ≥ 32` the shift count
  exceeds the 32-bit `int` width (undefined behaviour); the model again
  follows mainstream targets: the count is taken modulo 32, and a count of
  31 produces `INT_MIN`, which sign-extends over bits 31–63 when widened
  to the 64-bit value.  This is `signMask` below; for `bits ≤ 31` it is
  the intended single bit `bits - 1`.
-/

set_option maxHeartbeats 1600000

namespace record

/-- 64-bit complement, as C++ `~` acts on a `uint64_t` value. -/
def compl64 (x : Nat) : Nat := (2 ^ 64 - 1) ^^^ x

/-- The `uint64_t` bit pattern of a C++ `int64_t` value (two's complement).
Also models the wrap of `-value` at `INT64_MIN`: negation followed by the
cast agrees with mathematical negation modulo `2^64`. -/
def toPat64 (v : Int) : Nat := (v.emod (2 ^ 64)).toNat

/-- Reinterpret a 64-bit pattern as a C++ `int64_t` value (two's complement). -/
def ofPat64 (p : Nat) : Int := if p < 2 ^ 63 then (p : Int) else (p : Int) - 2 ^ 64

/-- Model of `record::Serializer`: word buffer, capacity in bits, cursor.
The constructor establishes `bufferSize = 64 * buffer.length`; nothing ever
mutates `buffer.length` or `bufferSize`, so theorems carry the inequality
`bufferSize ≤ 64 * buffer.length` where the write path needs it. -/
structure Serializer where
  buffer : List Nat
  bufferSize : Nat
  bitPos : Nat
deriving DecidableEq

/-- `Serializer::Serializer(size_t n)`: `(n + 7) / 8` zeroed 64-bit words. -/
def Serializer.init (n : Nat) : Serializer :=
  { buffer := List.replicate ((n + 8 - 1) / 8) 0
    bufferSize := (n + 8 - 1) / 8 * 64
    bitPos := 0 }

/-- `Serializer::writeBits64(value, bits)`.  The single-word mask
`(1ULL << bits) - 1` has its shift count taken modulo 64 (the resolution
of the `bits = 64` undefined shift on real targets: mask 0, nothing
stored); the split-word masks use counts at most 63 and are exact. -/
def Serializer.writeBits64 (s : Serializer) (value bits : Nat) : Bool × Serializer :=
  if s.bitPos + bits > s.bufferSize then (false, s)
  else
    let bitIndex := s.bitPos % 64
    let wi := s.bitPos / 64
    let w := s.buffer.getD wi 0
    if bitIndex + bits ≤ 64 then
      let mask := (1 <<< (bits % 64)) - 1
      let w1 := (w &&& compl64 (mask <<< bitIndex)) ||| ((value &&& mask) <<< bitIndex)
      (true, { s with buffer := s.buffer.set wi w1, bitPos := s.bitPos + bits })
    else
      let bits1 := 64 - bitIndex
      let bits2 := bits - bits1
      let mask1 := (1 <<< bits1) - 1
      let mask2 := (1 <<< bits2) - 1
      let w1 := (w &&& compl64 (mask1 <<< bitIndex)) ||| ((value &&& mask1) <<< bitIndex)
      let w2 := s.buffer.getD (wi + 1) 0
      let w3 := (w2 &&& compl64 mask2) ||| ((value >>> bits1) &&& mask2)
      (true, { s with buffer := (s.buffer.set wi w1).set (wi + 1) w3,
                      bitPos := s.bitPos + bits })

/-- `Serializer::readBits64(value, bits)`; returns (ok, value, state).
The single-word mask resolves the `bits = 64` undefined shift as
`writeBits64` does (count modulo 64: an aligned 64-bit read returns 0). -/
def Serializer.readBits64 (s : Serializer) (bits : Nat) : Bool × Nat × Serializer :=
  if s.bitPos + bits > s.bufferSize then (false, 0, s)
  else
    let bitIndex := s.bitPos % 64
    let w := s.buffer.getD (s.bitPos / 64) 0
    if bitIndex + bits ≤ 64 then
      let mask := (1 <<< (bits % 64)) - 1
      (true, (w >>> bitIndex) &&& mask, { s with bitPos := s.bitPos + bits })
    else
      let bits1 := 64 - bitIndex
      let bits2 := bits - bits1
      let mask1 := (1 <<< bits1) - 1
      let mask2 := (1 <<< bits2) - 1
      let w2 := s.buffer.getD (s.bitPos / 64 + 1) 0
      (true, ((w >>> bitIndex) &&& mask1) ||| ((w2 &&& mask2) <<< bits1),
       { s with bitPos := s.bitPos + bits })

/-- The templated `Serializer::writeBits` instantiated at an unsigned type:
the early capacity check, then `writeBits64(uint64_t(value), bits)` (the
conversion from a narrower unsigned type is value-preserving). -/
def Serializer.writeBitsU (s : Serializer) (value bits : Nat) : Bool × Serializer :=
  if s.bitPos + bits > s.bufferSize then (false, s)
  else s.writeBits64 value bits

/-- The 64-bit pattern of the C++ `int` expression `1 << (bits - 1)` used
as the sign mask by the templated `Serializer::writeBits`/`readBits`.
For `bits - 1 ≥ 32` the shift is undefined behaviour; the model follows
real targets: the count is masked modulo the 32-bit `int` width, and a
count of 31 yields `INT_MIN`, which sign-extends over bits 31–63 when
widened to 64 bits. -/
def signMask (bits : Nat) : Nat :=
  if (bits - 1) % 32 = 31 then 2 ^ 64 - 2 ^ 31 else 2 ^ ((bits - 1) % 32)

/-- The value pattern built by the templated `Serializer::writeBits` at a
signed type (`int64_t` at every number call site, `int` for the boolean
`val_ ? 1 : 0`): a negative value is replaced by `|v|` with the sign mask
`1 << (bits-1)` (see `signMask`) or-ed in, a non-negative value has the
sign-mask bits cleared; `writeBits64` then windows the pattern to the low
`bits` bits. -/
def patI (value : Int) (bits : Nat) : Nat :=
  if value < 0 then toPat64 (-value) ||| signMask bits
  else toPat64 value &&& compl64 (signMask bits)

/-- See the doc comment above: the signed write is the capacity check
followed by a `writeBits64` of the sign-adjusted pattern. -/
def Serializer.writeBitsI (s : Serializer) (value : Int) (bits : Nat) : Bool × Serializer :=
  if s.bitPos + bits > s.bufferSize then (false, s)
  else s.writeBits64 (patI value bits) bits

/-- The templated `Serializer::readBits` at an unsigned type: every call
site reads into a type at least `bits` wide, so the conversion from the
`uint64_t` temporary is value-preserving. -/
def Serializer.readBitsU (s : Serializer) (bits : Nat) : Bool × Nat × Serializer :=
  s.readBits64 bits

/-- The templated `Serializer::readBits` at a signed (`int64_t`) type:
if the raw pattern meets the sign mask `1 << (bits-1)` (see `signMask`),
the mask bits are cleared and the remainder negated (sign/magnitude
decode). -/
def Serializer.readBitsI (s : Serializer) (bits : Nat) : Bool × Int × Serializer :=
  let r := s.readBits64 bits
  if r.1 then
    let tempValue := r.2.1
    if tempValue &&& signMask bits ≠ 0 then
      (true, -(ofPat64 (tempValue &&& compl64 (signMask bits))), r.2.2)
    else
      (true, ofPat64 tempValue, r.2.2)
  else (false, 0, r.2.2)

/-- `Serializer::writeByte` (an 8-bit `writeBits64`). -/
def Serializer.writeByte (s : Serializer) (value : Nat) : Bool × Serializer :=
  s.writeBits64 value 8

/-- `Serializer::readByte` (an 8-bit `readBits64`). -/
def Serializer.readByte (s : Serializer) : Bool × Nat × Serializer :=
  s.readBits64 8

/-- `Serializer::alignByte`: round the cursor up to a byte boundary. -/
def Serializer.alignByte (s : Serializer) : Serializer :=
  { s with bitPos := (s.bitPos + 8 - 1) / 8 * 8 }

/-- `Serializer::padToNext`: write zero bits up to the next byte boundary;
the C++ discards the success flag of the inner write. -/
def Serializer.padToNext (s : Serializer) : Serializer :=
  if s.bitPos % 8 ≠ 0 then (s.writeBitsU 0 (8 - s.bitPos % 8)).2 else s

/-- `Serializer::seek`. -/
def Serializer.seek (s : Serializer) (pos : Nat) : Serializer := { s with bitPos := pos }

/-- Bit `i` of the stream buffer (bit `i % 64` of word `i / 64`). -/
def Serializer.bitAt (s : Serializer) (i : Nat) : Bool :=
  (s.buffer.getD (i / 64) 0).testBit (i % 64)

/-- The byte stored at bit offset `i` of the stream buffer (the value an
8-bit read at position `i` yields). -/
def Serializer.byteAt (s : Serializer) (i : Nat) : Nat :=
  ((s.seek i).readBits64 8).2.1

/-! ### The discriminator constants of src/record.cpp -/

def BBZero : Nat := 0x0
def BBOne : Nat := 0x1
def BBVersion : Nat := 0x2
def BBOther : Nat := 0x3

/-- Wrap an integer into the two's-complement value range of an `n`-bit
signed type: the (implementation-defined, two's complement) conversion
performed by `num_ = val` and `num_ += diff` at signed `NType`. -/
def wrapS (x : Int) (n : Nat) : Int := (x + 2 ^ (n - 1)).emod (2 ^ n) - 2 ^ (n - 1)

/-- `writeNumberImpl` instantiated at `UIntType` (`uint64_t`). -/
def writeNumberU (s : Serializer) (num : Nat) (bits : Nat) : Bool × Serializer :=
  if num == 0 then s.writeBitsU BBZero 2
  else
    let r1 := s.writeBitsU BBOther 2
    if !r1.1 then (false, r1.2)
    else
      let r2 := r1.2.writeBitsU bits 6
      if !r2.1 then (false, r2.2)
      else r2.2.writeBitsU num bits

/-- `writeNumberImpl` instantiated at `IntType` (`int64_t`); the
discriminator and size writes use unsigned constants. -/
def writeNumberI (s : Serializer) (num : Int) (bits : Nat) : Bool × Serializer :=
  if num == 0 then s.writeBitsU BBZero 2
  else
    let r1 := s.writeBitsU BBOther 2
    if !r1.1 then (false, r1.2)
    else
      let r2 := r1.2.writeBitsU bits 6
      if !r2.1 then (false, r2.2)
      else r2.2.writeBitsI num bits

/-- `readNumberImpl` at `UIntType`. -/
def readNumberU (s : Serializer) : Bool × Nat × Serializer :=
  let r1 := s.readBitsU 2
  if !r1.1 then (false, 0, r1.2.2)
  else if r1.2.1 == 0 then (true, 0, r1.2.2)
  else if r1.2.1 != BBOther then (false, 0, r1.2.2)
  else
    let r2 := r1.2.2.readBitsU 6
    if !r2.1 then (false, 0, r2.2.2)
    else if r2.2.1 == 0 then (false, 0, r2.2.2)
    else r2.2.2.readBitsU r2.2.1

/-- `readNumberImpl` at `IntType`. -/
def readNumberI (s : Serializer) : Bool × Int × Serializer :=
  let r1 := s.readBitsU 2
  if !r1.1 then (false, 0, r1.2.2)
  else if r1.2.1 == 0 then (true, 0, r1.2.2)
  else if r1.2.1 != BBOther then (false, 0, r1.2.2)
  else
    let r2 := r1.2.2.readBitsU 6
    if !r2.1 then (false, 0, r2.2.2)
    else if r2.2.1 == 0 then (false, 0, r2.2.2)
    else r2.2.2.readBitsI r2.2.1

/-- `readArrayNumber` at `UIntType`: 2-bit tag, then 6/14/30/62 payload bits. -/
def readArrayNumberU (s : Serializer) : Bool × Nat × Serializer :=
  let r := s.readBitsU 2
  if !r.1 then (false, 0, r.2.2)
  else
    match r.2.1 with
    | 0 => r.2.2.readBitsU 6
    | 1 => r.2.2.readBitsU 14
    | 2 => r.2.2.readBitsU 30
    | 3 => r.2.2.readBitsU 62
    | _ => (false, 0, r.2.2)

/-- `readArrayNumber` at `IntType`. -/
def readArrayNumberI (s : Serializer) : Bool × Int × Serializer :=
  let r := s.readBitsU 2
  if !r.1 then (false, 0, r.2.2)
  else
    match r.2.1 with
    | 0 => r.2.2.readBitsI 6
    | 1 => r.2.2.readBitsI 14
    | 2 => r.2.2.readBitsI 30
    | 3 => r.2.2.readBitsI 62
    | _ => (false, 0, r.2.2)

/-- `ValueNumber::writeArrayHeader`: `11`, size 0, one byte of count. -/
def writeArrayHeader (s : Serializer) (num : Nat) : Bool × Serializer :=
  let r1 := s.writeBitsU BBOther 2
  if !r1.1 then (false, r1.2)
  else
    let r2 := r1.2.writeBitsU 0 6
    if !r2.1 then (false, r2.2)
    else r2.2.writeBitsU num 8

/-- `ValueNumber::readArrayHeader`. -/
def readArrayHeader (s : Serializer) : Bool × Nat × Serializer :=
  let r1 := s.readBitsU 2
  if !r1.1 then (false, 0, r1.2.2)
  else if r1.2.1 != BBOther then (false, 0, r1.2.2)
  else
    let r2 := r1.2.2.readBitsU 6
    if !r2.1 then (false, 0, r2.2.2)
    else if r2.2.1 != 0 then (false, 0, r2.2.2)
    else r2.2.2.readBitsU 8

/-- `ValueNumber::writeArrayValue` at `UIntType`: smallest covering tag. -/
def writeArrayValueU (s : Serializer) (num : Nat) : Bool × Serializer :=
  if num < 2 ^ 6 then
    let r := s.writeBitsU 0 2
    if r.1 then r.2.writeBitsU num 6 else (false, r.2)
  else if num < 2 ^ 14 then
    let r := s.writeBitsU 1 2
    if r.1 then r.2.writeBitsU num 14 else (false, r.2)
  else if num < 2 ^ 30 then
    let r := s.writeBitsU 2 2
    if r.1 then r.2.writeBitsU num 30 else (false, r.2)
  else
    let r := s.writeBitsU 3 2
    if r.1 then r.2.writeBitsU num 62 else (false, r.2)

/-- `ValueNumber::writeArrayValue` at `IntType`; `anum` models `std::abs`
(whose C++ result at `INT64_MIN` is undefined and modelled as the
mathematical absolute value). -/
def writeArrayValueI (s : Serializer) (num : Int) : Bool × Serializer :=
  let anum := num.natAbs
  if anum < 2 ^ 5 then
    let r := s.writeBitsU 0 2
    if r.1 then r.2.writeBitsI num 6 else (false, r.2)
  else if anum < 2 ^ 13 then
    let r := s.writeBitsU 1 2
    if r.1 then r.2.writeBitsI num 14 else (false, r.2)
  else if anum < 2 ^ 29 then
    let r := s.writeBitsU 2 2
    if r.1 then r.2.writeBitsI num 30 else (false, r.2)
  else
    let r := s.writeBitsU 3 2
    if r.1 then r.2.writeBitsI num 62 else (false, r.2)

/-- `oval->num_ - num_` at an unsigned `NType` of `b` bytes, converted to
`UIntType` (`uint64_t`).  For 1- and 2-byte types the operands are promoted
to `int`, the difference is exact, and the conversion to `uint64_t` wraps
it modulo `2^64`; for 4- and 8-byte types the subtraction itself wraps in
the type width.  (`writeNumberImpl`/`writeBits64` only ever use this value
modulo `2^(8b)`, where the two cases agree.) -/
def unsignedDiff (b : Nat) (other self : Nat) : Nat :=
  if b ≤ 2 then (((other : Int) - (self : Int)).emod (2 ^ 64)).toNat
  else (((other : Int) - (self : Int)).emod (2 ^ (8 * b))).toNat

/-- `oval->num_ - num_` at a signed `NType`, converted to `IntType`
(`int64_t`): 1- and 2-byte operands promote to `int` (exact difference);
4- and 8-byte subtraction wraps in the type width (two's complement). -/
def signedDiff (b : Nat) (other self : Int) : Int :=
  if b ≤ 2 then other - self else wrapS (other - self) (8 * b)

/-! ### The field model: one constructor per concrete `ValueInterface` -/

/-- A field variant: `ValueVersion`, `ValueBool`, `ValueString`,
`Value<NType>` (also covering `ValueBits<NType>`, which inherits the
`Value` wire format unchanged), and `ValueArray<NType, Size>`.  `b` is
`sizeof(NType)`; unsigned payloads are `Nat`, signed ones `Int`;
strings are byte lists. -/
inductive Field where
  | version : Field
  | vbool : Bool → Field
  | vstring : List Nat → Field
  | vnumU : Nat → Nat → Field
  | vnumI : Nat → Int → Field
  | varrU : Nat → List Nat → Field
  | varrI : Nat → List Int → Field
deriving DecidableEq

def Field.isBool : Field → Bool
  | .vbool _ => true
  | _ => false

def Field.isSeparator : Field → Bool
  | .version => true
  | _ => false

/-- `ValueInterface::getByteSize` per variant. -/
def Field.getByteSize : Field → Nat
  | .version => 0
  | .vbool _ => 0
  | .vstring v => v.length
  | .vnumU b _ => b
  | .vnumI b _ => b
  | .varrU b _ => b
  | .varrI b _ => b

/-- `ValueInterface::getArraySize` per variant. -/
def Field.getArraySize : Field → Nat
  | .version => 0
  | .vbool _ => 0
  | .vstring _ => 1
  | .vnumU _ _ => 1
  | .vnumI _ _ => 1
  | .varrU _ a => a.length
  | .varrI _ a => a.length

/-- The body loop of `ValueString::serialize`. -/
def writeStringBytes : List Nat → Serializer → Bool × Serializer
  | [], s => (true, s)
  | c :: rest, s =>
    let r := s.writeByte c
    if r.1 then writeStringBytes rest r.2 else (false, r.2)

/-- `ValueString::serialize`. -/
def serializeString (v : List Nat) (s : Serializer) : Bool × Serializer :=
  let r1 := s.writeBitsU BBOther 2
  if !r1.1 then (false, r1.2)
  else
    let r2 := r1.2.writeBitsU v.length 6
    if !r2.1 then (false, r2.2)
    else if v.length == 0 then (true, r2.2)
    else writeStringBytes v r2.2.padToNext

/-- The body loop of `ValueString::deserialize` (`val_` accumulates through
`push_back`; a failed byte read leaves the partial value in place). -/
def readStringBytes : Nat → List Nat → Serializer → Bool × List Nat × Serializer
  | 0, acc, s => (true, acc, s)
  | n + 1, acc, s =>
    let r := s.readByte
    if r.1 then readStringBytes n (acc ++ [r.2.1]) r.2.2
    else (false, acc, r.2.2)

/-- `ValueString::deserialize`. -/
def deserializeString (v : List Nat) (s : Serializer) : Bool × Field × Serializer :=
  let r1 := s.readBitsU 2
  if !r1.1 then (false, .vstring v, r1.2.2)
  else if r1.2.1 != BBOther then (false, .vstring v, r1.2.2)
  else
    let r2 := r1.2.2.readBitsU 6
    if !r2.1 then (false, .vstring v, r2.2.2)
    else if r2.2.1 == 0 then (true, .vstring [], r2.2.2)
    else
      let r3 := readStringBytes r2.2.1 [] r2.2.2.alignByte
      (r3.1, .vstring r3.2.1, r3.2.2)

/-- The element loop of `ValueArray::serialize` at unsigned `NType`
(the `UIntType value = item` conversion is value-preserving). -/
def writeArrayValuesU : List Nat → Serializer → Bool × Serializer
  | [], s => (true, s)
  | x :: rest, s =>
    let r := writeArrayValueU s x
    if r.1 then writeArrayValuesU rest r.2 else (false, r.2)

/-- The element loop of `ValueArray::serialize` at signed `NType`. -/
def writeArrayValuesI : List Int → Serializer → Bool × Serializer
  | [], s => (true, s)
  | x :: rest, s =>
    let r := writeArrayValueI s x
    if r.1 then writeArrayValuesI rest r.2 else (false, r.2)

/-- The element loop of `ValueArray::deserialize` at unsigned `NType`:
`item = val` truncates the 64-bit value to the element type; elements
updated before a failure keep their new values. -/
def readArrayValuesU (b : Nat) : List Nat → Serializer → Bool × List Nat × Serializer
  | [], s => (true, [], s)
  | x :: rest, s =>
    let r := readArrayNumberU s
    if r.1 then
      let rr := readArrayValuesU b rest r.2.2
      (rr.1, r.2.1 % 2 ^ (8 * b) :: rr.2.1, rr.2.2)
    else (false, x :: rest, r.2.2)

/-- The element loop of `ValueArray::deserialize` at signed `NType`. -/
def readArrayValuesI (b : Nat) : List Int → Serializer → Bool × List Int × Serializer
  | [], s => (true, [], s)
  | x :: rest, s =>
    let r := readArrayNumberI s
    if r.1 then
      let rr := readArrayValuesI b rest r.2.2
      (rr.1, wrapS r.2.1 (8 * b) :: rr.2.1, rr.2.2)
    else (false, x :: rest, r.2.2)

/-- The element loop of `ValueArray::deserializeDiff` (`item += val`). -/
def readArrayDiffValuesU (b : Nat) : List Nat → Serializer → Bool × List Nat × Serializer
  | [], s => (true, [], s)
  | x :: rest, s =>
    let r := readArrayNumberU s
    if r.1 then
      let rr := readArrayDiffValuesU b rest r.2.2
      (rr.1, (x + r.2.1) % 2 ^ (8 * b) :: rr.2.1, rr.2.2)
    else (false, x :: rest, r.2.2)

/-- The element loop of `ValueArray::deserializeDiff` at signed `NType`. -/
def readArrayDiffValuesI (b : Nat) : List Int → Serializer → Bool × List Int × Serializer
  | [], s => (true, [], s)
  | x :: rest, s =>
    let r := readArrayNumberI s
    if r.1 then
      let rr := readArrayDiffValuesI b rest r.2.2
      (rr.1, wrapS (x + r.2.1) (8 * b) :: rr.2.1, rr.2.2)
    else (false, x :: rest, r.2.2)

/-- The element loop of `ValueArray::serializeDiff` at unsigned `NType`
(first list is `this`, second the `other` record's elements). -/
def writeArrayDiffsU (b : Nat) : List Nat → List Nat → Serializer → Bool × Serializer
  | [], _, s => (true, s)
  | x :: xs, y :: ys, s =>
    let r := writeArrayValueU s (unsignedDiff b y x)
    if r.1 then writeArrayDiffsU b xs ys r.2 else (false, r.2)
  | _ :: _, [], s => (false, s)

/-- The element loop of `ValueArray::serializeDiff` at signed `NType`. -/
def writeArrayDiffsI (b : Nat) : List Int → List Int → Serializer → Bool × Serializer
  | [], _, s => (true, s)
  | x :: xs, y :: ys, s =>
    let r := writeArrayValueI s (signedDiff b y x)
    if r.1 then writeArrayDiffsI b xs ys r.2 else (false, r.2)
  | _ :: _, [], s => (false, s)

/-- Per-variant `serialize` (dispatch of `ValueInterface::serialize`). -/
def Field.serialize : Field → Serializer → Bool × Serializer
  | .version, s => s.writeBitsU BBVersion 2
  | .vbool b, s => s.writeBitsI (if b then 1 else 0) 2
  | .vstring v, s => serializeString v s
  | .vnumU b v, s => writeNumberU s v (b * 8)
  | .vnumI b v, s => writeNumberI s v (b * 8)
  | .varrU _ a, s =>
    let r := writeArrayHeader s a.length
    if r.1 then writeArrayValuesU a r.2 else (false, r.2)
  | .varrI _ a, s =>
    let r := writeArrayHeader s a.length
    if r.1 then writeArrayValuesI a r.2 else (false, r.2)

/-- Per-variant `deserialize`.  The updated field is returned even on
failure (the C++ mutates fields in place and does not roll them back). -/
def Field.deserialize : Field → Serializer → Bool × Field × Serializer
  | .version, s =>
    let r := s.readBitsU 2
    if r.1 then (r.2.1 == BBVersion, .version, r.2.2) else (false, .version, r.2.2)
  | .vbool b, s =>
    let r := s.readBitsU 2
    if r.1 then
      if r.2.1 == 0 then (true, .vbool false, r.2.2)
      else if r.2.1 == 1 then (true, .vbool true, r.2.2)
      else (false, .vbool b, r.2.2)
    else (false, .vbool b, r.2.2)
  | .vstring v, s => deserializeString v s
  | .vnumU b v, s =>
    let r := readNumberU s
    if r.1 then (true, .vnumU b (r.2.1 % 2 ^ (8 * b)), r.2.2)
    else (false, .vnumU b v, r.2.2)
  | .vnumI b v, s =>
    let r := readNumberI s
    if r.1 then (true, .vnumI b (wrapS r.2.1 (8 * b)), r.2.2)
    else (false, .vnumI b v, r.2.2)
  | .varrU b a, s =>
    let r := readArrayHeader s
    if !r.1 then (false, .varrU b a, r.2.2)
    else if r.2.1 != a.length then (false, .varrU b a, r.2.2)
    else
      let rr := readArrayValuesU b a r.2.2
      (rr.1, .varrU b rr.2.1, rr.2.2)
  | .varrI b a, s =>
    let r := readArrayHeader s
    if !r.1 then (false, .varrI b a, r.2.2)
    else if r.2.1 != a.length then (false, .varrI b a, r.2.2)
    else
      let rr := readArrayValuesI b a r.2.2
      (rr.1, .varrI b rr.2.1, rr.2.2)

/-- Per-variant `serializeDiff(ser, other)`: the first argument is `this`,
the second the paired field of the `other` record.  A failed
`dynamic_cast` (different dynamic type, element type, or array size)
returns false without touching the stream.  Note that `ValueBool` and
`ValueString` write the values of `this` (the receiver of the call). -/
def Field.serializeDiff : Field → Field → Serializer → Bool × Serializer
  | .version, _, s => Field.serialize .version s
  | .vbool b, _, s => Field.serialize (.vbool b) s
  | .vstring v, .vstring w, s =>
    if v == w then s.writeBitsU BBZero 2 else serializeString v s
  | .vstring _, _, s => (false, s)
  | .vnumU b v, .vnumU b2 w, s =>
    if b == b2 then writeNumberU s (unsignedDiff b w v) (b * 8) else (false, s)
  | .vnumU _ _, _, s => (false, s)
  | .vnumI b v, .vnumI b2 w, s =>
    if b == b2 then writeNumberI s (signedDiff b w v) (b * 8) else (false, s)
  | .vnumI _ _, _, s => (false, s)
  | .varrU b a, .varrU b2 c, s =>
    if b == b2 && a.length == c.length then
      let r := writeArrayHeader s a.length
      if r.1 then writeArrayDiffsU b a c r.2 else (false, r.2)
    else (false, s)
  | .varrU _ _, _, s => (false, s)
  | .varrI b a, .varrI b2 c, s =>
    if b == b2 && a.length == c.length then
      let r := writeArrayHeader s a.length
      if r.1 then writeArrayDiffsI b a c r.2 else (false, r.2)
    else (false, s)
  | .varrI _ _, _, s => (false, s)

/-- Per-variant `deserializeDiff`. -/
def Field.deserializeDiff : Field → Serializer → Bool × Field × Serializer
  | .version, s => Field.deserialize .version s
  | .vbool b, s => Field.deserialize (.vbool b) s
  | .vstring v, s =>
    let r1 := s.readBitsU 2
    if !r1.1 then (false, .vstring v, r1.2.2)
    else if r1.2.1 == BBZero then (true, .vstring v, r1.2.2)
    else if r1.2.1 != BBOther then (false, .vstring v, r1.2.2)
    else
      let r2 := r1.2.2.readBitsU 6
      if !r2.1 then (false, .vstring v, r2.2.2)
      else if r2.2.1 == 0 then (true, .vstring [], r2.2.2)
      else
        let r3 := readStringBytes r2.2.1 [] r2.2.2.alignByte
        (r3.1, .vstring r3.2.1, r3.2.2)
  | .vnumU b v, s =>
    let r := readNumberU s
    if r.1 then (true, .vnumU b ((v + r.2.1) % 2 ^ (8 * b)), r.2.2)
    else (false, .vnumU b v, r.2.2)
  | .vnumI b v, s =>
    let r := readNumberI s
    if r.1 then (true, .vnumI b (wrapS (v + r.2.1) (8 * b)), r.2.2)
    else (false, .vnumI b v, r.2.2)
  | .varrU b a, s =>
    let r := readArrayHeader s
    if !r.1 then (false, .varrU b a, r.2.2)
    else if r.2.1 != a.length then (false, .varrU b a, r.2.2)
    else
      let rr := readArrayDiffValuesU b a r.2.2
      (rr.1, .varrU b rr.2.1, rr.2.2)
  | .varrI b a, s =>
    let r := readArrayHeader s
    if !r.1 then (false, .varrI b a, r.2.2)
    else if r.2.1 != a.length then (false, .varrI b a, r.2.2)
    else
      let rr := readArrayDiffValuesI b a r.2.2
      (rr.1, .varrI b rr.2.1, rr.2.2)

/-! ### `ValueLink`: the record-level walks -/

/-- The loop body of `ValueLink::serialize` (without the rollback). -/
def serializeFieldsAux : List Field → Serializer → Bool × Serializer
  | [], s => (true, s)
  | f :: rest, s =>
    let r := f.serialize s
    if r.1 then serializeFieldsAux rest r.2 else (false, r.2)

/-- `ValueLink::serialize`: on any field failure the cursor is rolled back
to the position captured before the walk (written bits stay). -/
def linkSerialize (fs : List Field) (s : Serializer) : Bool × Serializer :=
  let begPos := s.bitPos
  let r := serializeFieldsAux fs s
  if r.1 then (true, r.2) else (false, r.2.seek begPos)

/-- The loop of `ValueLink::deserialize`: a failing separator rewinds to
just before the separator and reports success; any other failure rewinds
to `begPos` and reports failure; fields updated before a failure keep
their new values. -/
def deserializeFieldsAux (begPos : Nat) : List Field → Serializer → Bool × List Field × Serializer
  | [], s => (true, [], s)
  | f :: rest, s =>
    let prevPos := s.bitPos
    let r := f.deserialize s
    if r.1 then
      let rr := deserializeFieldsAux begPos rest r.2.2
      (rr.1, r.2.1 :: rr.2.1, rr.2.2)
    else if f.isSeparator then (true, r.2.1 :: rest, r.2.2.seek prevPos)
    else (false, r.2.1 :: rest, r.2.2.seek begPos)

/-- `ValueLink::deserialize`. -/
def linkDeserialize (fs : List Field) (s : Serializer) : Bool × List Field × Serializer :=
  deserializeFieldsAux s.bitPos fs s

/-- The loop body of `ValueLink::serializeDiff` (parallel walk). -/
def serializeDiffFieldsAux : List Field → List Field → Serializer → Bool × Serializer
  | [], _, s => (true, s)
  | f :: fr, g :: gr, s =>
    let r := f.serializeDiff g s
    if r.1 then serializeDiffFieldsAux fr gr r.2 else (false, r.2)
  | _ :: _, [], s => (false, s)

/-- `ValueLink::serializeDiff`: fails immediately on a length mismatch,
otherwise the parallel walk with rollback on failure. -/
def linkSerializeDiff (fs gs : List Field) (s : Serializer) : Bool × Serializer :=
  if fs.length != gs.length then (false, s)
  else
    let begPos := s.bitPos
    let r := serializeDiffFieldsAux fs gs s
    if r.1 then (true, r.2) else (false, r.2.seek begPos)

/-- The loop of `ValueLink::deserializeDiff` (same separator rule as
`deserialize`). -/
def deserializeDiffFieldsAux (begPos : Nat) :
    List Field → Serializer → Bool × List Field × Serializer
  | [], s => (true, [], s)
  | f :: rest, s =>
    let prevPos := s.bitPos
    let r := f.deserializeDiff s
    if r.1 then
      let rr := deserializeDiffFieldsAux begPos rest r.2.2
      (rr.1, r.2.1 :: rr.2.1, rr.2.2)
    else if f.isSeparator then (true, r.2.1 :: rest, r.2.2.seek prevPos)
    else (false, r.2.1 :: rest, r.2.2.seek begPos)

/-- `ValueLink::deserializeDiff`. -/
def linkDeserializeDiff (fs : List Field) (s : Serializer) : Bool × List Field × Serializer :=
  deserializeDiffFieldsAux s.bitPos fs s

/-- One field's contribution to `ValueLink::getTotalBitSize`. -/
def Field.totalBitContrib (f : Field) : Nat :=
  2 + (if !f.isBool && !f.isSeparator then
        6 + f.getArraySize * (f.getByteSize * 8) +
          (if f.getArraySize > 1 then 8 else 7)
      else 0)

/-- `ValueLink::getTotalBitSize` (the spec's `need_total_bits`). -/
def linkTotalBitSize (fs : List Field) : Nat :=
  fs.foldr (fun f acc => f.totalBitContrib + acc) 0

/-- `ValueLink::getDataVersion`: the number of separators. -/
def linkDataVersion (fs : List Field) : Nat :=
  fs.foldr (fun f acc => (if f.isSeparator then 1 else 0) + acc) 0

/-! ### The bit-field block codec of include/record_bits.h -/

/-- Combine consecutive little-endian 32-bit words into 64-bit words, as
the 8-byte-aligned write branch of `serializeBitField` reads them from
memory on a little-endian host. -/
def pairWords : List Nat → List Nat
  | a :: b :: rest => (a + (b <<< 32)) :: pairWords rest
  | [a] => [a]
  | [] => []

/-- The 64-bit write loop of `serializeBitField`. -/
def writeWords64 : List Nat → Serializer → Bool × Serializer
  | [], s => (true, s)
  | w :: rest, s =>
    let r := s.writeBits64 w 64
    if r.1 then writeWords64 rest r.2 else (false, r.2)

/-- The 32-bit write loop of `serializeBitField`. -/
def writeWords32 : List Nat → Serializer → Bool × Serializer
  | [], s => (true, s)
  | w :: rest, s =>
    let r := s.writeBitsU w 32
    if r.1 then writeWords32 rest r.2 else (false, r.2)

/-- `serializeBitField`: `Ww = sizeof(BitClass)/4`; each element of `data`
is the list of `Ww` little-endian 32-bit words of one element.  Writes a
3-bit `Ww-1`, a 13-bit element count, then all words consecutively (via
64-bit writes when the element size is a multiple of 8 bytes). -/
def serializeBitField (Ww : Nat) (data : List (List Nat)) (s : Serializer) : Bool × Serializer :=
  let r1 := s.writeBitsU (Ww - 1) 3
  if !r1.1 then (false, r1.2)
  else
    let r2 := r1.2.writeBitsU data.length 13
    if !r2.1 then (false, r2.2)
    else
      if Ww % 2 == 0 then writeWords64 (pairWords data.flatten) r2.2
      else writeWords32 data.flatten r2.2

/-- The inner word loop of `deserializeBitField`: read `k` 32-bit words
into the first `k` slots of one element. -/
def readWordsInto : Nat → List Nat → Serializer → Bool × List Nat × Serializer
  | 0, elem, s => (true, elem, s)
  | k + 1, elem, s =>
    let r := s.readBitsU 32
    if r.1 then
      let rr := readWordsInto k elem.tail r.2.2
      (rr.1, r.2.1 :: rr.2.1, rr.2.2)
    else (false, elem, r.2.2)

/-- The element loop of `deserializeBitField`: after each element the
cursor skips `posOffset` extra bits. -/
def readBitElems (readSize posOffset : Nat) :
    Nat → List (List Nat) → Serializer → Bool × List (List Nat) × Serializer
  | 0, elems, s => (true, elems, s)
  | _ + 1, [], s => (true, [], s)
  | n + 1, e :: rest, s =>
    let r := readWordsInto readSize e s
    if r.1 then
      let s2 := r.2.2.seek (r.2.2.bitPos + posOffset)
      let rr := readBitElems readSize posOffset n rest s2
      (rr.1, r.2.1 :: rr.2.1, rr.2.2)
    else (false, r.2.1 :: rest, r.2.2)

/-- `deserializeBitField`: `Wr = sizeof(BitClass)/4` for the reader type;
`data` holds the pre-call contents of the reader array, whose length is
the capacity passed in through `num`.  Returns (ok, reported count,
updated elements, stream). -/
def deserializeBitField (Wr : Nat) (data : List (List Nat)) (s : Serializer) :
    Bool × Nat × List (List Nat) × Serializer :=
  let r1 := s.readBitsU 3
  if !r1.1 then (false, data.length, data, r1.2.2)
  else
    let r2 := r1.2.2.readBitsU 13
    if !r2.1 then (false, data.length, data, r2.2.2)
    else
      let readSize := r1.2.1 + 1
      let num := if data.length < r2.2.1 then data.length else r2.2.1
      let posOffset := if Wr < readSize then (readSize * 4 - Wr * 4) * 8 else 0
      let readSize2 := if Wr < readSize then Wr else readSize
      let r3 := readBitElems readSize2 posOffset num data r2.2.2
      (r3.1, num, r3.2.1, r3.2.2)

/-! ### Side conditions used by the theorems -/

/-- Same dynamic shape (what a parallel walk with `dynamic_cast`-typed
operations requires of the receiving record): same variant, element type
and array length; payload values free. -/
def Field.sameShape : Field → Field → Bool
  | .version, .version => true
  | .vbool _, .vbool _ => true
  | .vstring _, .vstring _ => true
  | .vnumU b _, .vnumU b2 _ => b == b2
  | .vnumI b _, .vnumI b2 _ => b == b2
  | .varrU b a, .varrU b2 c => b == b2 && a.length == c.length
  | .varrI b a, .varrI b2 c => b == b2 && a.length == c.length
  | _, _ => false

/-- The number of bits the writer actually appends for one array element. -/
def tagBitsU (x : Nat) : Nat :=
  if x < 2 ^ 6 then 8 else if x < 2 ^ 14 then 16 else if x < 2 ^ 30 then 32 else 64

/-- Signed variant of `tagBitsU`. -/
def tagBitsI (x : Int) : Nat :=
  if x.natAbs < 2 ^ 5 then 8
  else if x.natAbs < 2 ^ 13 then 16
  else if x.natAbs < 2 ^ 29 then 32 else 64

/-- The array fields for which `getTotalBitSize` really bounds the encoded
size: lengths 0 and 1 (which pay an 8-bit count byte against a 7-bit
padding allowance) are excluded, and every element's compact encoding must
fit the `8·sizeof(NType)` bits budgeted for it. -/
def Field.SerializeSafe : Field → Prop
  | .varrU b a => 2 ≤ a.length ∧ ∀ x ∈ a, tagBitsU x ≤ 8 * b
  | .varrI b a => 2 ≤ a.length ∧ ∀ x ∈ a, tagBitsI x ≤ 8 * b
  | _ => True

instance : DecidablePred Field.SerializeSafe := by
  intro f
  unfold Field.SerializeSafe
  cases f <;> infer_instance

/-- The per-field value ranges under which the full round-trip holds:
scalar numbers of at most 4 bytes (a 64-bit width is written modulo 64
into the 6-bit size field, which the reader rejects), signed scalars
excluding the minimum (whose sign/magnitude encoding collapses to -0),
strings of at most 63 bytes of genuine `char` values, arrays of length
between 2 and 255 whose elements fit the tag budgeted for their width. -/
def Field.Encodable : Field → Prop
  | .version => True
  | .vbool _ => True
  | .vstring v => v.length ≤ 63 ∧ ∀ c ∈ v, c < 256
  | .vnumU b v => (b = 1 ∨ b = 2 ∨ b = 4) ∧ v < 2 ^ (8 * b)
  | .vnumI b v => (b = 1 ∨ b = 2 ∨ b = 4) ∧ -(2 ^ (8 * b - 1)) < v ∧ v < 2 ^ (8 * b - 1)
  | .varrU b a => (b = 1 ∨ b = 2 ∨ b = 4 ∨ b = 8) ∧ 2 ≤ a.length ∧ a.length ≤ 255 ∧
      ∀ x ∈ a, x < 2 ^ (8 * b - 2)
  | .varrI b a => (b = 1 ∨ b = 2 ∨ b = 4) ∧ 2 ≤ a.length ∧ a.length ≤ 255 ∧
      ∀ x ∈ a, -(2 ^ (8 * b - 3)) < x ∧ x < 2 ^ (8 * b - 3)

instance : DecidablePred Field.Encodable := by
  intro f
  unfold Field.Encodable
  cases f <;> infer_instance

/-- Sequential all-success decode of a field list (the loop of
`ValueLink::deserialize` restricted to the runs in which every field's
`deserialize` reports success): `none` as soon as any field fails. -/
def deserializeSeq : List Field → Serializer → Option (List Field × Serializer)
  | [], s => some ([], s)
  | f :: rest, s =>
    let r := f.deserialize s
    if r.1 then
      match deserializeSeq rest r.2.2 with
      | some (rest2, s2) => some (r.2.1 :: rest2, s2)
      | none => none
    else none

/-- What every successful step of the serializer's write path guarantees:
unchanged buffer geometry, a monotone cursor, and no change to any bit
outside the window `[s.bitPos, t.bitPos)` consumed by the step. -/
structure WStep (s t : Serializer) : Prop where
  len : t.buffer.length = s.buffer.length
  size : t.bufferSize = s.bufferSize
  mono : s.bitPos ≤ t.bitPos
  frame : ∀ i, i < s.bitPos ∨ t.bitPos ≤ i → t.bitAt i = s.bitAt i

end record

namespace record

/-! ### Core lemmas about the bit buffer -/

theorem getD_set_self (l : List Nat) (i a d : Nat) (h : i < l.length) :
    (l.set i a).getD i d = a := by
  simp [List.getD_eq_getElem?_getD, List.getElem?_set_self, h]

theorem getD_set_ne (l : List Nat) (i j a d : Nat) (h : i ≠ j) :
    (l.set i a).getD j d = l.getD j d := by
  simp [List.getD_eq_getElem?_getD, List.getElem?_set_ne h]

theorem Serializer.writeBits64_fail (s : Serializer) (v n : Nat)
    (h : s.bufferSize < s.bitPos + n) : s.writeBits64 v n = (false, s) := by
  unfold Serializer.writeBits64
  rw [if_pos (by omega)]

theorem Serializer.writeBits64_state (s : Serializer) (v n : Nat)
    (h : s.bitPos + n ≤ s.bufferSize) :
    (s.writeBits64 v n).1 = true ∧ (s.writeBits64 v n).2.bitPos = s.bitPos + n ∧
      (s.writeBits64 v n).2.bufferSize = s.bufferSize ∧
      (s.writeBits64 v n).2.buffer.length = s.buffer.length := by
  unfold Serializer.writeBits64
  rw [if_neg (by omega)]
  by_cases hsd : s.bitPos % 64 + n ≤ 64 <;>
    simp [hsd, List.length_set]

theorem Serializer.writeBits64_window (s : Serializer) (v n : Nat) (hn : n ≤ 64)
    (hub : n = 64 → s.bitPos % 64 ≠ 0)
    (hwf : s.bufferSize ≤ 64 * s.buffer.length)
    (hcap : s.bitPos + n ≤ s.bufferSize) (j : Nat) (hj : j < n) :
    ((s.writeBits64 v n).2).bitAt (s.bitPos + j) = v.testBit j := by
  have hbi : s.bitPos % 64 < 64 := Nat.mod_lt _ (by norm_num)
  have hp := Nat.div_add_mod s.bitPos 64
  have hwi : s.bitPos / 64 < s.buffer.length := by omega
  unfold Serializer.writeBits64
  rw [if_neg (by omega)]
  by_cases hsd : s.bitPos % 64 + n ≤ 64
  · have h63 : n % 64 = n := by
      by_cases h : n = 64
      · exact absurd (show s.bitPos % 64 = 0 by omega) (hub h)
      · omega
    rw [if_pos hsd, h63]
    unfold Serializer.bitAt
    have hdiv : (s.bitPos + j) / 64 = s.bitPos / 64 := by omega
    have hmod : (s.bitPos + j) % 64 = s.bitPos % 64 + j := by omega
    simp only [hdiv, hmod]
    rw [getD_set_self _ _ _ _ hwi]
    simp only [compl64, Nat.one_shiftLeft, Nat.testBit_or, Nat.testBit_and, Nat.testBit_xor,
      Nat.testBit_shiftLeft, Nat.testBit_two_pow_sub_one]
    have e1 : s.bitPos % 64 + j - s.bitPos % 64 = j := by omega
    rw [e1]
    simp [show s.bitPos % 64 ≤ s.bitPos % 64 + j by omega,
      show s.bitPos % 64 + j < 64 by omega, hj]
  · rw [if_neg hsd]
    unfold Serializer.bitAt
    by_cases hjk : s.bitPos % 64 + j < 64
    · have hdiv : (s.bitPos + j) / 64 = s.bitPos / 64 := by omega
      have hmod : (s.bitPos + j) % 64 = s.bitPos % 64 + j := by omega
      simp only [hdiv, hmod]
      rw [getD_set_ne _ _ _ _ _ (by omega), getD_set_self _ _ _ _ hwi]
      simp only [compl64, Nat.one_shiftLeft, Nat.testBit_or, Nat.testBit_and, Nat.testBit_xor,
        Nat.testBit_shiftLeft, Nat.testBit_two_pow_sub_one]
      have e1 : s.bitPos % 64 + j - s.bitPos % 64 = j := by omega
      rw [e1]
      simp [show s.bitPos % 64 ≤ s.bitPos % 64 + j by omega,
        show s.bitPos % 64 + j < 64 by omega, show j < 64 - s.bitPos % 64 by omega]
    · have hwi1 : s.bitPos / 64 + 1 < s.buffer.length := by omega
      have hdiv : (s.bitPos + j) / 64 = s.bitPos / 64 + 1 := by omega
      have hmod : (s.bitPos + j) % 64 = s.bitPos % 64 + j - 64 := by omega
      simp only [hdiv, hmod]
      rw [getD_set_self _ _ _ _ (by rw [List.length_set]; exact hwi1)]
      simp only [compl64, Nat.one_shiftLeft, Nat.testBit_or, Nat.testBit_and, Nat.testBit_xor,
        Nat.testBit_shiftLeft, Nat.testBit_shiftRight, Nat.testBit_two_pow_sub_one]
      have e2 : 64 - s.bitPos % 64 + (s.bitPos % 64 + j - 64) = j := by omega
      rw [e2]
      simp [show s.bitPos % 64 + j - 64 < 64 by omega,
        show s.bitPos % 64 + j - 64 < n - (64 - s.bitPos % 64) by omega]

theorem Serializer.writeBits64_frame (s : Serializer) (v n : Nat) (hn : n ≤ 64)
    (hwf : s.bufferSize ≤ 64 * s.buffer.length)
    (hcap : s.bitPos + n ≤ s.bufferSize) (i : Nat)
    (hi : i < s.bitPos ∨ s.bitPos + n ≤ i) :
    ((s.writeBits64 v n).2).bitAt i = s.bitAt i := by
  have hbi : s.bitPos % 64 < 64 := Nat.mod_lt _ (by norm_num)
  have hp := Nat.div_add_mod s.bitPos 64
  have hig := Nat.div_add_mod i 64
  have hbig : i % 64 < 64 := Nat.mod_lt _ (by norm_num)
  unfold Serializer.writeBits64
  rw [if_neg (by omega)]
  by_cases hsd : s.bitPos % 64 + n ≤ 64
  · rw [if_pos hsd]
    simp only [Serializer.bitAt]
    by_cases hd : i / 64 = s.bitPos / 64
    · by_cases hlen : s.bitPos / 64 < s.buffer.length
      · rw [hd, getD_set_self _ _ _ _ hlen]
        simp only [compl64, Nat.one_shiftLeft, Nat.testBit_or, Nat.testBit_and,
          Nat.testBit_xor, Nat.testBit_shiftLeft, Nat.testBit_two_pow_sub_one]
        have hout : i % 64 < s.bitPos % 64 ∨ s.bitPos % 64 + n ≤ i % 64 := by omega
        rcases hout with hlt | hge
        · simp [show ¬ (s.bitPos % 64 ≤ i % 64) by omega, hbig]
        · simp [show s.bitPos % 64 ≤ i % 64 by omega, hbig,
            show ¬ (i % 64 - s.bitPos % 64 < n % 64) by omega]
      · rw [List.set_eq_of_length_le (by omega)]
    · rw [getD_set_ne _ _ _ _ _ (by omega)]
  · rw [if_neg hsd]
    simp only [Serializer.bitAt]
    have hwi : s.bitPos / 64 < s.buffer.length := by omega
    have hwi1 : s.bitPos / 64 + 1 < s.buffer.length := by omega
    by_cases hd : i / 64 = s.bitPos / 64
    · rw [hd, getD_set_ne _ _ _ _ _ (by omega), getD_set_self _ _ _ _ hwi]
      simp only [compl64, Nat.one_shiftLeft, Nat.testBit_or, Nat.testBit_and, Nat.testBit_xor,
        Nat.testBit_shiftLeft, Nat.testBit_two_pow_sub_one]
      simp [show ¬ (s.bitPos % 64 ≤ i % 64) by omega, hbig]
    · by_cases hd1 : i / 64 = s.bitPos / 64 + 1
      · rw [hd1, getD_set_self _ _ _ _ (by rw [List.length_set]; exact hwi1)]
        simp only [compl64, Nat.one_shiftLeft, Nat.testBit_or, Nat.testBit_and, Nat.testBit_xor,
          Nat.testBit_shiftRight, Nat.testBit_two_pow_sub_one]
        simp [hbig, show ¬ (i % 64 < n - (64 - s.bitPos % 64)) by omega]
      · rw [getD_set_ne _ _ _ _ _ (by omega), getD_set_ne _ _ _ _ _ (by omega)]

theorem Serializer.readBits64_fail (s : Serializer) (n : Nat)
    (h : s.bufferSize < s.bitPos + n) : s.readBits64 n = (false, 0, s) := by
  unfold Serializer.readBits64
  rw [if_pos (by omega)]

theorem Serializer.readBits64_state (s : Serializer) (n : Nat)
    (h : s.bitPos + n ≤ s.bufferSize) :
    (s.readBits64 n).1 = true ∧
      (s.readBits64 n).2.2 = { s with bitPos := s.bitPos + n } := by
  unfold Serializer.readBits64
  rw [if_neg (by omega)]
  by_cases hsd : s.bitPos % 64 + n ≤ 64 <;> simp [hsd]

theorem Serializer.readBits64_buffer (s : Serializer) (n : Nat) :
    (s.readBits64 n).2.2.buffer = s.buffer ∧
      (s.readBits64 n).2.2.bufferSize = s.bufferSize := by
  unfold Serializer.readBits64
  by_cases h : s.bitPos + n > s.bufferSize
  · rw [if_pos h]; exact ⟨rfl, rfl⟩
  · rw [if_neg h]
    by_cases hsd : s.bitPos % 64 + n ≤ 64 <;> simp [hsd]

theorem Serializer.readBits64_window (s : Serializer) (w n : Nat) (hn : n ≤ 64)
    (hub : n = 64 → s.bitPos % 64 ≠ 0)
    (hcap : s.bitPos + n ≤ s.bufferSize) (hw : w < 2 ^ n)
    (hbits : ∀ j, j < n → s.bitAt (s.bitPos + j) = w.testBit j) :
    s.readBits64 n = (true, w, { s with bitPos := s.bitPos + n }) := by
  have hbi : s.bitPos % 64 < 64 := Nat.mod_lt _ (by norm_num)
  have hp := Nat.div_add_mod s.bitPos 64
  unfold Serializer.readBits64
  rw [if_neg (by omega)]
  by_cases hsd : s.bitPos % 64 + n ≤ 64
  · have h63 : n % 64 = n := by
      by_cases h : n = 64
      · exact absurd (show s.bitPos % 64 = 0 by omega) (hub h)
      · omega
    rw [if_pos hsd, h63]
    simp only [Prod.mk.injEq, and_true, true_and]
    apply Nat.eq_of_testBit_eq
    intro k
    simp only [Nat.one_shiftLeft, Nat.testBit_and, Nat.testBit_shiftRight,
      Nat.testBit_two_pow_sub_one]
    by_cases hk : k < n
    · have h1 := hbits k hk
      unfold Serializer.bitAt at h1
      have hdiv : (s.bitPos + k) / 64 = s.bitPos / 64 := by omega
      have hmod : (s.bitPos + k) % 64 = s.bitPos % 64 + k := by omega
      rw [hdiv, hmod, List.getD_eq_getElem?_getD] at h1
      simp [h1, hk]
    · have h2 : w.testBit k = false :=
        Nat.testBit_lt_two_pow
          (lt_of_lt_of_le hw (Nat.pow_le_pow_right (by norm_num) (by omega)))
      simp [hk, h2]
  · rw [if_neg hsd]
    simp only [Prod.mk.injEq, and_true, true_and]
    apply Nat.eq_of_testBit_eq
    intro k
    simp only [Nat.one_shiftLeft, Nat.testBit_or, Nat.testBit_and, Nat.testBit_shiftLeft,
      Nat.testBit_shiftRight, Nat.testBit_two_pow_sub_one]
    by_cases hk : k < n
    · have h1 := hbits k hk
      unfold Serializer.bitAt at h1
      by_cases hk1 : s.bitPos % 64 + k < 64
      · have hdiv : (s.bitPos + k) / 64 = s.bitPos / 64 := by omega
        have hmod : (s.bitPos + k) % 64 = s.bitPos % 64 + k := by omega
        rw [hdiv, hmod, List.getD_eq_getElem?_getD] at h1
        simp [h1, show k < 64 - s.bitPos % 64 by omega,
          show ¬ (64 - s.bitPos % 64 ≤ k) by omega]
      · have hdiv : (s.bitPos + k) / 64 = s.bitPos / 64 + 1 := by omega
        have hmod : (s.bitPos + k) % 64 = s.bitPos % 64 + k - 64 := by omega
        rw [hdiv, hmod] at h1
        have e1 : k - (64 - s.bitPos % 64) = s.bitPos % 64 + k - 64 := by omega
        rw [e1]
        rw [List.getD_eq_getElem?_getD] at h1
        simp [h1, show ¬ (k < 64 - s.bitPos % 64) by omega,
          show 64 - s.bitPos % 64 ≤ k by omega,
          show s.bitPos % 64 + k - 64 < n - (64 - s.bitPos % 64) by omega]
    · have h2 : w.testBit k = false :=
        Nat.testBit_lt_two_pow
          (lt_of_lt_of_le hw (Nat.pow_le_pow_right (by norm_num) (by omega)))
      simp only [h2]
      by_cases hk1 : k < 64 - s.bitPos % 64
      · simp [show ¬ (k < n) from hk, hk1, show ¬ (64 - s.bitPos % 64 ≤ k) by omega]
        omega
      · simp [show ¬ (k < n) from hk, hk1, show 64 - s.bitPos % 64 ≤ k by omega,
          show ¬ (k - (64 - s.bitPos % 64) < n - (64 - s.bitPos % 64)) by omega]

theorem Serializer.seek_bitAt (s : Serializer) (p i : Nat) : (s.seek p).bitAt i = s.bitAt i := rfl

theorem Serializer.seek_buffer (s : Serializer) (p : Nat) : (s.seek p).buffer = s.buffer := rfl

theorem WStep.refl (s : Serializer) : WStep s s := ⟨rfl, rfl, Nat.le_refl _, fun _ _ => rfl⟩

theorem WStep.comp {s t u : Serializer} (h1 : WStep s t) (h2 : WStep t u) : WStep s u := by
  refine ⟨h2.len.trans h1.len, h2.size.trans h1.size, h1.mono.trans h2.mono, fun i hi => ?_⟩
  have m1 := h1.mono
  have m2 := h2.mono
  have e2 : u.bitAt i = t.bitAt i := by
    refine h2.frame i ?_
    rcases hi with h | h
    · exact Or.inl (by omega)
    · exact Or.inr h
  have e1 : t.bitAt i = s.bitAt i := by
    refine h1.frame i ?_
    rcases hi with h | h
    · exact Or.inl h
    · exact Or.inr (by omega)
  rw [e2, e1]

theorem Serializer.writeBits64_wstep (s : Serializer) (v n : Nat) (hn : n ≤ 64)
    (hwf : s.bufferSize ≤ 64 * s.buffer.length) :
    WStep s (s.writeBits64 v n).2 := by
  by_cases hcap : s.bitPos + n ≤ s.bufferSize
  · obtain ⟨h1, h2, h3, h4⟩ := s.writeBits64_state v n hcap
    refine ⟨h4, h3, by omega, fun i hi => ?_⟩
    refine s.writeBits64_frame v n hn hwf hcap i ?_
    rw [h2] at hi
    exact hi
  · rw [Serializer.writeBits64_fail _ _ _ (by omega)]
    exact WStep.refl s

theorem Serializer.writeBitsU_eq64 (s : Serializer) (v n : Nat) :
    s.writeBitsU v n = s.writeBits64 v n := by
  unfold Serializer.writeBitsU
  by_cases h : s.bitPos + n > s.bufferSize
  · rw [if_pos h, Serializer.writeBits64_fail _ _ _ (by omega)]
  · rw [if_neg h]

theorem Serializer.writeBitsI_eq64 (s : Serializer) (v : Int) (n : Nat) :
    s.writeBitsI v n = s.writeBits64 (patI v n) n := by
  unfold Serializer.writeBitsI
  by_cases h : s.bitPos + n > s.bufferSize
  · rw [if_pos h, Serializer.writeBits64_fail _ _ _ (by omega)]
  · rw [if_neg h]

theorem Serializer.padToNext_wstep (s : Serializer)
    (hwf : s.bufferSize ≤ 64 * s.buffer.length) : WStep s s.padToNext := by
  unfold Serializer.padToNext
  by_cases h : s.bitPos % 8 ≠ 0
  · rw [if_pos h, Serializer.writeBitsU_eq64]
    exact s.writeBits64_wstep 0 (8 - s.bitPos % 8) (by omega) hwf
  · rw [if_neg h]
    exact WStep.refl s

theorem Serializer.padToNext_pos (s : Serializer)
    (hcap : (s.bitPos + 8 - 1) / 8 * 8 ≤ s.bufferSize) :
    s.padToNext.bitPos = (s.bitPos + 8 - 1) / 8 * 8 := by
  unfold Serializer.padToNext
  by_cases h : s.bitPos % 8 ≠ 0
  · rw [if_pos h, Serializer.writeBitsU_eq64]
    have := (s.writeBits64_state 0 (8 - s.bitPos % 8) (by omega)).2.1
    rw [this]
    omega
  · rw [if_neg h]
    omega

/-! ### The sign/magnitude pattern -/

theorem testBit_compl64 (x k : Nat) :
    (compl64 x).testBit k = (decide (k < 64) != x.testBit k) := by
  simp only [compl64, Nat.testBit_xor, Nat.testBit_two_pow_sub_one]

theorem toPat64_of_nonneg (w : Int) (h0 : 0 ≤ w) (h : w < 2 ^ 64) :
    toPat64 w = w.toNat := by
  unfold toPat64
  show (w % (2 ^ 64 : Int)).toNat = w.toNat
  rw [Int.emod_eq_of_lt h0 (by exact_mod_cast h)]

theorem ofPat64_of_lt (p : Nat) (h : p < 2 ^ 63) : ofPat64 p = (p : Int) := by
  unfold ofPat64
  rw [if_pos h]

theorem signMask_eq_of_le (n : Nat) (hn1 : 1 ≤ n) (hn : n ≤ 31) :
    signMask n = 2 ^ (n - 1) := by
  unfold signMask
  rw [show (n - 1) % 32 = n - 1 by omega, if_neg (by omega)]

theorem signMask_testBit (n k : Nat) (hn2 : 2 ≤ n) (hn : n ≤ 32) (hk : k < n) :
    (signMask n).testBit k = decide (k = n - 1) := by
  by_cases h32 : n = 32
  · subst h32
    unfold signMask
    rw [if_pos (by norm_num)]
    rw [show (2 : Nat) ^ 64 - 2 ^ 31 = (2 ^ 33 - 1) <<< 31 from by
      rw [Nat.shiftLeft_eq]
      norm_num]
    simp only [Nat.testBit_shiftLeft, Nat.testBit_two_pow_sub_one]
    by_cases hk31 : k = 31
    · subst hk31
      simp
    · simp [show ¬ (31 ≤ k) by omega, hk31]
  · rw [signMask_eq_of_le n (by omega) (by omega), Nat.testBit_two_pow]
    by_cases h : k = n - 1
    · simp [h]
    · simp [h, show n - 1 ≠ k from fun hh => h hh.symm]

theorem signMask_and_eq (t n : Nat) (hn2 : 2 ≤ n) (hn : n ≤ 32) (ht : t < 2 ^ n) :
    t &&& signMask n = t &&& 2 ^ (n - 1) := by
  apply Nat.eq_of_testBit_eq
  intro k
  simp only [Nat.testBit_and, Nat.testBit_two_pow]
  by_cases hk : k < n
  · rw [signMask_testBit n k hn2 hn hk]
    by_cases h : k = n - 1
    · simp [h]
    · simp [h, show ¬ (n - 1 = k) from fun hh => h hh.symm]
  · have hz : t.testBit k = false :=
      Nat.testBit_lt_two_pow
        (lt_of_lt_of_le ht (Nat.pow_le_pow_right (by norm_num) (by omega)))
    simp [hz]

theorem signMask_and_compl_eq (t n : Nat) (hn2 : 2 ≤ n) (hn : n ≤ 32) (ht : t < 2 ^ n) :
    t &&& compl64 (signMask n) = t &&& compl64 (2 ^ (n - 1)) := by
  apply Nat.eq_of_testBit_eq
  intro k
  simp only [Nat.testBit_and, testBit_compl64, Nat.testBit_two_pow]
  by_cases hk : k < n
  · rw [signMask_testBit n k hn2 hn hk]
    by_cases h : k = n - 1
    · simp [h]
    · simp [h, show ¬ (n - 1 = k) from fun hh => h hh.symm]
  · have hz : t.testBit k = false :=
      Nat.testBit_lt_two_pow
        (lt_of_lt_of_le ht (Nat.pow_le_pow_right (by norm_num) (by omega)))
    simp [hz]

theorem patI_testBit_low (v : Int) (n : Nat) (hn2 : 2 ≤ n) (hn : n ≤ 32)
    (hlo : -(2 ^ (n - 1)) ≤ v) (hhi : v < 2 ^ (n - 1)) (j : Nat) (hj : j < n - 1) :
    (patI v n).testBit j = v.natAbs.testBit j := by
  have hcast : ((2 ^ (n - 1) : Nat) : Int) = 2 ^ (n - 1) := by push_cast; ring
  rw [← hcast] at hlo hhi
  have hpow : (2 : Nat) ^ (n - 1) ≤ 2 ^ 63 :=
    Nat.pow_le_pow_right (by norm_num) (by omega)
  have h64 : (2 : Nat) ^ 63 < 2 ^ 64 := by norm_num
  unfold patI
  by_cases hv : v < 0
  · rw [if_pos hv, toPat64_of_nonneg (-v) (by omega) (by push_cast; omega)]
    have habs : (-v).toNat = v.natAbs := by omega
    rw [habs]
    simp only [Nat.testBit_or]
    rw [signMask_testBit n j hn2 hn (by omega)]
    simp [show ¬ (j = n - 1) by omega]
  · rw [if_neg hv, toPat64_of_nonneg v (by omega) (by push_cast; omega)]
    have habs : v.toNat = v.natAbs := by omega
    rw [habs]
    simp only [Nat.testBit_and, testBit_compl64]
    rw [signMask_testBit n j hn2 hn (by omega)]
    simp [show ¬ (j = n - 1) by omega, show j < 64 by omega]

theorem patI_testBit_top (v : Int) (n : Nat) (hn2 : 2 ≤ n) (hn : n ≤ 32)
    (hlo : -(2 ^ (n - 1)) ≤ v) (hhi : v < 2 ^ (n - 1)) :
    (patI v n).testBit (n - 1) = decide (v < 0) := by
  have hcast : ((2 ^ (n - 1) : Nat) : Int) = 2 ^ (n - 1) := by push_cast; ring
  rw [← hcast] at hlo hhi
  have hpow : (2 : Nat) ^ (n - 1) ≤ 2 ^ 63 :=
    Nat.pow_le_pow_right (by norm_num) (by omega)
  unfold patI
  by_cases hv : v < 0
  · rw [if_pos hv]
    simp only [Nat.testBit_or]
    rw [signMask_testBit n (n - 1) hn2 hn (by omega)]
    simp [hv]
  · rw [if_neg hv, toPat64_of_nonneg v (by omega) (by push_cast; omega)]
    simp only [Nat.testBit_and, testBit_compl64]
    rw [signMask_testBit n (n - 1) hn2 hn (by omega)]
    simp [hv, show n - 1 < 64 by omega]

theorem patI_masked (v : Int) (n : Nat) (hn2 : 2 ≤ n) (hn : n ≤ 32)
    (hlo : -(2 ^ (n - 1)) ≤ v) (hhi : v < 2 ^ (n - 1)) :
    (patI v n % 2 ^ n) &&& compl64 (2 ^ (n - 1)) = v.natAbs % 2 ^ (n - 1) := by
  apply Nat.eq_of_testBit_eq
  intro k
  simp only [Nat.testBit_and, testBit_compl64, Nat.testBit_mod_two_pow, Nat.testBit_two_pow]
  by_cases hk : k < n - 1
  · rw [patI_testBit_low v n hn2 hn hlo hhi k hk]
    simp [show k < n by omega, show k < 64 by omega, show ¬ (n - 1 = k) by omega, hk]
  · by_cases hk2 : k = n - 1
    · subst hk2
      simp [show n - 1 < n by omega, show n - 1 < 64 by omega]
    · simp [show ¬ (k < n) by omega, hk]

theorem patI_mod_eq_of_nonneg (v : Int) (n : Nat) (hn2 : 2 ≤ n) (hn : n ≤ 32)
    (hv : 0 ≤ v) (hhi : v < 2 ^ (n - 1)) :
    patI v n % 2 ^ n = v.toNat := by
  have hcast : ((2 ^ (n - 1) : Nat) : Int) = 2 ^ (n - 1) := by push_cast; ring
  rw [← hcast] at hhi
  have hpow : (2 : Nat) ^ (n - 1) ≤ 2 ^ 63 :=
    Nat.pow_le_pow_right (by norm_num) (by omega)
  have hnn : (2 : Nat) ^ (n - 1) < 2 ^ n := Nat.pow_lt_pow_right (by norm_num) (by omega)
  have h1 : patI v n = v.toNat := by
    unfold patI
    rw [if_neg (by omega), toPat64_of_nonneg v hv (by push_cast; omega)]
    apply Nat.eq_of_testBit_eq
    intro k
    simp only [Nat.testBit_and, testBit_compl64]
    by_cases hk : k < n - 1
    · rw [signMask_testBit n k hn2 hn (by omega)]
      simp [show ¬ (k = n - 1) by omega, show k < 64 by omega]
    · have hz : v.toNat.testBit k = false := by
        apply Nat.testBit_lt_two_pow
        have : (2 : Nat) ^ (n - 1) ≤ 2 ^ k := Nat.pow_le_pow_right (by norm_num) (by omega)
        omega
      simp [hz]
  rw [h1]
  exact Nat.mod_eq_of_lt (by omega)

/-- Decoding after a signed write: if the `n`-bit window at the cursor of
`u` holds the pattern `patI v n`, the signed read returns `v` back unless
`v` was the excluded minimum, which collapses to 0.  Widths are limited to
32 bits, where the `int`-typed sign mask `1 << (n-1)` is (once widened and
windowed) the intended bit `n-1`. -/
theorem Serializer.readBitsI_decode (u : Serializer) (v : Int) (n : Nat)
    (hn2 : 2 ≤ n) (hn : n ≤ 32)
    (hcap : u.bitPos + n ≤ u.bufferSize)
    (hlo : -(2 ^ (n - 1)) ≤ v) (hhi : v < 2 ^ (n - 1))
    (hbits : ∀ j, j < n → u.bitAt (u.bitPos + j) = (patI v n).testBit j) :
    u.readBitsI n = (true, if -(2 ^ (n - 1)) < v then v else 0,
      { u with bitPos := u.bitPos + n }) := by
  have hcast : ((2 ^ (n - 1) : Nat) : Int) = 2 ^ (n - 1) := by push_cast; ring
  have hpow : (2 : Nat) ^ (n - 1) ≤ 2 ^ 63 :=
    Nat.pow_le_pow_right (by norm_num) (by omega)
  have hp1 : 0 < (2 : Nat) ^ (n - 1) := Nat.pos_pow_of_pos _ (by norm_num)
  have hmod : patI v n % 2 ^ n < 2 ^ n := Nat.mod_lt _ (Nat.pos_pow_of_pos n (by norm_num))
  have hb2 : ∀ j, j < n → u.bitAt (u.bitPos + j) = (patI v n % 2 ^ n).testBit j := by
    intro j hj
    rw [hbits j hj, Nat.testBit_mod_two_pow]
    simp [hj]
  have h64 := u.readBits64_window (patI v n % 2 ^ n) n (by omega) (fun h => by omega)
    hcap hmod hb2
  have htop : (patI v n % 2 ^ n).testBit (n - 1) = decide (v < 0) := by
    rw [Nat.testBit_mod_two_pow, patI_testBit_top v n hn2 hn hlo hhi]
    simp [show n - 1 < n by omega]
  have hred : u.readBitsI n = (if patI v n % 2 ^ n &&& signMask n ≠ 0 then
      (true, -(ofPat64 (patI v n % 2 ^ n &&& compl64 (signMask n))),
        { u with bitPos := u.bitPos + n })
    else (true, ofPat64 (patI v n % 2 ^ n), { u with bitPos := u.bitPos + n })) := by
    unfold Serializer.readBitsI
    rw [h64]
    rfl
  rw [signMask_and_eq _ n hn2 hn hmod, signMask_and_compl_eq _ n hn2 hn hmod] at hred
  rw [hred]
  by_cases hv : v < 0
  · have hand : patI v n % 2 ^ n &&& 2 ^ (n - 1) ≠ 0 := by
      rw [Nat.and_two_pow, htop]
      simp [hv]
    rw [if_pos hand, patI_masked v n hn2 hn hlo hhi]
    have habs : v.natAbs % 2 ^ (n - 1) < 2 ^ 63 := by
      have := Nat.mod_lt v.natAbs hp1
      omega
    rw [ofPat64_of_lt _ (by omega)]
    rw [← hcast] at hlo hhi ⊢
    by_cases hmin : -((2 ^ (n - 1) : Nat) : Int) < v
    · rw [if_pos hmin]
      have h1 : v.natAbs < 2 ^ (n - 1) := by omega
      rw [Nat.mod_eq_of_lt h1]
      simp only [Prod.mk.injEq, and_true, true_and]
      omega
    · rw [if_neg hmin]
      have h1 : v.natAbs = 2 ^ (n - 1) := by omega
      rw [h1, Nat.mod_self]
      simp
  · have hand : ¬ (patI v n % 2 ^ n &&& 2 ^ (n - 1) ≠ 0) := by
      rw [Nat.and_two_pow, htop]
      simp [hv]
    rw [if_neg hand, patI_mod_eq_of_nonneg v n hn2 hn (by omega) hhi]
    rw [← hcast] at hhi ⊢
    rw [ofPat64_of_lt _ (by omega)]
    rw [if_pos (by omega)]
    simp only [Prod.mk.injEq, and_true, true_and]
    omega

theorem Serializer.mk_pos_eta (t : Serializer) (p : Nat) (h : t.bitPos = p) :
    ({ t with bitPos := p } : Serializer) = t := by
  cases t
  simp_all

/-- C7: for every bit position and every bit count `n ≤ 64`, `writeBits64`
returns failure with the state (hence the position) unchanged exactly when
`pos + n > cap_bits`; otherwise it succeeds, appends the `n` low bits of
the value at `pos`, advances `pos` by `n`, leaves every other buffer bit
unchanged, and a subsequent `readBits64 n` from the same position succeeds,
returns exactly those `n` low bits, advances `pos` by `n`, and leaves the
buffer as the write left it.  Amended: the case `n = 64` at a word-aligned
position is excluded, because there the mask `(1ULL << bits) - 1` shifts a
64-bit value by 64, and the masked shift count makes the mask 0 (the write
stores nothing and the read returns 0). -/
theorem c7_writeBits64_readBits64 (s : Serializer) (v n : Nat) (hn : n ≤ 64)
    (hub : n = 64 → s.bitPos % 64 ≠ 0)
    (hwf : s.bufferSize ≤ 64 * s.buffer.length) :
    (s.bufferSize < s.bitPos + n → s.writeBits64 v n = (false, s)) ∧
    (s.bitPos + n ≤ s.bufferSize →
      (s.writeBits64 v n).1 = true ∧
      (s.writeBits64 v n).2.bitPos = s.bitPos + n ∧
      (∀ j, j < n → (s.writeBits64 v n).2.bitAt (s.bitPos + j) = v.testBit j) ∧
      (∀ i, i < s.bitPos ∨ s.bitPos + n ≤ i → (s.writeBits64 v n).2.bitAt i = s.bitAt i) ∧
      ((s.writeBits64 v n).2.seek s.bitPos).readBits64 n =
        (true, v % 2 ^ n, (s.writeBits64 v n).2)) := by
  constructor
  · exact fun h => s.writeBits64_fail v n h
  · intro hcap
    obtain ⟨h1, h2, h3, h4⟩ := s.writeBits64_state v n hcap
    refine ⟨h1, h2, fun j hj => s.writeBits64_window v n hn hub hwf hcap j hj,
      fun i hi => s.writeBits64_frame v n hn hwf hcap i hi, ?_⟩
    have h64 := (((s.writeBits64 v n).2).seek s.bitPos).readBits64_window (v % 2 ^ n) n hn
      (fun h => by simpa [Serializer.seek] using hub h)
      (by simpa [Serializer.seek, h3] using hcap)
      (Nat.mod_lt _ (Nat.pos_pow_of_pos n (by norm_num)))
      (by
        intro j hj
        rw [Serializer.seek_bitAt]
        show ((s.writeBits64 v n).2).bitAt ((s.seek s.bitPos).bitPos + j) = _
        rw [Serializer.seek]
        simp only
        rw [s.writeBits64_window v n hn hub hwf hcap j hj, Nat.testBit_mod_two_pow]
        simp [hj])
    rw [h64]
    congr 1
    congr 1
    show ({ (s.writeBits64 v n).2 with bitPos := s.bitPos + n } : Serializer) = _
    exact Serializer.mk_pos_eta _ _ h2

/-- C7 witness at a concrete input: a 16-bit value written into a fresh
16-byte stream reads back unchanged. -/
theorem c7_witness :
    (((Serializer.init 16).writeBits64 43981 16).2.seek (Serializer.init 16).bitPos).readBits64 16 =
      (true, 43981 % 2 ^ 16, ((Serializer.init 16).writeBits64 43981 16).2) :=
  ((c7_writeBits64_readBits64 (Serializer.init 16) 43981 16 (by norm_num)
    (fun h => absurd h (by decide)) (by decide)).2
    (by decide)).2.2.2.2

/-- C7 counterexample: writing the value 1 with all 64 bits at the
word-aligned start of a fresh 16-byte stream reports success, yet a
read-back of the same 64 bits returns 0, not `1 % 2 ^ 64 = 1`: the C++
single-word mask `(1ULL << 64) - 1` evaluates (with the shift count taken
mod 64 as on mainstream targets) to 0, so the write stores nothing. -/
theorem c7_counterexample :
    ((Serializer.init 16).writeBits64 1 64).1 = true ∧
    (((Serializer.init 16).writeBits64 1 64).2.seek 0).readBits64 64 =
      (true, 0, ((Serializer.init 16).writeBits64 1 64).2) ∧
    (0 : Nat) ≠ 1 % 2 ^ 64 := by
  refine ⟨by decide, by decide, by decide⟩

/-- C5: for a signed type of width `n = 8·sizeof(T)` and a value `v` of
that type, the signed `writeBits` sets the top bit of the `n`-bit window
to 1 iff `v < 0` and places `|v|` in the lower `n-1` bits; the signed
`readBits` reverses this, and the write-then-read composition returns `v`
exactly when `|v| < 2^(n-1)` (the excluded minimum reads back as 0).
Amended: restricted to the widths 8, 16 and 32, where the `int`-typed sign
mask `1 << (bits - 1)` is well defined; at width 64 the mask's shift count
is taken mod 32 on mainstream targets and the claim fails. -/
theorem c5_signed_sign_magnitude (s : Serializer) (v : Int) (n : Nat)
    (hn : n = 8 ∨ n = 16 ∨ n = 32)
    (hwf : s.bufferSize ≤ 64 * s.buffer.length)
    (hcap : s.bitPos + n ≤ s.bufferSize)
    (hlo : -(2 ^ (n - 1)) ≤ v) (hhi : v < 2 ^ (n - 1)) :
    (s.writeBitsI v n).1 = true ∧
    (s.writeBitsI v n).2.bitAt (s.bitPos + (n - 1)) = decide (v < 0) ∧
    (∀ j, j < n - 1 → (s.writeBitsI v n).2.bitAt (s.bitPos + j) = v.natAbs.testBit j) ∧
    ((s.writeBitsI v n).2.seek s.bitPos).readBitsI n =
      (true, if -(2 ^ (n - 1)) < v then v else 0, (s.writeBitsI v n).2) ∧
    ((((s.writeBitsI v n).2.seek s.bitPos).readBitsI n).2.1 = v ↔ v.natAbs < 2 ^ (n - 1)) := by
  have hn2 : 2 ≤ n := by rcases hn with h | h | h <;> omega
  have hn32 : n ≤ 32 := by rcases hn with h | h | h <;> omega
  rw [Serializer.writeBitsI_eq64]
  obtain ⟨h1, h2, h3, h4⟩ := s.writeBits64_state (patI v n) n hcap
  have hwin := fun j hj => s.writeBits64_window (patI v n) n (by omega)
    (fun h => by omega) hwf hcap j hj
  have hrd : (((s.writeBits64 (patI v n) n).2).seek s.bitPos).readBitsI n =
      (true, if -(2 ^ (n - 1)) < v then v else 0,
        { ((s.writeBits64 (patI v n) n).2).seek s.bitPos with bitPos := s.bitPos + n }) := by
    have := (((s.writeBits64 (patI v n) n).2).seek s.bitPos).readBitsI_decode v n hn2 hn32
      (by simpa [Serializer.seek, h3] using hcap) hlo hhi
      (by
        intro j hj
        rw [Serializer.seek_bitAt]
        show ((s.writeBits64 (patI v n) n).2).bitAt ((s.seek s.bitPos).bitPos + j) = _
        rw [Serializer.seek]
        simp only
        exact hwin j hj)
    simpa [Serializer.seek] using this
  have hst : ({ ((s.writeBits64 (patI v n) n).2).seek s.bitPos with bitPos := s.bitPos + n }
      : Serializer) = (s.writeBits64 (patI v n) n).2 := by
    show ({ (s.writeBits64 (patI v n) n).2 with bitPos := s.bitPos + n } : Serializer) = _
    exact Serializer.mk_pos_eta _ _ h2
  rw [hst] at hrd
  have hcast : ((2 ^ (n - 1) : Nat) : Int) = 2 ^ (n - 1) := by push_cast; ring
  refine ⟨h1, ?_, ?_, hrd, ?_⟩
  · rw [hwin (n - 1) (by omega)]
    exact patI_testBit_top v n hn2 hn32 hlo hhi
  · intro j hj
    rw [hwin j (by omega)]
    exact patI_testBit_low v n hn2 hn32 hlo hhi j hj
  · rw [hrd]
    rw [← hcast] at hlo hhi ⊢
    have hp1 : 0 < (2 : Nat) ^ (n - 1) := Nat.pos_pow_of_pos _ (by norm_num)
    by_cases hmin : -((2 ^ (n - 1) : Nat) : Int) < v
    · rw [if_pos hmin]
      constructor
      · intro _
        omega
      · intro _
        rfl
    · rw [if_neg hmin]
      show (0 : Int) = v ↔ v.natAbs < 2 ^ (n - 1)
      constructor
      · intro h0
        exfalso
        omega
      · intro hab
        exfalso
        omega

/-- C5 witness at a concrete input: writing the 8-bit signed value -5 and
reading it back returns -5. -/
theorem c5_witness :
    ((((Serializer.init 8).writeBitsI (-5) 8).2.seek (Serializer.init 8).bitPos).readBitsI 8).2.1
      = -5 := by
  have h := (c5_signed_sign_magnitude (Serializer.init 8) (-5) 8 (Or.inl rfl) (by decide)
    (by decide) (by norm_num) (by norm_num)).2.2.2.1
  rw [h]
  norm_num

/-- C5 counterexample at width 64: the value `2^31` has magnitude well
below `2^63`, so the claim says it reads back unchanged, but the `int`
sign mask `1 << 63` has its shift count taken mod 32 on mainstream
targets, giving `INT_MIN` which widens to a mask over bits 31..63; the
positive write clears those bits, so the pattern stored is 0 and the
read-back (via the defined misaligned double-word path at position 8)
returns 0, not `2^31`. -/
theorem c5_counterexample :
    (((Serializer.init 32).seek 8).writeBitsI (2 ^ 31) 64).1 = true ∧
    (((((Serializer.init 32).seek 8).writeBitsI (2 ^ 31) 64).2.seek 8).readBitsI 64).2.1
      = 0 ∧
    ((2 ^ 31 : Int).natAbs < 2 ^ (64 - 1)) ∧
    (0 : Int) ≠ 2 ^ 31 := by
  refine ⟨by decide, by decide, by decide, by decide⟩

/-- C6 (code behaviour at the failing input): a number field whose next two
stream bits are `01` does not decode to 1 — `readNumberImpl` rejects any
discriminator other than `00` and `11`, so `Value<T>::deserialize` returns
failure and leaves the field value unchanged, while a boolean field decodes
the same two bits as `true`. -/
theorem c6_eval :
    ((Serializer.init 32).writeBitsU 1 2).1 = true ∧
    (Field.deserialize (.vnumU 4 7) (((Serializer.init 32).writeBitsU 1 2).2.seek 0)).1
      = false ∧
    (Field.deserialize (.vnumU 4 7) (((Serializer.init 32).writeBitsU 1 2).2.seek 0)).2.1
      = .vnumU 4 7 ∧
    (Field.deserialize (.vbool false) (((Serializer.init 32).writeBitsU 1 2).2.seek 0)).1
      = true ∧
    (Field.deserialize (.vbool false) (((Serializer.init 32).writeBitsU 1 2).2.seek 0)).2.1
      = .vbool true := by
  decide

/-- C2 (code behaviour at the failing input): take single-boolean records
A (true) and B (false).  The diff stream produced with writer state A and
base B (the call `B.serializeDiff(ser, A)`, as in the repository's own
`test_diff_roundtrip`), applied by `deserializeDiff` to a receiver C equal
to B, leaves C equal to B — not equal to A as the delta-apply law demands —
because `ValueBool::serializeDiff` writes the bool of the object it is
called on and ignores `other`. -/
theorem c2_eval :
    (linkSerializeDiff [.vbool false] [.vbool true] (Serializer.init 32)).1 = true ∧
    (linkDeserializeDiff [.vbool false]
      ((linkSerializeDiff [.vbool false] [.vbool true] (Serializer.init 32)).2.seek 0)).1
      = true ∧
    (linkDeserializeDiff [.vbool false]
      ((linkSerializeDiff [.vbool false] [.vbool true] (Serializer.init 32)).2.seek 0)).2.1
      = [.vbool false] ∧
    (linkDeserializeDiff [.vbool false]
      ((linkSerializeDiff [.vbool false] [.vbool true] (Serializer.init 32)).2.seek 0)).2.1
      ≠ [.vbool true] := by
  decide

/-- C4 counterexample: a `ValueArray<uint8_t, 1>` holding 0 serializes to
24 bits (16-bit header plus one 8-bit element) from a fresh stream, but
`getTotalBitSize` budgets only 23 bits for it (the 8-bit array count byte
is only granted when the length exceeds 1). -/
theorem c4_counterexample :
    (linkSerialize [.varrU 1 [0]] (Serializer.init 100)).1 = true ∧
    (linkSerialize [.varrU 1 [0]] (Serializer.init 100)).2.bitPos = 24 ∧
    (Serializer.init 100).bitPos = 0 ∧
    linkTotalBitSize [.varrU 1 [0]] = 23 := by
  decide

/-- C1 counterexample: a record consisting of one `Value<uint64_t>` holding
1, on a stream with ample capacity, serializes successfully (writing its
64-bit width as `64 % 64 = 0` into the 6-bit size field), but deserializing
the produced stream into a record of the same field sequence fails. -/
theorem c1_counterexample :
    linkTotalBitSize [.vnumU 8 1] ≤ (Serializer.init 100).bufferSize ∧
    (linkSerialize [.vnumU 8 1] (Serializer.init 100)).1 = true ∧
    (linkDeserialize [.vnumU 8 0]
      ((linkSerialize [.vnumU 8 1] (Serializer.init 100)).2.seek 0)).1 = false := by
  decide

/-! ### Bundled per-operation specifications for the write/read walks -/

theorem Serializer.writeBitsU_spec (s : Serializer) (v n : Nat) (hn : n ≤ 63)
    (hwf : s.bufferSize ≤ 64 * s.buffer.length)
    (hcap : s.bitPos + n ≤ s.bufferSize) :
    (s.writeBitsU v n).1 = true ∧
    (s.writeBitsU v n).2.bitPos = s.bitPos + n ∧
    (s.writeBitsU v n).2.bufferSize = s.bufferSize ∧
    (s.writeBitsU v n).2.buffer.length = s.buffer.length ∧
    (∀ j, j < n → (s.writeBitsU v n).2.bitAt (s.bitPos + j) = v.testBit j) ∧
    WStep s (s.writeBitsU v n).2 := by
  rw [Serializer.writeBitsU_eq64]
  obtain ⟨h1, h2, h3, h4⟩ := s.writeBits64_state v n hcap
  exact ⟨h1, h2, h3, h4,
    fun j hj => s.writeBits64_window v n (by omega) (fun h => by omega) hwf hcap j hj,
    s.writeBits64_wstep v n (by omega) hwf⟩

theorem Serializer.writeBitsI_spec (s : Serializer) (v : Int) (n : Nat) (hn : n ≤ 63)
    (hwf : s.bufferSize ≤ 64 * s.buffer.length)
    (hcap : s.bitPos + n ≤ s.bufferSize) :
    (s.writeBitsI v n).1 = true ∧
    (s.writeBitsI v n).2.bitPos = s.bitPos + n ∧
    (s.writeBitsI v n).2.bufferSize = s.bufferSize ∧
    (s.writeBitsI v n).2.buffer.length = s.buffer.length ∧
    (∀ j, j < n → (s.writeBitsI v n).2.bitAt (s.bitPos + j) = (patI v n).testBit j) ∧
    WStep s (s.writeBitsI v n).2 := by
  rw [Serializer.writeBitsI_eq64]
  obtain ⟨h1, h2, h3, h4⟩ := s.writeBits64_state (patI v n) n hcap
  exact ⟨h1, h2, h3, h4,
    fun j hj =>
      s.writeBits64_window (patI v n) n (by omega) (fun h => by omega) hwf hcap j hj,
    s.writeBits64_wstep (patI v n) n (by omega) hwf⟩

theorem Serializer.writeByte_spec (s : Serializer) (v : Nat)
    (hwf : s.bufferSize ≤ 64 * s.buffer.length)
    (hcap : s.bitPos + 8 ≤ s.bufferSize) :
    (s.writeByte v).1 = true ∧
    (s.writeByte v).2.bitPos = s.bitPos + 8 ∧
    (s.writeByte v).2.bufferSize = s.bufferSize ∧
    (s.writeByte v).2.buffer.length = s.buffer.length ∧
    (∀ j, j < 8 → (s.writeByte v).2.bitAt (s.bitPos + j) = v.testBit j) ∧
    WStep s (s.writeByte v).2 := by
  unfold Serializer.writeByte
  obtain ⟨h1, h2, h3, h4⟩ := s.writeBits64_state v 8 hcap
  exact ⟨h1, h2, h3, h4,
    fun j hj => s.writeBits64_window v 8 (by omega) (fun h => by omega) hwf hcap j hj,
    s.writeBits64_wstep v 8 (by omega) hwf⟩

theorem Serializer.readBitsU_window (u : Serializer) (w n : Nat) (hn : n ≤ 63)
    (hcap : u.bitPos + n ≤ u.bufferSize) (hw : w < 2 ^ n)
    (hbits : ∀ j, j < n → u.bitAt (u.bitPos + j) = w.testBit j) :
    u.readBitsU n = (true, w, { u with bitPos := u.bitPos + n }) :=
  u.readBits64_window w n (by omega) (fun h => by omega) hcap hw hbits

theorem Serializer.readByte_window (u : Serializer) (w : Nat)
    (hcap : u.bitPos + 8 ≤ u.bufferSize) (hw : w < 2 ^ 8)
    (hbits : ∀ j, j < 8 → u.bitAt (u.bitPos + j) = w.testBit j) :
    u.readByte = (true, w, { u with bitPos := u.bitPos + 8 }) :=
  u.readBits64_window w 8 (by omega) (fun h => by omega) hcap hw hbits

/-- C10: `Value<T>::deserialize` never compares the decoded 6-bit size
field against T's declared width `8·sizeof(T)`.  For every size
`1 ≤ sz ≤ 63`, reading a stream holding discriminator `11`, size `sz` and
an `sz`-bit payload succeeds and assigns the payload truncated to T to the
field, whatever the relation between `sz` and `8·b`. -/
theorem c10_size_width_uncoupled (s : Serializer) (b v0 p sz : Nat)
    (hsz1 : 1 ≤ sz) (hsz2 : sz ≤ 63) (hp : p < 2 ^ sz)
    (hwf : s.bufferSize ≤ 64 * s.buffer.length)
    (hcap : s.bitPos + (8 + sz) ≤ s.bufferSize) :
    Field.deserialize (.vnumU b v0)
        ((((s.writeBitsU 3 2).2.writeBitsU sz 6).2.writeBitsU p sz).2.seek s.bitPos) =
      (true, .vnumU b (p % 2 ^ (8 * b)),
        (((s.writeBitsU 3 2).2.writeBitsU sz 6).2.writeBitsU p sz).2) := by
  obtain ⟨a1, a2, a3, a4, a5, a6⟩ := s.writeBitsU_spec 3 2 (by omega) hwf (by omega)
  set s1 := (s.writeBitsU 3 2).2 with hs1
  obtain ⟨b1, b2, b3, b4, b5, b6⟩ := s1.writeBitsU_spec sz 6 (by omega) (by omega)
    (by omega)
  set s2 := (s1.writeBitsU sz 6).2 with hs2
  obtain ⟨d1, d2, d3, d4, d5, d6⟩ := s2.writeBitsU_spec p sz (by omega) (by omega)
    (by omega)
  set s3 := (s2.writeBitsU p sz).2 with hs3
  set T := s3.seek s.bitPos with hT
  have hTpos : T.bitPos = s.bitPos := rfl
  have hTsize : T.bufferSize = s.bufferSize := by show s3.bufferSize = s.bufferSize; omega
  have hTbit : ∀ i, T.bitAt i = s3.bitAt i := fun i => rfl
  have e1 : T.readBitsU 2 = (true, 3, { T with bitPos := T.bitPos + 2 }) := by
    refine T.readBitsU_window 3 2 (by omega) (by omega) (by norm_num) ?_
    intro j hj
    rw [hTbit, hTpos]
    rw [d6.frame _ (Or.inl (by omega)), b6.frame _ (Or.inl (by omega))]
    exact a5 j hj
  have e2 : ({ T with bitPos := T.bitPos + 2 } : Serializer).readBitsU 6 =
      (true, sz, { T with bitPos := T.bitPos + 8 }) := by
    have := Serializer.readBitsU_window { T with bitPos := T.bitPos + 2 } sz 6 (by omega)
      (by show T.bitPos + 2 + 6 ≤ T.bufferSize; omega) (by omega) ?_
    · simpa using this
    · intro j hj
      show s3.bitAt (s.bitPos + 2 + j) = _
      rw [d6.frame _ (Or.inl (by omega))]
      have := b5 j hj
      rw [a2] at this
      exact this
  have e3 : ({ T with bitPos := T.bitPos + 8 } : Serializer).readBitsU sz =
      (true, p, { T with bitPos := T.bitPos + (8 + sz) }) := by
    have := Serializer.readBitsU_window { T with bitPos := T.bitPos + 8 } p sz (by omega)
      (by show T.bitPos + 8 + sz ≤ T.bufferSize; omega) hp ?_
    · simpa [Nat.add_assoc] using this
    · intro j hj
      show s3.bitAt (s.bitPos + 8 + j) = _
      have := d5 j hj
      rw [b2, a2] at this
      rw [show s.bitPos + 8 + j = s.bitPos + 2 + 6 + j by omega]
      exact this
  have hfinal : ({ T with bitPos := T.bitPos + (8 + sz) } : Serializer) = s3 := by
    show ({ s3 with bitPos := T.bitPos + (8 + sz) } : Serializer) = s3
    apply Serializer.mk_pos_eta
    omega
  show (let r := readNumberU T
    if r.1 then (true, Field.vnumU b (r.2.1 % 2 ^ (8 * b)), r.2.2)
    else (false, Field.vnumU b v0, r.2.2)) = _
  have hnum : readNumberU T = (true, p, s3) := by
    unfold readNumberU Serializer.readBitsU at e1 e2 e3 ⊢
    rw [e1]
    simp only [Bool.not_true, Bool.false_eq_true, if_false]
    rw [if_neg (by decide), if_neg (by decide)]
    rw [e2]
    simp only [Bool.not_true, Bool.false_eq_true, if_false]
    rw [if_neg (by simp only [beq_iff_eq]; omega)]
    rw [e3, hfinal]
  rw [hnum]
  rfl

/-- The body loop of `ValueString::deserialize` when only `k` of the
requested `m > k` bytes are readable: it fails after consuming exactly the
`k` readable bytes, which remain appended to the accumulator. -/
theorem readStringBytes_partial (k : Nat) : ∀ (m : Nat) (acc : List Nat) (u : Serializer),
    k < m →
    (∀ j, j < k → u.bitPos + 8 * j + 8 ≤ u.bufferSize) →
    u.bufferSize < u.bitPos + 8 * k + 8 →
    readStringBytes m acc u =
      (false, acc ++ (List.range' u.bitPos k 8).map u.byteAt,
       { u with bitPos := u.bitPos + 8 * k }) := by
  induction k with
  | zero =>
    intro m acc u hk hreads hfail
    match m, hk with
    | m + 1, _ =>
      show (let r := u.readByte
        if r.1 then readStringBytes m (acc ++ [r.2.1]) r.2.2 else (false, acc, r.2.2)) = _
      have hfl : u.readByte = (false, 0, u) := u.readBits64_fail 8 (by omega)
      rw [hfl]
      show (false, acc, u) = _
      rw [Serializer.mk_pos_eta u (u.bitPos + 8 * 0) (by omega)]
      simp [List.range']
  | succ k ih =>
    intro m acc u hk hreads hfail
    match m, hk with
    | m + 1, hk2 =>
      show (let r := u.readByte
        if r.1 then readStringBytes m (acc ++ [r.2.1]) r.2.2 else (false, acc, r.2.2)) = _
      have hst := u.readBits64_state 8 (by have := hreads 0 (by omega); omega)
      rcases hrb : u.readByte with ⟨ok, val, u1⟩
      have hrb64 : u.readBits64 8 = (ok, val, u1) := hrb
      rw [hrb64] at hst
      have hok : ok = true := hst.1
      have hu1 : u1 = { u with bitPos := u.bitPos + 8 } := hst.2
      have hval : val = u.byteAt u.bitPos := by
        have h0 : u.byteAt u.bitPos = (u.readBits64 8).2.1 := rfl
        rw [h0, hrb64]
      subst hok hval hu1
      show readStringBytes m (acc ++ [u.byteAt u.bitPos])
        ({ u with bitPos := u.bitPos + 8 }) = _
      have hrec := ih m (acc ++ [u.byteAt u.bitPos]) { u with bitPos := u.bitPos + 8 }
        (by omega)
        (by
          intro j hj
          have := hreads (j + 1) (by omega)
          simp only
          omega)
        (by simp only; omega)
      rw [hrec]
      have hfun : ({ u with bitPos := u.bitPos + 8 } : Serializer).byteAt = u.byteAt := rfl
      have hlist : (acc ++ [u.byteAt u.bitPos]) ++
            (List.range' (u.bitPos + 8) k 8).map u.byteAt =
          acc ++ (List.range' u.bitPos (k + 1) 8).map u.byteAt := by
        rw [List.range'_succ, List.map_cons, List.append_assoc, List.singleton_append]
      have hpos : ({ u with bitPos := u.bitPos + 8 } : Serializer).bitPos + 8 * k
          = u.bitPos + 8 * (k + 1) := by
        simp only
        omega
      show (false, (acc ++ [u.byteAt u.bitPos]) ++
          (List.range' (u.bitPos + 8) k 8).map u.byteAt, _) = _
      rw [hlist]
      simp only [Prod.mk.injEq, true_and, and_true]
      show ({ u with bitPos := u.bitPos + 8 + 8 * k } : Serializer) = _
      rw [show u.bitPos + 8 + 8 * k = u.bitPos + 8 * (k + 1) by omega]

/-- C9: when `ValueString::deserialize` has read a valid `11` discriminator
and a nonzero length `L` but the stream can only supply `k < L` of the body
bytes, it returns failure with the field already modified: the value has
been cleared and holds exactly the `k` body bytes read before the failing
byte read (not its pre-call value), and the cursor is left after those
bytes (the record-level rollback in `ValueLink` is what later rewinds it). -/
theorem c9_string_partial_decode (t : Serializer) (v0 : List Nat) (L k : Nat)
    (hL1 : 1 ≤ L) (hL2 : L < 2 ^ 6) (hkL : k < L)
    (hcap8 : t.bitPos + 8 ≤ t.bufferSize)
    (hdisc : ∀ j, j < 2 → t.bitAt (t.bitPos + j) = (3 : Nat).testBit j)
    (hlen : ∀ j, j < 6 → t.bitAt (t.bitPos + 2 + j) = L.testBit j)
    (hreads : ∀ j, j < k → (t.bitPos + 15) / 8 * 8 + 8 * j + 8 ≤ t.bufferSize)
    (hfail : t.bufferSize < (t.bitPos + 15) / 8 * 8 + 8 * k + 8) :
    Field.deserialize (.vstring v0) t =
      (false,
       .vstring ((List.range' ((t.bitPos + 15) / 8 * 8) k 8).map t.byteAt),
       { t with bitPos := (t.bitPos + 15) / 8 * 8 + 8 * k }) := by
  have e1 : t.readBitsU 2 = (true, 3, { t with bitPos := t.bitPos + 2 }) :=
    t.readBitsU_window 3 2 (by omega) (by omega) (by norm_num) hdisc
  have e2 : ({ t with bitPos := t.bitPos + 2 } : Serializer).readBitsU 6 =
      (true, L, { t with bitPos := t.bitPos + 8 }) := by
    have := Serializer.readBitsU_window { t with bitPos := t.bitPos + 2 } L 6 (by omega)
      (by show t.bitPos + 2 + 6 ≤ t.bufferSize; omega) hL2
      (by
        intro j hj
        show t.bitAt (t.bitPos + 2 + j) = _
        exact hlen j hj)
    simpa using this
  have halign : ({ t with bitPos := t.bitPos + 8 } : Serializer).alignByte
      = { t with bitPos := (t.bitPos + 15) / 8 * 8 } := by
    show ({ t with bitPos := (t.bitPos + 8 + 8 - 1) / 8 * 8 } : Serializer) = _
    rw [show t.bitPos + 8 + 8 - 1 = t.bitPos + 15 by omega]
  have hloop := readStringBytes_partial k L []
    ({ t with bitPos := (t.bitPos + 15) / 8 * 8 }) hkL
    (by intro j hj; simp only; exact hreads j hj)
    (by simp only; exact hfail)
  show deserializeString v0 t = _
  unfold deserializeString Serializer.readBitsU at e1 e2 ⊢
  rw [e1]
  simp only [Bool.not_true, Bool.false_eq_true, if_false]
  rw [if_neg (by decide)]
  rw [e2]
  simp only [Bool.not_true, Bool.false_eq_true, if_false]
  rw [if_neg (by simp only [beq_iff_eq]; omega)]
  rw [halign, hloop]
  simp only [List.nil_append]
  rfl

/-- C9 witness: a 64-bit stream holding discriminator `11`, length 9, and
three written bytes; only 7 bytes are readable past the aligned header, so
the decode fails with the field holding those 7 bytes. -/
theorem c9_witness :
    Field.deserialize (.vstring [1, 2, 3])
        ((writeStringBytes [65, 66, 67]
          ((((Serializer.init 3).writeBitsU 3 2).2.writeBitsU 9 6).2.padToNext)).2.seek 0) =
      (false, .vstring [65, 66, 67, 0, 0, 0, 0],
       { (writeStringBytes [65, 66, 67]
          ((((Serializer.init 3).writeBitsU 3 2).2.writeBitsU 9 6).2.padToNext)).2.seek 0 with
         bitPos := (0 + 15) / 8 * 8 + 8 * 7 }) := by
  have h := c9_string_partial_decode
    ((writeStringBytes [65, 66, 67]
      ((((Serializer.init 3).writeBitsU 3 2).2.writeBitsU 9 6).2.padToNext)).2.seek 0)
    [1, 2, 3] 9 7 (by norm_num) (by norm_num) (by norm_num) (by decide)
    (by decide) (by decide) (by decide) (by decide)
  rw [h]
  rfl

/-- C10 witness: a 16-bit payload with size field 16 decodes into a 1-byte
field, which receives the payload truncated modulo 256. -/
theorem c10_witness :
    Field.deserialize (.vnumU 1 7)
        (((((Serializer.init 32).writeBitsU 3 2).2.writeBitsU 16 6).2.writeBitsU 4660 16).2.seek
          (Serializer.init 32).bitPos) =
      (true, .vnumU 1 (4660 % 2 ^ (8 * 1)),
        ((((Serializer.init 32).writeBitsU 3 2).2.writeBitsU 16 6).2.writeBitsU 4660 16).2) :=
  c10_size_width_uncoupled (Serializer.init 32) 1 7 4660 16 (by norm_num) (by norm_num)
    (by norm_num) (by decide) (by decide)

theorem Serializer.seek_eq_of_buffer (a b : Serializer) (hbuf : a.buffer = b.buffer)
    (hsz : a.bufferSize = b.bufferSize) (p : Nat) (hp : b.bitPos = p) : a.seek p = b := by
  cases a
  cases b
  simp_all [Serializer.seek]

theorem Field_deserialize_version_snd (s : Serializer) :
    (Field.deserialize .version s).2.1 = .version := by
  show (let r := s.readBitsU 2
    if r.1 then ((r.2.1 == BBVersion : Bool), Field.version, r.2.2)
    else (false, Field.version, r.2.2)).2.1 = Field.version
  by_cases h : (s.readBitsU 2).1 <;> simp [h]

theorem Field_deserialize_version_state (s : Serializer) :
    (Field.deserialize .version s).2.2.buffer = s.buffer ∧
      (Field.deserialize .version s).2.2.bufferSize = s.bufferSize := by
  have hb := s.readBits64_buffer 2
  have hred : (Field.deserialize .version s).2.2 = (s.readBits64 2).2.2 := by
    show (let r := s.readBitsU 2
      if r.1 then ((r.2.1 == BBVersion : Bool), Field.version, r.2.2)
      else (false, Field.version, r.2.2)).2.2 = _
    by_cases h : (s.readBits64 2).1 <;> simp [Serializer.readBitsU, h]
  rw [hred]
  exact hb

theorem deserializeFieldsAux_version_stop (suffix : List Field) :
    ∀ (pre : List Field) (s : Serializer) (pre2 : List Field) (s1 : Serializer) (begPos : Nat),
    deserializeSeq pre s = some (pre2, s1) →
    (Field.deserialize .version s1).1 = false →
    deserializeFieldsAux begPos (pre ++ Field.version :: suffix) s =
      (true, pre2 ++ Field.version :: suffix, s1) := by
  intro pre
  induction pre with
  | nil =>
    intro s pre2 s1 begPos hpre hsep
    simp only [deserializeSeq, Option.some.injEq, Prod.mk.injEq] at hpre
    obtain ⟨hp2, hs1⟩ := hpre
    subst hp2
    cases hs1
    show (let prevPos := s.bitPos
      let r := Field.deserialize .version s
      if r.1 then
        let rr := deserializeFieldsAux begPos suffix r.2.2
        (rr.1, r.2.1 :: rr.2.1, rr.2.2)
      else if (Field.version).isSeparator then (true, r.2.1 :: suffix, r.2.2.seek prevPos)
      else (false, r.2.1 :: suffix, r.2.2.seek begPos)) = _
    simp only [hsep, Bool.false_eq_true, if_false, Field.isSeparator, if_true]
    rw [Field_deserialize_version_snd]
    have hst := Field_deserialize_version_state s
    rw [Serializer.seek_eq_of_buffer _ s hst.1 hst.2 s.bitPos rfl]
    simp
  | cons f rest ih =>
    intro s pre2 s1 begPos hpre hsep
    have hpre2 : (let r := f.deserialize s
        if r.1 then
          match deserializeSeq rest r.2.2 with
          | some (rest2, s2) => some (r.2.1 :: rest2, s2)
          | none => none
        else none) = some (pre2, s1) := hpre
    by_cases hok : (f.deserialize s).1
    · simp only [hok, if_true] at hpre2
      rcases hrest : deserializeSeq rest (f.deserialize s).2.2 with _ | ⟨rest2, s2⟩
      · rw [hrest] at hpre2
        exact absurd hpre2 (by simp)
      · rw [hrest] at hpre2
        simp only [Option.some.injEq, Prod.mk.injEq] at hpre2
        obtain ⟨hp2, hs2⟩ := hpre2
        cases hs2
        have hih := ih (f.deserialize s).2.2 rest2 s1 begPos hrest hsep
        show (let prevPos := s.bitPos
          let r := f.deserialize s
          if r.1 then
            let rr := deserializeFieldsAux begPos (rest ++ Field.version :: suffix) r.2.2
            (rr.1, r.2.1 :: rr.2.1, rr.2.2)
          else if f.isSeparator then (true, r.2.1 :: (rest ++ Field.version :: suffix),
            r.2.2.seek prevPos)
          else (false, r.2.1 :: (rest ++ Field.version :: suffix), r.2.2.seek begPos)) = _
        simp only [hok, if_true, hih]
        rw [← hp2]
        simp
    · simp only [Bool.not_eq_true] at hok
      simp only [hok, Bool.false_eq_true, if_false] at hpre2
      exact absurd hpre2 (by simp)

/-- C3: if the fields before a Version separator all decode successfully
and the separator's own decode then fails, `ValueLink::deserialize`
reports success, the stream position is rewound to just before the
separator, the preceding fields carry their decoded values, and neither
the separator nor any field after it is modified. -/
theorem c3_version_tolerant_decode (pre suffix : List Field) (s : Serializer)
    (pre2 : List Field) (s1 : Serializer)
    (hpre : deserializeSeq pre s = some (pre2, s1))
    (hsep : (Field.deserialize .version s1).1 = false) :
    linkDeserialize (pre ++ Field.version :: suffix) s =
      (true, pre2 ++ Field.version :: suffix, s1) :=
  deserializeFieldsAux_version_stop suffix pre s pre2 s1 s.bitPos hpre hsep

/-- C3 witness: a stream of zero bits decodes the leading boolean as
`false`, fails on the Version separator (reading `00`), and reports
success with the cursor rewound to bit 2; the separator and the trailing
number field are untouched. -/
theorem c3_witness :
    linkDeserialize [Field.vbool true, Field.version, Field.vnumU 4 5] (Serializer.init 8) =
      (true, [Field.vbool false, Field.version, Field.vnumU 4 5],
       { Serializer.init 8 with bitPos := 2 }) := by
  have h := c3_version_tolerant_decode [Field.vbool true] [Field.vnumU 4 5]
    (Serializer.init 8) [Field.vbool false] ({ Serializer.init 8 with bitPos := 2 })
    (by decide) (by decide)
  exact h

/-! ### Upper bounds on the encoded size -/

theorem Serializer.writeBits64_pos_of_ok (s : Serializer) (v n : Nat)
    (h : (s.writeBits64 v n).1 = true) :
    (s.writeBits64 v n).2.bitPos = s.bitPos + n := by
  by_cases hcap : s.bitPos + n ≤ s.bufferSize
  · exact (s.writeBits64_state v n hcap).2.1
  · rw [s.writeBits64_fail v n (by omega)] at h
    exact absurd h (by simp)

theorem Serializer.writeBitsU_pos_of_ok (s : Serializer) (v n : Nat)
    (h : (s.writeBitsU v n).1 = true) :
    (s.writeBitsU v n).2.bitPos = s.bitPos + n := by
  rw [Serializer.writeBitsU_eq64] at h ⊢
  exact s.writeBits64_pos_of_ok v n h

theorem Serializer.writeBitsI_pos_of_ok (s : Serializer) (v : Int) (n : Nat)
    (h : (s.writeBitsI v n).1 = true) :
    (s.writeBitsI v n).2.bitPos = s.bitPos + n := by
  rw [Serializer.writeBitsI_eq64] at h ⊢
  exact s.writeBits64_pos_of_ok (patI v n) n h

theorem Serializer.writeByte_pos_of_ok (s : Serializer) (v : Nat)
    (h : (s.writeByte v).1 = true) :
    (s.writeByte v).2.bitPos = s.bitPos + 8 :=
  s.writeBits64_pos_of_ok v 8 h

theorem Serializer.padToNext_pos_bound (s : Serializer) :
    s.bitPos ≤ s.padToNext.bitPos ∧ s.padToNext.bitPos ≤ s.bitPos + 7 := by
  unfold Serializer.padToNext
  by_cases h : s.bitPos % 8 ≠ 0
  · rw [if_pos h, Serializer.writeBitsU_eq64]
    by_cases hcap : s.bitPos + (8 - s.bitPos % 8) ≤ s.bufferSize
    · rw [(s.writeBits64_state 0 (8 - s.bitPos % 8) hcap).2.1]
      omega
    · rw [s.writeBits64_fail 0 (8 - s.bitPos % 8) (by omega)]
      show s.bitPos ≤ s.bitPos ∧ s.bitPos ≤ s.bitPos + 7
      omega
  · rw [if_neg h]
    omega

theorem writeStringBytes_pos_of_ok : ∀ (l : List Nat) (u : Serializer),
    (writeStringBytes l u).1 = true →
    (writeStringBytes l u).2.bitPos = u.bitPos + 8 * l.length := by
  intro l
  induction l with
  | nil =>
    intro u _
    simp [writeStringBytes]
  | cons c rest ih =>
    intro u hok
    show ((let r := u.writeByte c
      if r.1 then writeStringBytes rest r.2 else (false, r.2)).2.bitPos) = _
    have hok2 : (let r := u.writeByte c
        if r.1 then writeStringBytes rest r.2 else (false, r.2)).1 = true := hok
    by_cases hb : (u.writeByte c).1
    · simp only [hb, if_true] at hok2 ⊢
      rw [ih _ hok2, u.writeByte_pos_of_ok c hb]
      simp only [List.length_cons]
      ring
    · simp only [Bool.not_eq_true] at hb
      simp only [hb, Bool.false_eq_true, if_false] at hok2

theorem writePairU_pos (u : Serializer) (tag w x : Nat)
    (h : (let r := u.writeBitsU tag 2
          if r.1 then r.2.writeBitsU x w else (false, r.2)).1 = true) :
    (let r := u.writeBitsU tag 2
      if r.1 then r.2.writeBitsU x w else (false, r.2)).2.bitPos = u.bitPos + (2 + w) := by
  by_cases ht : (u.writeBitsU tag 2).1
  · simp only [ht, if_true] at h ⊢
    rw [Serializer.writeBitsU_pos_of_ok _ _ _ h, Serializer.writeBitsU_pos_of_ok _ _ _ ht]
    omega
  · simp only [Bool.not_eq_true] at ht
    simp only [ht, Bool.false_eq_true, if_false] at h

theorem writePairI_pos (u : Serializer) (tag w : Nat) (x : Int)
    (h : (let r := u.writeBitsU tag 2
          if r.1 then r.2.writeBitsI x w else (false, r.2)).1 = true) :
    (let r := u.writeBitsU tag 2
      if r.1 then r.2.writeBitsI x w else (false, r.2)).2.bitPos = u.bitPos + (2 + w) := by
  by_cases ht : (u.writeBitsU tag 2).1
  · simp only [ht, if_true] at h ⊢
    rw [Serializer.writeBitsI_pos_of_ok _ _ _ h, Serializer.writeBitsU_pos_of_ok _ _ _ ht]
    omega
  · simp only [Bool.not_eq_true] at ht
    simp only [ht, Bool.false_eq_true, if_false] at h

theorem writeArrayValueU_pos_of_ok (u : Serializer) (x : Nat)
    (h : (writeArrayValueU u x).1 = true) :
    (writeArrayValueU u x).2.bitPos = u.bitPos + tagBitsU x := by
  unfold writeArrayValueU at h ⊢
  unfold tagBitsU
  by_cases h6 : x < 2 ^ 6
  · simp only [h6, if_true] at h ⊢
    rw [writePairU_pos u 0 6 x h]
  · simp only [h6, if_false] at h ⊢
    by_cases h14 : x < 2 ^ 14
    · simp only [h14, if_true] at h ⊢
      rw [writePairU_pos u 1 14 x h]
    · simp only [h14, if_false] at h ⊢
      by_cases h30 : x < 2 ^ 30
      · simp only [h30, if_true] at h ⊢
        rw [writePairU_pos u 2 30 x h]
      · simp only [h30, if_false] at h ⊢
        rw [writePairU_pos u 3 62 x h]

theorem writeArrayValueI_pos_of_ok (u : Serializer) (x : Int)
    (h : (writeArrayValueI u x).1 = true) :
    (writeArrayValueI u x).2.bitPos = u.bitPos + tagBitsI x := by
  unfold writeArrayValueI at h ⊢
  unfold tagBitsI
  by_cases h6 : x.natAbs < 2 ^ 5
  · simp only [h6, if_true] at h ⊢
    rw [writePairI_pos u 0 6 x h]
  · simp only [h6, if_false] at h ⊢
    by_cases h14 : x.natAbs < 2 ^ 13
    · simp only [h14, if_true] at h ⊢
      rw [writePairI_pos u 1 14 x h]
    · simp only [h14, if_false] at h ⊢
      by_cases h30 : x.natAbs < 2 ^ 29
      · simp only [h30, if_true] at h ⊢
        rw [writePairI_pos u 2 30 x h]
      · simp only [h30, if_false] at h ⊢
        rw [writePairI_pos u 3 62 x h]

theorem writeArrayValuesU_pos_bound (b : Nat) : ∀ (l : List Nat) (u : Serializer),
    (∀ x ∈ l, tagBitsU x ≤ 8 * b) →
    (writeArrayValuesU l u).1 = true →
    u.bitPos ≤ (writeArrayValuesU l u).2.bitPos ∧
      (writeArrayValuesU l u).2.bitPos ≤ u.bitPos + l.length * (8 * b) := by
  intro l
  induction l with
  | nil =>
    intro u _ _
    simp [writeArrayValuesU]
  | cons x rest ih =>
    intro u hsafe hok
    show u.bitPos ≤ (let r := writeArrayValueU u x
      if r.1 then writeArrayValuesU rest r.2 else (false, r.2)).2.bitPos ∧
      (let r := writeArrayValueU u x
        if r.1 then writeArrayValuesU rest r.2 else (false, r.2)).2.bitPos ≤
        u.bitPos + (x :: rest).length * (8 * b)
    have hok2 : (let r := writeArrayValueU u x
        if r.1 then writeArrayValuesU rest r.2 else (false, r.2)).1 = true := hok
    by_cases hx : (writeArrayValueU u x).1
    · simp only [hx, if_true] at hok2 ⊢
      have h1 := writeArrayValueU_pos_of_ok u x hx
      have h2 := ih (writeArrayValueU u x).2 (fun y hy => hsafe y (by simp [hy])) hok2
      have h3 := hsafe x (by simp)
      simp only [List.length_cons]
      constructor
      · omega
      · have h4 : (rest.length + 1) * (8 * b) = rest.length * (8 * b) + 8 * b := by ring
        omega
    · simp only [Bool.not_eq_true] at hx
      simp only [hx, Bool.false_eq_true, if_false] at hok2

theorem writeArrayValuesI_pos_bound (b : Nat) : ∀ (l : List Int) (u : Serializer),
    (∀ x ∈ l, tagBitsI x ≤ 8 * b) →
    (writeArrayValuesI l u).1 = true →
    u.bitPos ≤ (writeArrayValuesI l u).2.bitPos ∧
      (writeArrayValuesI l u).2.bitPos ≤ u.bitPos + l.length * (8 * b) := by
  intro l
  induction l with
  | nil =>
    intro u _ _
    simp [writeArrayValuesI]
  | cons x rest ih =>
    intro u hsafe hok
    show u.bitPos ≤ (let r := writeArrayValueI u x
      if r.1 then writeArrayValuesI rest r.2 else (false, r.2)).2.bitPos ∧
      (let r := writeArrayValueI u x
        if r.1 then writeArrayValuesI rest r.2 else (false, r.2)).2.bitPos ≤
        u.bitPos + (x :: rest).length * (8 * b)
    have hok2 : (let r := writeArrayValueI u x
        if r.1 then writeArrayValuesI rest r.2 else (false, r.2)).1 = true := hok
    by_cases hx : (writeArrayValueI u x).1
    · simp only [hx, if_true] at hok2 ⊢
      have h1 := writeArrayValueI_pos_of_ok u x hx
      have h2 := ih (writeArrayValueI u x).2 (fun y hy => hsafe y (by simp [hy])) hok2
      have h3 := hsafe x (by simp)
      simp only [List.length_cons]
      constructor
      · omega
      · have h4 : (rest.length + 1) * (8 * b) = rest.length * (8 * b) + 8 * b := by ring
        omega
    · simp only [Bool.not_eq_true] at hx
      simp only [hx, Bool.false_eq_true, if_false] at hok2

theorem writeNumberU_pos_of_ok (s : Serializer) (v bits : Nat)
    (h : (writeNumberU s v bits).1 = true) :
    s.bitPos ≤ (writeNumberU s v bits).2.bitPos ∧
      (writeNumberU s v bits).2.bitPos ≤ s.bitPos + (8 + bits) := by
  unfold writeNumberU at h ⊢
  by_cases h0 : v = 0
  · simp only [h0, beq_self_eq_true, if_true] at h ⊢
    rw [Serializer.writeBitsU_pos_of_ok _ _ _ h]
    omega
  · simp only [beq_iff_eq, h0, if_false] at h ⊢
    by_cases h1 : (s.writeBitsU BBOther 2).1
    · simp only [h1, Bool.not_true, Bool.false_eq_true, if_false] at h ⊢
      by_cases h2 : ((s.writeBitsU BBOther 2).2.writeBitsU bits 6).1
      · simp only [h2, Bool.not_true, Bool.false_eq_true, if_false] at h ⊢
        rw [Serializer.writeBitsU_pos_of_ok _ _ _ h,
          Serializer.writeBitsU_pos_of_ok _ _ _ h2,
          Serializer.writeBitsU_pos_of_ok _ _ _ h1]
        omega
      · simp only [Bool.not_eq_true] at h2
        simp only [h2, Bool.not_false, if_true] at h
        simp at h
    · simp only [Bool.not_eq_true] at h1
      simp only [h1, Bool.not_false, if_true] at h
      simp at h

theorem writeNumberI_pos_of_ok (s : Serializer) (v : Int) (bits : Nat)
    (h : (writeNumberI s v bits).1 = true) :
    s.bitPos ≤ (writeNumberI s v bits).2.bitPos ∧
      (writeNumberI s v bits).2.bitPos ≤ s.bitPos + (8 + bits) := by
  unfold writeNumberI at h ⊢
  by_cases h0 : v = 0
  · simp only [h0, beq_self_eq_true, if_true] at h ⊢
    rw [Serializer.writeBitsU_pos_of_ok _ _ _ h]
    omega
  · simp only [beq_iff_eq, h0, if_false] at h ⊢
    by_cases h1 : (s.writeBitsU BBOther 2).1
    · simp only [h1, Bool.not_true, Bool.false_eq_true, if_false] at h ⊢
      by_cases h2 : ((s.writeBitsU BBOther 2).2.writeBitsU bits 6).1
      · simp only [h2, Bool.not_true, Bool.false_eq_true, if_false] at h ⊢
        rw [Serializer.writeBitsI_pos_of_ok _ _ _ h,
          Serializer.writeBitsU_pos_of_ok _ _ _ h2,
          Serializer.writeBitsU_pos_of_ok _ _ _ h1]
        omega
      · simp only [Bool.not_eq_true] at h2
        simp only [h2, Bool.not_false, if_true] at h
        simp at h
    · simp only [Bool.not_eq_true] at h1
      simp only [h1, Bool.not_false, if_true] at h
      simp at h

theorem serializeString_pos_of_ok (v : List Nat) (s : Serializer)
    (h : (serializeString v s).1 = true) :
    s.bitPos ≤ (serializeString v s).2.bitPos ∧
      (serializeString v s).2.bitPos ≤ s.bitPos + (15 + 8 * v.length) := by
  unfold serializeString at h ⊢
  by_cases h1 : (s.writeBitsU BBOther 2).1
  · simp only [h1, Bool.not_true, Bool.false_eq_true, if_false] at h ⊢
    by_cases h2 : ((s.writeBitsU BBOther 2).2.writeBitsU v.length 6).1
    · simp only [h2, Bool.not_true, Bool.false_eq_true, if_false] at h ⊢
      have p1 := Serializer.writeBitsU_pos_of_ok _ _ _ h1
      have p2 := Serializer.writeBitsU_pos_of_ok _ _ _ h2
      by_cases h3 : v.length = 0
      · simp only [beq_iff_eq, h3, if_true] at h ⊢
        rw [h3] at p2
        omega
      · simp only [beq_iff_eq, h3, if_false] at h ⊢
        have p3 := Serializer.padToNext_pos_bound
          ((s.writeBitsU BBOther 2).2.writeBitsU v.length 6).2
        have p4 := writeStringBytes_pos_of_ok v
          (((s.writeBitsU BBOther 2).2.writeBitsU v.length 6).2.padToNext) h
        omega
    · simp only [Bool.not_eq_true] at h2
      simp only [h2, Bool.not_false, if_true] at h
      simp at h
  · simp only [Bool.not_eq_true] at h1
    simp only [h1, Bool.not_false, if_true] at h
    simp at h

theorem writeArrayHeader_pos_of_ok (s : Serializer) (num : Nat)
    (h : (writeArrayHeader s num).1 = true) :
    (writeArrayHeader s num).2.bitPos = s.bitPos + 16 := by
  unfold writeArrayHeader at h ⊢
  by_cases h1 : (s.writeBitsU BBOther 2).1
  · simp only [h1, Bool.not_true, Bool.false_eq_true, if_false] at h ⊢
    by_cases h2 : ((s.writeBitsU BBOther 2).2.writeBitsU 0 6).1
    · simp only [h2, Bool.not_true, Bool.false_eq_true, if_false] at h ⊢
      rw [Serializer.writeBitsU_pos_of_ok _ _ _ h,
        Serializer.writeBitsU_pos_of_ok _ _ _ h2,
        Serializer.writeBitsU_pos_of_ok _ _ _ h1]
    · simp only [Bool.not_eq_true] at h2
      simp only [h2, Bool.not_false, if_true] at h
      simp at h
  · simp only [Bool.not_eq_true] at h1
    simp only [h1, Bool.not_false, if_true] at h
    simp at h

theorem fieldSerialize_pos_bound (f : Field) (s : Serializer)
    (hsafe : f.SerializeSafe) (hok : (f.serialize s).1 = true) :
    s.bitPos ≤ (f.serialize s).2.bitPos ∧
      (f.serialize s).2.bitPos ≤ s.bitPos + f.totalBitContrib := by
  cases f with
  | version =>
    have hp := Serializer.writeBitsU_pos_of_ok s BBVersion 2 hok
    have hc : (Field.version).totalBitContrib = 2 := rfl
    show s.bitPos ≤ (s.writeBitsU BBVersion 2).2.bitPos ∧
      (s.writeBitsU BBVersion 2).2.bitPos ≤ s.bitPos + (Field.version).totalBitContrib
    rw [hc]
    omega
  | vbool b =>
    have hp := Serializer.writeBitsI_pos_of_ok s (if b then 1 else 0) 2 hok
    have hc : (Field.vbool b).totalBitContrib = 2 := rfl
    show s.bitPos ≤ (s.writeBitsI (if b then 1 else 0) 2).2.bitPos ∧
      (s.writeBitsI (if b then 1 else 0) 2).2.bitPos ≤ s.bitPos + (Field.vbool b).totalBitContrib
    rw [hc]
    omega
  | vstring v =>
    have hp := serializeString_pos_of_ok v s hok
    have hc : (Field.vstring v).totalBitContrib = 2 + (6 + 1 * (v.length * 8) + 7) := rfl
    show s.bitPos ≤ (serializeString v s).2.bitPos ∧
      (serializeString v s).2.bitPos ≤ s.bitPos + (Field.vstring v).totalBitContrib
    rw [hc]
    omega
  | vnumU b v =>
    have hp := writeNumberU_pos_of_ok s v (b * 8) hok
    have hc : (Field.vnumU b v).totalBitContrib = 2 + (6 + 1 * (b * 8) + 7) := rfl
    show s.bitPos ≤ (writeNumberU s v (b * 8)).2.bitPos ∧
      (writeNumberU s v (b * 8)).2.bitPos ≤ s.bitPos + (Field.vnumU b v).totalBitContrib
    rw [hc]
    omega
  | vnumI b v =>
    have hp := writeNumberI_pos_of_ok s v (b * 8) hok
    have hc : (Field.vnumI b v).totalBitContrib = 2 + (6 + 1 * (b * 8) + 7) := rfl
    show s.bitPos ≤ (writeNumberI s v (b * 8)).2.bitPos ∧
      (writeNumberI s v (b * 8)).2.bitPos ≤ s.bitPos + (Field.vnumI b v).totalBitContrib
    rw [hc]
    omega
  | varrU b a =>
    obtain ⟨hlen, helem⟩ := hsafe
    show s.bitPos ≤ (let r := writeArrayHeader s a.length
      if r.1 then writeArrayValuesU a r.2 else (false, r.2)).2.bitPos ∧
      (let r := writeArrayHeader s a.length
        if r.1 then writeArrayValuesU a r.2 else (false, r.2)).2.bitPos ≤
        s.bitPos + (Field.varrU b a).totalBitContrib
    have hok2 : (let r := writeArrayHeader s a.length
        if r.1 then writeArrayValuesU a r.2 else (false, r.2)).1 = true := hok
    by_cases hh : (writeArrayHeader s a.length).1
    · simp only [hh, if_true] at hok2 ⊢
      have p1 := writeArrayHeader_pos_of_ok s a.length hh
      have p2 := writeArrayValuesU_pos_bound b a (writeArrayHeader s a.length).2 helem hok2
      have hc : (Field.varrU b a).totalBitContrib =
          2 + (6 + a.length * (b * 8) + (if a.length > 1 then 8 else 7)) := rfl
      rw [hc, if_pos (show a.length > 1 by omega)]
      have hmul : a.length * (b * 8) = a.length * (8 * b) := by ring
      omega
    · simp only [Bool.not_eq_true] at hh
      simp only [hh, Bool.false_eq_true, if_false] at hok2
  | varrI b a =>
    obtain ⟨hlen, helem⟩ := hsafe
    show s.bitPos ≤ (let r := writeArrayHeader s a.length
      if r.1 then writeArrayValuesI a r.2 else (false, r.2)).2.bitPos ∧
      (let r := writeArrayHeader s a.length
        if r.1 then writeArrayValuesI a r.2 else (false, r.2)).2.bitPos ≤
        s.bitPos + (Field.varrI b a).totalBitContrib
    have hok2 : (let r := writeArrayHeader s a.length
        if r.1 then writeArrayValuesI a r.2 else (false, r.2)).1 = true := hok
    by_cases hh : (writeArrayHeader s a.length).1
    · simp only [hh, if_true] at hok2 ⊢
      have p1 := writeArrayHeader_pos_of_ok s a.length hh
      have p2 := writeArrayValuesI_pos_bound b a (writeArrayHeader s a.length).2 helem hok2
      have hc : (Field.varrI b a).totalBitContrib =
          2 + (6 + a.length * (b * 8) + (if a.length > 1 then 8 else 7)) := rfl
      rw [hc, if_pos (show a.length > 1 by omega)]
      have hmul : a.length * (b * 8) = a.length * (8 * b) := by ring
      omega
    · simp only [Bool.not_eq_true] at hh
      simp only [hh, Bool.false_eq_true, if_false] at hok2

theorem serializeFieldsAux_pos_bound : ∀ (fs : List Field) (s : Serializer),
    (∀ f ∈ fs, f.SerializeSafe) →
    (serializeFieldsAux fs s).1 = true →
    s.bitPos ≤ (serializeFieldsAux fs s).2.bitPos ∧
      (serializeFieldsAux fs s).2.bitPos ≤ s.bitPos + linkTotalBitSize fs := by
  intro fs
  induction fs with
  | nil =>
    intro s _ _
    simp [serializeFieldsAux, linkTotalBitSize]
  | cons f rest ih =>
    intro s hsafe hok
    show s.bitPos ≤ (let r := f.serialize s
      if r.1 then serializeFieldsAux rest r.2 else (false, r.2)).2.bitPos ∧
      (let r := f.serialize s
        if r.1 then serializeFieldsAux rest r.2 else (false, r.2)).2.bitPos ≤
        s.bitPos + linkTotalBitSize (f :: rest)
    have hok2 : (let r := f.serialize s
        if r.1 then serializeFieldsAux rest r.2 else (false, r.2)).1 = true := hok
    by_cases hf : (f.serialize s).1
    · simp only [hf, if_true] at hok2 ⊢
      have p1 := fieldSerialize_pos_bound f s (hsafe f (by simp)) hf
      have p2 := ih (f.serialize s).2 (fun g hg => hsafe g (by simp [hg])) hok2
      have hl : linkTotalBitSize (f :: rest) = f.totalBitContrib + linkTotalBitSize rest :=
        rfl
      omega
    · simp only [Bool.not_eq_true] at hf
      simp only [hf, Bool.false_eq_true, if_false] at hok2

/-- C4 (amended): for a record state in which every array field has length
at least 2 and each array element's compact encoding fits in the
`8·sizeof(element)` bits budgeted for it, the number of bits a successful
`ValueLink::serialize` appends (final `tell()` minus the starting
position) is at most `getTotalBitSize()`. -/
theorem c4_totalBitSize_bound (fs : List Field) (s : Serializer)
    (hsafe : ∀ f ∈ fs, f.SerializeSafe)
    (hok : (linkSerialize fs s).1 = true) :
    s.bitPos ≤ (linkSerialize fs s).2.bitPos ∧
      (linkSerialize fs s).2.bitPos - s.bitPos ≤ linkTotalBitSize fs := by
  unfold linkSerialize at hok ⊢
  by_cases ha : (serializeFieldsAux fs s).1
  · simp only [ha, if_true] at hok ⊢
    have := serializeFieldsAux_pos_bound fs s hsafe ha
    omega
  · simp only [Bool.not_eq_true] at ha
    simp only [ha, Bool.false_eq_true, if_false] at hok

/-- C4 witness: a two-field record (one boolean, one two-element uint8
array with small elements) serializes and stays within the budget. -/
theorem c4_witness :
    (Serializer.init 100).bitPos
        ≤ (linkSerialize [Field.vbool true, Field.varrU 1 [1, 2]] (Serializer.init 100)).2.bitPos ∧
      (linkSerialize [Field.vbool true, Field.varrU 1 [1, 2]] (Serializer.init 100)).2.bitPos
          - (Serializer.init 100).bitPos
        ≤ linkTotalBitSize [Field.vbool true, Field.varrU 1 [1, 2]] :=
  c4_totalBitSize_bound [Field.vbool true, Field.varrU 1 [1, 2]] (Serializer.init 100)
    (by decide) (by decide)

/-! ### Round-trip infrastructure: write-then-decode lemmas per layer -/

theorem wrapS_eq_of_range (v : Int) (n : Nat) (hn : 1 ≤ n)
    (hlo : -(2 ^ (n - 1)) ≤ v) (hhi : v < 2 ^ (n - 1)) : wrapS v n = v := by
  unfold wrapS
  have h2 : (2 : Int) ^ n = 2 ^ (n - 1) * 2 := by
    rw [← pow_succ]
    congr 1
    omega
  have hp : (0 : Int) < 2 ^ (n - 1) := by positivity
  show (v + 2 ^ (n - 1)) % (2 ^ n : Int) - 2 ^ (n - 1) = v
  rw [Int.emod_eq_of_lt (by omega) (by omega)]
  ring

theorem Serializer.update_pos_congr (w : Serializer) (p q : Nat) (h : p = q) :
    ({ w with bitPos := p } : Serializer) = { w with bitPos := q } := by rw [h]

/-- Writing a byte list and reading it back from any state that agrees with
the written window: the reader appends exactly the written bytes to its
accumulator and stops at the same position. -/
theorem writeStringBytes_roundtrip : ∀ (l : List Nat) (u : Serializer),
    (∀ c ∈ l, c < 256) →
    u.bufferSize ≤ 64 * u.buffer.length →
    u.bitPos + 8 * l.length ≤ u.bufferSize →
    (writeStringBytes l u).1 = true ∧
    WStep u (writeStringBytes l u).2 ∧
    (writeStringBytes l u).2.bitPos = u.bitPos + 8 * l.length ∧
    ∀ (w : Serializer) (acc : List Nat), w.bitPos = u.bitPos →
      w.bufferSize = u.bufferSize →
      (∀ i, u.bitPos ≤ i → i < u.bitPos + 8 * l.length →
        w.bitAt i = (writeStringBytes l u).2.bitAt i) →
      readStringBytes l.length acc w =
        (true, acc ++ l, { w with bitPos := u.bitPos + 8 * l.length })
  | [], u => by
    intro _ _ _
    refine ⟨rfl, WStep.refl u, by show u.bitPos = u.bitPos + 8 * 0; omega, ?_⟩
    intro w acc hwp _ _
    show (true, acc, w) =
      (true, acc ++ [], { w with bitPos := u.bitPos + 8 * ([] : List Nat).length })
    have hpe : u.bitPos + 8 * ([] : List Nat).length = w.bitPos := by simp [hwp]
    rw [hpe]
    simp
  | c :: rest, u => by
    intro hc hwf hcap
    obtain ⟨a1, a2, a3, a4, a5, a6⟩ := u.writeByte_spec c hwf
      (by simp only [List.length_cons] at hcap; omega)
    have hstep : writeStringBytes (c :: rest) u = writeStringBytes rest (u.writeByte c).2 := by
      show (let r := u.writeByte c
        if r.1 then writeStringBytes rest r.2 else (false, r.2)) = _
      rw [if_pos a1]
    obtain ⟨b1, b2, b3, b4⟩ := writeStringBytes_roundtrip rest (u.writeByte c).2
      (fun x hx => hc x (by simp [hx]))
      (by omega)
      (by simp only [List.length_cons] at hcap; omega)
    rw [hstep]
    refine ⟨b1, a6.comp b2, by simp only [List.length_cons]; omega, ?_⟩
    intro w acc hwp hws hagree
    have hlen : (c :: rest).length = rest.length + 1 := rfl
    rw [hlen]
    show (let r := w.readByte
      if r.1 then readStringBytes rest.length (acc ++ [r.2.1]) r.2.2
      else (false, acc, r.2.2)) = _
    have hrd : w.readByte = (true, c, { w with bitPos := w.bitPos + 8 }) := by
      refine w.readByte_window c (by omega) (hc c (by simp)) ?_
      intro j hj
      rw [hwp]
      rw [hagree (u.bitPos + j) (by omega)
        (by simp only [List.length_cons]; omega)]
      rw [b2.frame (u.bitPos + j) (Or.inl (by omega))]
      exact a5 j hj
    rw [hrd]
    simp only [if_pos]
    have := b4 ({ w with bitPos := w.bitPos + 8 }) (acc ++ [c])
      (by show w.bitPos + 8 = (u.writeByte c).2.bitPos; omega)
      (by show w.bufferSize = (u.writeByte c).2.bufferSize; omega)
      (by
        intro i hi1 hi2
        show w.bitAt i = _
        rw [a2] at hi1 hi2
        exact hagree i (by omega) (by simp only [List.length_cons]; omega))
    rw [this]
    rw [a2]
    simp only [List.append_assoc, List.singleton_append, List.length_cons]
    refine congrArg _ (congrArg _ ?_)
    show ({ w with bitPos := u.bitPos + 8 + 8 * rest.length } : Serializer) = _
    exact Serializer.update_pos_congr w _ _ (by omega)

/-- Writing a nonzero number with `writeNumberImpl` and decoding the
window with `readNumberImpl` returns the value. -/
theorem writeNumberU_roundtrip (s : Serializer) (v n : Nat)
    (hv0 : v ≠ 0) (hn1 : 1 ≤ n) (hn63 : n ≤ 63) (hv : v < 2 ^ n)
    (hwf : s.bufferSize ≤ 64 * s.buffer.length)
    (hcap : s.bitPos + (8 + n) ≤ s.bufferSize) :
    (writeNumberU s v n).1 = true ∧
    WStep s (writeNumberU s v n).2 ∧
    (writeNumberU s v n).2.bitPos = s.bitPos + (8 + n) ∧
    ∀ w : Serializer, w.bitPos = s.bitPos → w.bufferSize = s.bufferSize →
      (∀ i, s.bitPos ≤ i → i < s.bitPos + (8 + n) →
        w.bitAt i = (writeNumberU s v n).2.bitAt i) →
      readNumberU w = (true, v, { w with bitPos := s.bitPos + (8 + n) }) := by
  obtain ⟨a1, a2, a3, a4, a5, a6⟩ := s.writeBitsU_spec BBOther 2 (by omega) hwf (by omega)
  obtain ⟨b1, b2, b3, b4, b5, b6⟩ := (s.writeBitsU BBOther 2).2.writeBitsU_spec n 6
    (by omega) (by omega) (by omega)
  obtain ⟨d1, d2, d3, d4, d5, d6⟩ :=
    ((s.writeBitsU BBOther 2).2.writeBitsU n 6).2.writeBitsU_spec v n
    (by omega) (by omega) (by omega)
  have hred : writeNumberU s v n =
      ((s.writeBitsU BBOther 2).2.writeBitsU n 6).2.writeBitsU v n := by
    unfold writeNumberU
    rw [if_neg (by simp [hv0])]
    simp only [a1, Bool.not_true, Bool.false_eq_true, if_false, b1]
  rw [hred]
  refine ⟨d1, a6.comp (b6.comp d6), by omega, ?_⟩
  intro w hwp hws hagree
  have e1 : w.readBitsU 2 = (true, BBOther, { w with bitPos := w.bitPos + 2 }) := by
    refine w.readBitsU_window BBOther 2 (by omega) (by omega) (by decide) ?_
    intro j hj
    rw [hwp, hagree (s.bitPos + j) (by omega) (by omega)]
    rw [d6.frame _ (Or.inl (by omega)), b6.frame _ (Or.inl (by omega))]
    exact a5 j hj
  have e2 : ({ w with bitPos := w.bitPos + 2 } : Serializer).readBitsU 6 =
      (true, n, { w with bitPos := w.bitPos + 8 }) := by
    have := Serializer.readBitsU_window { w with bitPos := w.bitPos + 2 } n 6 (by omega)
      (by show w.bitPos + 2 + 6 ≤ w.bufferSize; omega) (by omega) ?_
    · simpa using this
    · intro j hj
      show w.bitAt (w.bitPos + 2 + j) = _
      rw [hwp, show s.bitPos + 2 + j = s.bitPos + (2 + j) by omega,
        hagree (s.bitPos + (2 + j)) (by omega) (by omega)]
      rw [d6.frame _ (Or.inl (by omega))]
      have := b5 j hj
      rw [a2] at this
      rw [show s.bitPos + (2 + j) = s.bitPos + 2 + j by omega]
      exact this
  have e3 : ({ w with bitPos := w.bitPos + 8 } : Serializer).readBitsU n =
      (true, v, { w with bitPos := w.bitPos + (8 + n) }) := by
    have := Serializer.readBitsU_window { w with bitPos := w.bitPos + 8 } v n (by omega)
      (by show w.bitPos + 8 + n ≤ w.bufferSize; omega) hv ?_
    · simpa [Nat.add_assoc] using this
    · intro j hj
      show w.bitAt (w.bitPos + 8 + j) = _
      rw [hwp, show s.bitPos + 8 + j = s.bitPos + (8 + j) by omega,
        hagree (s.bitPos + (8 + j)) (by omega) (by omega)]
      have := d5 j hj
      rw [b2, a2] at this
      rw [show s.bitPos + (8 + j) = s.bitPos + 2 + 6 + j by omega]
      exact this
  have hnum : readNumberU w = (true, v, { w with bitPos := w.bitPos + (8 + n) }) := by
    unfold readNumberU Serializer.readBitsU at e1 e2 e3 ⊢
    rw [e1]
    simp only [Bool.not_true, Bool.false_eq_true, if_false]
    rw [if_neg (by decide), if_neg (by decide)]
    rw [e2]
    simp only [Bool.not_true, Bool.false_eq_true, if_false]
    rw [if_neg (by simp only [beq_iff_eq]; omega)]
    rw [e3]
  rw [hnum, Serializer.update_pos_congr w (w.bitPos + (8 + n)) (s.bitPos + (8 + n))
    (by omega)]

/-- Signed variant of `writeNumberU_roundtrip`: values strictly inside the
sign/magnitude range decode back unchanged. -/
theorem writeNumberI_roundtrip (s : Serializer) (v : Int) (n : Nat)
    (hv0 : v ≠ 0) (hn2 : 2 ≤ n) (hn32 : n ≤ 32)
    (hvlo : -(2 ^ (n - 1)) < v) (hvhi : v < 2 ^ (n - 1))
    (hwf : s.bufferSize ≤ 64 * s.buffer.length)
    (hcap : s.bitPos + (8 + n) ≤ s.bufferSize) :
    (writeNumberI s v n).1 = true ∧
    WStep s (writeNumberI s v n).2 ∧
    (writeNumberI s v n).2.bitPos = s.bitPos + (8 + n) ∧
    ∀ w : Serializer, w.bitPos = s.bitPos → w.bufferSize = s.bufferSize →
      (∀ i, s.bitPos ≤ i → i < s.bitPos + (8 + n) →
        w.bitAt i = (writeNumberI s v n).2.bitAt i) →
      readNumberI w = (true, v, { w with bitPos := s.bitPos + (8 + n) }) := by
  obtain ⟨a1, a2, a3, a4, a5, a6⟩ := s.writeBitsU_spec BBOther 2 (by omega) hwf (by omega)
  obtain ⟨b1, b2, b3, b4, b5, b6⟩ := (s.writeBitsU BBOther 2).2.writeBitsU_spec n 6
    (by omega) (by omega) (by omega)
  obtain ⟨d1, d2, d3, d4, d5, d6⟩ :=
    ((s.writeBitsU BBOther 2).2.writeBitsU n 6).2.writeBitsI_spec v n
    (by omega) (by omega) (by omega)
  have hred : writeNumberI s v n =
      ((s.writeBitsU BBOther 2).2.writeBitsU n 6).2.writeBitsI v n := by
    unfold writeNumberI
    rw [if_neg (by simp [hv0])]
    simp only [a1, Bool.not_true, Bool.false_eq_true, if_false, b1]
  rw [hred]
  refine ⟨d1, a6.comp (b6.comp d6), by omega, ?_⟩
  intro w hwp hws hagree
  have e1 : w.readBitsU 2 = (true, BBOther, { w with bitPos := w.bitPos + 2 }) := by
    refine w.readBitsU_window BBOther 2 (by omega) (by omega) (by decide) ?_
    intro j hj
    rw [hwp, hagree (s.bitPos + j) (by omega) (by omega)]
    rw [d6.frame _ (Or.inl (by omega)), b6.frame _ (Or.inl (by omega))]
    exact a5 j hj
  have e2 : ({ w with bitPos := w.bitPos + 2 } : Serializer).readBitsU 6 =
      (true, n, { w with bitPos := w.bitPos + 8 }) := by
    have := Serializer.readBitsU_window { w with bitPos := w.bitPos + 2 } n 6 (by omega)
      (by show w.bitPos + 2 + 6 ≤ w.bufferSize; omega) (by omega) ?_
    · simpa using this
    · intro j hj
      show w.bitAt (w.bitPos + 2 + j) = _
      rw [hwp, show s.bitPos + 2 + j = s.bitPos + (2 + j) by omega,
        hagree (s.bitPos + (2 + j)) (by omega) (by omega)]
      rw [d6.frame _ (Or.inl (by omega))]
      have := b5 j hj
      rw [a2] at this
      rw [show s.bitPos + (2 + j) = s.bitPos + 2 + j by omega]
      exact this
  have e3 : ({ w with bitPos := w.bitPos + 8 } : Serializer).readBitsI n =
      (true, v, { w with bitPos := w.bitPos + (8 + n) }) := by
    have := Serializer.readBitsI_decode { w with bitPos := w.bitPos + 8 } v n hn2 (by omega)
      (by show w.bitPos + 8 + n ≤ w.bufferSize; omega) (le_of_lt hvlo) hvhi ?_
    · rw [if_pos hvlo] at this
      simpa [Nat.add_assoc] using this
    · intro j hj
      show w.bitAt (w.bitPos + 8 + j) = _
      rw [hwp, show s.bitPos + 8 + j = s.bitPos + (8 + j) by omega,
        hagree (s.bitPos + (8 + j)) (by omega) (by omega)]
      have := d5 j hj
      rw [b2, a2] at this
      rw [show s.bitPos + (8 + j) = s.bitPos + 2 + 6 + j by omega]
      exact this
  have hnum : readNumberI w = (true, v, { w with bitPos := w.bitPos + (8 + n) }) := by
    unfold readNumberI Serializer.readBitsU at e1 e2 ⊢
    rw [e1]
    simp only [Bool.not_true, Bool.false_eq_true, if_false]
    rw [if_neg (by decide), if_neg (by decide)]
    rw [e2]
    simp only [Bool.not_true, Bool.false_eq_true, if_false]
    rw [if_neg (by simp only [beq_iff_eq]; omega)]
    rw [e3]
  rw [hnum, Serializer.update_pos_congr w (w.bitPos + (8 + n)) (s.bitPos + (8 + n))
    (by omega)]

/-- `ValueString::serialize` followed by `ValueString::deserialize` on the
written window restores the string (any prior reader value is replaced). -/
theorem serializeString_roundtrip (s : Serializer) (v : List Nat)
    (hlen : v.length ≤ 63) (hbytes : ∀ c ∈ v, c < 256)
    (hwf : s.bufferSize ≤ 64 * s.buffer.length)
    (hcap : s.bitPos + (15 + 8 * v.length) ≤ s.bufferSize) :
    (serializeString v s).1 = true ∧
    WStep s (serializeString v s).2 ∧
    s.bitPos + 8 ≤ (serializeString v s).2.bitPos ∧
    (serializeString v s).2.bitPos ≤ s.bitPos + (15 + 8 * v.length) ∧
    ∀ w : Serializer, w.bitPos = s.bitPos → w.bufferSize = s.bufferSize →
      (∀ i, s.bitPos ≤ i → i < (serializeString v s).2.bitPos →
        w.bitAt i = (serializeString v s).2.bitAt i) →
      ∀ v0 : List Nat, deserializeString v0 w =
        (true, .vstring v, { w with bitPos := (serializeString v s).2.bitPos }) := by
  obtain ⟨a1, a2, a3, a4, a5, a6⟩ := s.writeBitsU_spec BBOther 2 (by omega) hwf (by omega)
  obtain ⟨b1, b2, b3, b4, b5, b6⟩ := (s.writeBitsU BBOther 2).2.writeBitsU_spec v.length 6
    (by omega) (by omega) (by omega)
  by_cases hL : v.length = 0
  · have hv : v = [] := List.eq_nil_of_length_eq_zero hL
    have hred : serializeString v s =
        (true, ((s.writeBitsU BBOther 2).2.writeBitsU v.length 6).2) := by
      unfold serializeString
      simp only [a1, Bool.not_true, Bool.false_eq_true, if_false, b1]
      rw [if_pos (by simp [hL])]
    rw [hred]
    dsimp only
    refine ⟨rfl, a6.comp b6, by omega, by omega, ?_⟩
    intro w hwp hws hagree v0
    have e1 : w.readBitsU 2 = (true, BBOther, { w with bitPos := w.bitPos + 2 }) := by
      refine w.readBitsU_window BBOther 2 (by omega) (by omega) (by decide) ?_
      intro j hj
      rw [hwp, hagree (s.bitPos + j) (by omega) (by show s.bitPos + j < _; omega)]
      rw [b6.frame _ (Or.inl (by omega))]
      exact a5 j hj
    have e2 : ({ w with bitPos := w.bitPos + 2 } : Serializer).readBitsU 6 =
        (true, v.length, { w with bitPos := w.bitPos + 8 }) := by
      have := Serializer.readBitsU_window { w with bitPos := w.bitPos + 2 } v.length 6
        (by omega) (by show w.bitPos + 2 + 6 ≤ w.bufferSize; omega) (by omega) ?_
      · simpa using this
      · intro j hj
        show w.bitAt (w.bitPos + 2 + j) = _
        rw [hwp, show s.bitPos + 2 + j = s.bitPos + (2 + j) by omega,
          hagree (s.bitPos + (2 + j)) (by omega) (by show _ < _; omega)]
        have := b5 j hj
        rw [a2] at this
        rw [show s.bitPos + (2 + j) = s.bitPos + 2 + j by omega]
        exact this
    unfold deserializeString Serializer.readBitsU at e1 e2 ⊢
    rw [e1]
    simp only [Bool.not_true, Bool.false_eq_true, if_false]
    rw [if_neg (by decide)]
    rw [e2]
    simp only [Bool.not_true, Bool.false_eq_true, if_false]
    rw [if_pos (by simp [hL])]
    rw [show ([] : List Nat) = v from hv.symm]
    refine congrArg _ (congrArg _ ?_)
    show ({ w with bitPos := w.bitPos + 8 } : Serializer) = _
    exact Serializer.update_pos_congr w _ _ (by show w.bitPos + 8 = _; omega)
  · have hpadwf : ((s.writeBitsU BBOther 2).2.writeBitsU v.length 6).2.bufferSize ≤
        64 * ((s.writeBitsU BBOther 2).2.writeBitsU v.length 6).2.buffer.length := by
      omega
    have hpad := Serializer.padToNext_wstep
      ((s.writeBitsU BBOther 2).2.writeBitsU v.length 6).2 hpadwf
    have hppos : ((s.writeBitsU BBOther 2).2.writeBitsU v.length 6).2.padToNext.bitPos =
        (((s.writeBitsU BBOther 2).2.writeBitsU v.length 6).2.bitPos + 8 - 1) / 8 * 8 := by
      refine Serializer.padToNext_pos _ ?_
      have hsz := hpad.size
      omega
    have hpsize := hpad.size
    have hplen := hpad.len
    obtain ⟨c1, c2, c3, c4⟩ := writeStringBytes_roundtrip v
      ((s.writeBitsU BBOther 2).2.writeBitsU v.length 6).2.padToNext hbytes
      (by omega) (by omega)
    have hred : serializeString v s =
        writeStringBytes v ((s.writeBitsU BBOther 2).2.writeBitsU v.length 6).2.padToNext := by
      unfold serializeString
      simp only [a1, Bool.not_true, Bool.false_eq_true, if_false, b1]
      rw [if_neg (by simp only [beq_iff_eq]; exact hL)]
    rw [hred]
    refine ⟨c1, a6.comp (b6.comp (hpad.comp c2)), by omega, by omega, ?_⟩
    intro w hwp hws hagree v0
    have e1 : w.readBitsU 2 = (true, BBOther, { w with bitPos := w.bitPos + 2 }) := by
      refine w.readBitsU_window BBOther 2 (by omega) (by omega) (by decide) ?_
      intro j hj
      rw [hwp, hagree (s.bitPos + j) (by omega) (by omega)]
      rw [c2.frame _ (Or.inl (by omega)), hpad.frame _ (Or.inl (by omega)),
        b6.frame _ (Or.inl (by omega))]
      exact a5 j hj
    have e2 : ({ w with bitPos := w.bitPos + 2 } : Serializer).readBitsU 6 =
        (true, v.length, { w with bitPos := w.bitPos + 8 }) := by
      have := Serializer.readBitsU_window { w with bitPos := w.bitPos + 2 } v.length 6
        (by omega) (by show w.bitPos + 2 + 6 ≤ w.bufferSize; omega) (by omega) ?_
      · simpa using this
      · intro j hj
        show w.bitAt (w.bitPos + 2 + j) = _
        rw [hwp, show s.bitPos + 2 + j = s.bitPos + (2 + j) by omega,
          hagree (s.bitPos + (2 + j)) (by omega) (by omega)]
        rw [c2.frame _ (Or.inl (by omega)), hpad.frame _ (Or.inl (by omega))]
        have := b5 j hj
        rw [a2] at this
        rw [show s.bitPos + (2 + j) = s.bitPos + 2 + j by omega]
        exact this
    have hrs : readStringBytes v.length []
        ({ w with bitPos := w.bitPos + 8 } : Serializer).alignByte =
        (true, v, { w with bitPos :=
          (writeStringBytes v
            ((s.writeBitsU BBOther 2).2.writeBitsU v.length 6).2.padToNext).2.bitPos }) := by
      have happ := c4 (({ w with bitPos := w.bitPos + 8 } : Serializer).alignByte) []
        (by
          show (w.bitPos + 8 + 8 - 1) / 8 * 8 = _
          omega)
        (by show w.bufferSize = _; omega)
        (by
          intro i hi1 hi2
          show w.bitAt i = _
          exact hagree i (by omega) (by omega))
      rw [List.nil_append] at happ
      rw [happ]
      refine congrArg _ (congrArg _ ?_)
      show ({ w with bitPos := _ } : Serializer) = _
      exact Serializer.update_pos_congr w _ _ (by omega)
    unfold deserializeString Serializer.readBitsU at e1 e2 ⊢
    rw [e1]
    simp only [Bool.not_true, Bool.false_eq_true, if_false]
    rw [if_neg (by decide)]
    rw [e2]
    simp only [Bool.not_true, Bool.false_eq_true, if_false]
    rw [if_neg (by simp only [beq_iff_eq]; exact hL)]
    rw [hrs]

/-- The array header (`11`, size 0, one count byte) reads back its count. -/
theorem writeArrayHeader_roundtrip (s : Serializer) (len : Nat)
    (hlen : len ≤ 255)
    (hwf : s.bufferSize ≤ 64 * s.buffer.length)
    (hcap : s.bitPos + 16 ≤ s.bufferSize) :
    (writeArrayHeader s len).1 = true ∧
    WStep s (writeArrayHeader s len).2 ∧
    (writeArrayHeader s len).2.bitPos = s.bitPos + 16 ∧
    ∀ w : Serializer, w.bitPos = s.bitPos → w.bufferSize = s.bufferSize →
      (∀ i, s.bitPos ≤ i → i < s.bitPos + 16 →
        w.bitAt i = (writeArrayHeader s len).2.bitAt i) →
      readArrayHeader w = (true, len, { w with bitPos := s.bitPos + 16 }) := by
  obtain ⟨a1, a2, a3, a4, a5, a6⟩ := s.writeBitsU_spec BBOther 2 (by omega) hwf (by omega)
  obtain ⟨b1, b2, b3, b4, b5, b6⟩ := (s.writeBitsU BBOther 2).2.writeBitsU_spec 0 6
    (by omega) (by omega) (by omega)
  obtain ⟨d1, d2, d3, d4, d5, d6⟩ :=
    ((s.writeBitsU BBOther 2).2.writeBitsU 0 6).2.writeBitsU_spec len 8
    (by omega) (by omega) (by omega)
  have hred : writeArrayHeader s len =
      ((s.writeBitsU BBOther 2).2.writeBitsU 0 6).2.writeBitsU len 8 := by
    unfold writeArrayHeader
    simp only [a1, Bool.not_true, Bool.false_eq_true, if_false, b1]
  rw [hred]
  refine ⟨d1, a6.comp (b6.comp d6), by omega, ?_⟩
  intro w hwp hws hagree
  have e1 : w.readBitsU 2 = (true, BBOther, { w with bitPos := w.bitPos + 2 }) := by
    refine w.readBitsU_window BBOther 2 (by omega) (by omega) (by decide) ?_
    intro j hj
    rw [hwp, hagree (s.bitPos + j) (by omega) (by omega)]
    rw [d6.frame _ (Or.inl (by omega)), b6.frame _ (Or.inl (by omega))]
    exact a5 j hj
  have e2 : ({ w with bitPos := w.bitPos + 2 } : Serializer).readBitsU 6 =
      (true, 0, { w with bitPos := w.bitPos + 8 }) := by
    have := Serializer.readBitsU_window { w with bitPos := w.bitPos + 2 } 0 6 (by omega)
      (by show w.bitPos + 2 + 6 ≤ w.bufferSize; omega) (by omega) ?_
    · simpa using this
    · intro j hj
      show w.bitAt (w.bitPos + 2 + j) = _
      rw [hwp, show s.bitPos + 2 + j = s.bitPos + (2 + j) by omega,
        hagree (s.bitPos + (2 + j)) (by omega) (by omega)]
      rw [d6.frame _ (Or.inl (by omega))]
      have := b5 j hj
      rw [a2] at this
      rw [show s.bitPos + (2 + j) = s.bitPos + 2 + j by omega]
      exact this
  have e3 : ({ w with bitPos := w.bitPos + 8 } : Serializer).readBitsU 8 =
      (true, len, { w with bitPos := w.bitPos + 16 }) := by
    have := Serializer.readBitsU_window { w with bitPos := w.bitPos + 8 } len 8 (by omega)
      (by show w.bitPos + 8 + 8 ≤ w.bufferSize; omega) (by omega) ?_
    · simpa [show w.bitPos + 8 + 8 = w.bitPos + 16 by omega] using this
    · intro j hj
      show w.bitAt (w.bitPos + 8 + j) = _
      rw [hwp, show s.bitPos + 8 + j = s.bitPos + (8 + j) by omega,
        hagree (s.bitPos + (8 + j)) (by omega) (by omega)]
      have := d5 j hj
      rw [b2, a2] at this
      rw [show s.bitPos + (8 + j) = s.bitPos + 2 + 6 + j by omega]
      exact this
  have hnum : readArrayHeader w = (true, len, { w with bitPos := w.bitPos + 16 }) := by
    unfold readArrayHeader Serializer.readBitsU at e1 e2 e3 ⊢
    rw [e1]
    simp only [Bool.not_true, Bool.false_eq_true, if_false]
    rw [if_neg (by decide)]
    rw [e2]
    simp only [Bool.not_true, Bool.false_eq_true, if_false]
    rw [if_neg (by decide)]
    rw [e3]
  rw [hnum, Serializer.update_pos_congr w (w.bitPos + 16) (s.bitPos + 16) (by omega)]

/-- A 2-bit tag followed by an unsigned payload: both reads recover the
written values from any window-agreeing state. -/
theorem writeTagPayloadU_spec (u : Serializer) (t x p : Nat)
    (ht : t < 2 ^ 2) (hp : p ≤ 62) (hx : x < 2 ^ p)
    (hwf : u.bufferSize ≤ 64 * u.buffer.length)
    (hcap : u.bitPos + (2 + p) ≤ u.bufferSize) :
    (u.writeBitsU t 2).1 = true ∧
    ((u.writeBitsU t 2).2.writeBitsU x p).1 = true ∧
    WStep u ((u.writeBitsU t 2).2.writeBitsU x p).2 ∧
    ((u.writeBitsU t 2).2.writeBitsU x p).2.bitPos = u.bitPos + (2 + p) ∧
    ∀ w : Serializer, w.bitPos = u.bitPos → w.bufferSize = u.bufferSize →
      (∀ i, u.bitPos ≤ i → i < u.bitPos + (2 + p) →
        w.bitAt i = ((u.writeBitsU t 2).2.writeBitsU x p).2.bitAt i) →
      w.readBitsU 2 = (true, t, { w with bitPos := w.bitPos + 2 }) ∧
      ({ w with bitPos := w.bitPos + 2 } : Serializer).readBitsU p =
        (true, x, { w with bitPos := w.bitPos + (2 + p) }) := by
  obtain ⟨a1, a2, a3, a4, a5, a6⟩ := u.writeBitsU_spec t 2 (by omega) hwf (by omega)
  obtain ⟨b1, b2, b3, b4, b5, b6⟩ := (u.writeBitsU t 2).2.writeBitsU_spec x p
    (by omega) (by omega) (by omega)
  refine ⟨a1, b1, a6.comp b6, by omega, ?_⟩
  intro w hwp hws hagree
  constructor
  · refine w.readBitsU_window t 2 (by omega) (by omega) ht ?_
    intro j hj
    rw [hwp, hagree (u.bitPos + j) (by omega) (by omega)]
    rw [b6.frame _ (Or.inl (by omega))]
    exact a5 j hj
  · have := Serializer.readBitsU_window { w with bitPos := w.bitPos + 2 } x p (by omega)
      (by show w.bitPos + 2 + p ≤ w.bufferSize; omega) hx ?_
    · simpa [Nat.add_assoc] using this
    · intro j hj
      show w.bitAt (w.bitPos + 2 + j) = _
      rw [hwp, show u.bitPos + 2 + j = u.bitPos + (2 + j) by omega,
        hagree (u.bitPos + (2 + j)) (by omega) (by omega)]
      have := b5 j hj
      rw [a2] at this
      rw [show u.bitPos + (2 + j) = u.bitPos + 2 + j by omega]
      exact this

/-- A 2-bit tag followed by a signed payload: the tag read and the signed
payload read both recover the written values. -/
theorem writeTagPayloadI_spec (u : Serializer) (t p : Nat) (v : Int)
    (ht : t < 2 ^ 2) (hp2 : 2 ≤ p) (hp : p ≤ 30)
    (hlo : -(2 ^ (p - 1)) < v) (hhi : v < 2 ^ (p - 1))
    (hwf : u.bufferSize ≤ 64 * u.buffer.length)
    (hcap : u.bitPos + (2 + p) ≤ u.bufferSize) :
    (u.writeBitsU t 2).1 = true ∧
    ((u.writeBitsU t 2).2.writeBitsI v p).1 = true ∧
    WStep u ((u.writeBitsU t 2).2.writeBitsI v p).2 ∧
    ((u.writeBitsU t 2).2.writeBitsI v p).2.bitPos = u.bitPos + (2 + p) ∧
    ∀ w : Serializer, w.bitPos = u.bitPos → w.bufferSize = u.bufferSize →
      (∀ i, u.bitPos ≤ i → i < u.bitPos + (2 + p) →
        w.bitAt i = ((u.writeBitsU t 2).2.writeBitsI v p).2.bitAt i) →
      w.readBitsU 2 = (true, t, { w with bitPos := w.bitPos + 2 }) ∧
      ({ w with bitPos := w.bitPos + 2 } : Serializer).readBitsI p =
        (true, v, { w with bitPos := w.bitPos + (2 + p) }) := by
  obtain ⟨a1, a2, a3, a4, a5, a6⟩ := u.writeBitsU_spec t 2 (by omega) hwf (by omega)
  obtain ⟨b1, b2, b3, b4, b5, b6⟩ := (u.writeBitsU t 2).2.writeBitsI_spec v p
    (by omega) (by omega) (by omega)
  refine ⟨a1, b1, a6.comp b6, by omega, ?_⟩
  intro w hwp hws hagree
  constructor
  · refine w.readBitsU_window t 2 (by omega) (by omega) ht ?_
    intro j hj
    rw [hwp, hagree (u.bitPos + j) (by omega) (by omega)]
    rw [b6.frame _ (Or.inl (by omega))]
    exact a5 j hj
  · have := Serializer.readBitsI_decode { w with bitPos := w.bitPos + 2 } v p hp2 (by omega)
      (by show w.bitPos + 2 + p ≤ w.bufferSize; omega) (le_of_lt hlo) hhi ?_
    · rw [if_pos hlo] at this
      simpa [Nat.add_assoc] using this
    · intro j hj
      show w.bitAt (w.bitPos + 2 + j) = _
      rw [hwp, show u.bitPos + 2 + j = u.bitPos + (2 + j) by omega,
        hagree (u.bitPos + (2 + j)) (by omega) (by omega)]
      have := b5 j hj
      rw [a2] at this
      rw [show u.bitPos + (2 + j) = u.bitPos + 2 + j by omega]
      exact this

/-- `writeArrayValue` (unsigned) followed by `readArrayNumber` recovers the
element; the element consumes exactly its compact-tag budget. -/
theorem writeArrayValueU_roundtrip (u : Serializer) (x : Nat)
    (hx : x < 2 ^ 62)
    (hwf : u.bufferSize ≤ 64 * u.buffer.length)
    (hcap : u.bitPos + tagBitsU x ≤ u.bufferSize) :
    (writeArrayValueU u x).1 = true ∧
    WStep u (writeArrayValueU u x).2 ∧
    (writeArrayValueU u x).2.bitPos = u.bitPos + tagBitsU x ∧
    ∀ w : Serializer, w.bitPos = u.bitPos → w.bufferSize = u.bufferSize →
      (∀ i, u.bitPos ≤ i → i < u.bitPos + tagBitsU x →
        w.bitAt i = (writeArrayValueU u x).2.bitAt i) →
      readArrayNumberU w = (true, x, { w with bitPos := u.bitPos + tagBitsU x }) := by
  by_cases h0 : x < 2 ^ 6
  · have htag : tagBitsU x = 8 := by unfold tagBitsU; rw [if_pos h0]
    rw [htag] at hcap ⊢
    obtain ⟨a1, k1, k2, k3, k4⟩ := writeTagPayloadU_spec u 0 x 6 (by omega) (by omega) h0
      hwf (by omega)
    have hred : writeArrayValueU u x = (u.writeBitsU 0 2).2.writeBitsU x 6 := by
      unfold writeArrayValueU
      rw [if_pos h0]
      simp only [a1, if_true]
    rw [hred]
    refine ⟨k1, k2, by omega, ?_⟩
    intro w hwp hws hagree
    obtain ⟨e1, e2⟩ := k4 w hwp hws hagree
    have hnum : readArrayNumberU w = (true, x, { w with bitPos := w.bitPos + (2 + 6) }) := by
      unfold readArrayNumberU
      rw [e1]
      simp only [Bool.not_true, Bool.false_eq_true, if_false]
      exact e2
    rw [hnum, Serializer.update_pos_congr w (w.bitPos + (2 + 6)) (u.bitPos + 8) (by omega)]
  · by_cases h1 : x < 2 ^ 14
    · have htag : tagBitsU x = 16 := by unfold tagBitsU; rw [if_neg h0, if_pos h1]
      rw [htag] at hcap ⊢
      obtain ⟨a1, k1, k2, k3, k4⟩ := writeTagPayloadU_spec u 1 x 14 (by omega) (by omega) h1
        hwf (by omega)
      have hred : writeArrayValueU u x = (u.writeBitsU 1 2).2.writeBitsU x 14 := by
        unfold writeArrayValueU
        rw [if_neg h0, if_pos h1]
        simp only [a1, if_true]
      rw [hred]
      refine ⟨k1, k2, by omega, ?_⟩
      intro w hwp hws hagree
      obtain ⟨e1, e2⟩ := k4 w hwp hws hagree
      have hnum : readArrayNumberU w =
          (true, x, { w with bitPos := w.bitPos + (2 + 14) }) := by
        unfold readArrayNumberU
        rw [e1]
        simp only [Bool.not_true, Bool.false_eq_true, if_false]
        exact e2
      rw [hnum,
        Serializer.update_pos_congr w (w.bitPos + (2 + 14)) (u.bitPos + 16) (by omega)]
    · by_cases h2 : x < 2 ^ 30
      · have htag : tagBitsU x = 32 := by
          unfold tagBitsU; rw [if_neg h0, if_neg h1, if_pos h2]
        rw [htag] at hcap ⊢
        obtain ⟨a1, k1, k2, k3, k4⟩ := writeTagPayloadU_spec u 2 x 30 (by omega) (by omega)
          h2 hwf (by omega)
        have hred : writeArrayValueU u x = (u.writeBitsU 2 2).2.writeBitsU x 30 := by
          unfold writeArrayValueU
          rw [if_neg h0, if_neg h1, if_pos h2]
          simp only [a1, if_true]
        rw [hred]
        refine ⟨k1, k2, by omega, ?_⟩
        intro w hwp hws hagree
        obtain ⟨e1, e2⟩ := k4 w hwp hws hagree
        have hnum : readArrayNumberU w =
            (true, x, { w with bitPos := w.bitPos + (2 + 30) }) := by
          unfold readArrayNumberU
          rw [e1]
          simp only [Bool.not_true, Bool.false_eq_true, if_false]
          exact e2
        rw [hnum,
          Serializer.update_pos_congr w (w.bitPos + (2 + 30)) (u.bitPos + 32) (by omega)]
      · have htag : tagBitsU x = 64 := by
          unfold tagBitsU; rw [if_neg h0, if_neg h1, if_neg h2]
        rw [htag] at hcap ⊢
        obtain ⟨a1, k1, k2, k3, k4⟩ := writeTagPayloadU_spec u 3 x 62 (by omega) (by omega)
          hx hwf (by omega)
        have hred : writeArrayValueU u x = (u.writeBitsU 3 2).2.writeBitsU x 62 := by
          unfold writeArrayValueU
          rw [if_neg h0, if_neg h1, if_neg h2]
          simp only [a1, if_true]
        rw [hred]
        refine ⟨k1, k2, by omega, ?_⟩
        intro w hwp hws hagree
        obtain ⟨e1, e2⟩ := k4 w hwp hws hagree
        have hnum : readArrayNumberU w =
            (true, x, { w with bitPos := w.bitPos + (2 + 62) }) := by
          unfold readArrayNumberU
          rw [e1]
          simp only [Bool.not_true, Bool.false_eq_true, if_false]
          exact e2
        rw [hnum,
          Serializer.update_pos_congr w (w.bitPos + (2 + 62)) (u.bitPos + 64) (by omega)]

/-- Signed variant of `writeArrayValueU_roundtrip`, for elements within the
29-bit magnitude window (the 62-bit tag is excluded: its sign mask
`1 << 61` is an `int` shift whose count is taken mod 32 on mainstream
targets, so that tag does not follow the sign/magnitude layout). -/
theorem writeArrayValueI_roundtrip (u : Serializer) (x : Int)
    (hx : x.natAbs < 2 ^ 29)
    (hwf : u.bufferSize ≤ 64 * u.buffer.length)
    (hcap : u.bitPos + tagBitsI x ≤ u.bufferSize) :
    (writeArrayValueI u x).1 = true ∧
    WStep u (writeArrayValueI u x).2 ∧
    (writeArrayValueI u x).2.bitPos = u.bitPos + tagBitsI x ∧
    ∀ w : Serializer, w.bitPos = u.bitPos → w.bufferSize = u.bufferSize →
      (∀ i, u.bitPos ≤ i → i < u.bitPos + tagBitsI x →
        w.bitAt i = (writeArrayValueI u x).2.bitAt i) →
      readArrayNumberI w = (true, x, { w with bitPos := u.bitPos + tagBitsI x }) := by
  by_cases h0 : x.natAbs < 2 ^ 5
  · have htag : tagBitsI x = 8 := by unfold tagBitsI; rw [if_pos h0]
    rw [htag] at hcap ⊢
    obtain ⟨a1, k1, k2, k3, k4⟩ := writeTagPayloadI_spec u 0 6 x (by omega) (by omega)
      (by omega) (by show -(2 ^ 5 : Int) < x; omega) (by show x < (2 ^ 5 : Int); omega)
      hwf (by omega)
    have hred : writeArrayValueI u x = (u.writeBitsU 0 2).2.writeBitsI x 6 := by
      unfold writeArrayValueI
      rw [if_pos h0]
      simp only [a1, if_true]
    rw [hred]
    refine ⟨k1, k2, by omega, ?_⟩
    intro w hwp hws hagree
    obtain ⟨e1, e2⟩ := k4 w hwp hws hagree
    have hnum : readArrayNumberI w = (true, x, { w with bitPos := w.bitPos + (2 + 6) }) := by
      unfold readArrayNumberI
      rw [e1]
      simp only [Bool.not_true, Bool.false_eq_true, if_false]
      exact e2
    rw [hnum, Serializer.update_pos_congr w (w.bitPos + (2 + 6)) (u.bitPos + 8) (by omega)]
  · by_cases h1 : x.natAbs < 2 ^ 13
    · have htag : tagBitsI x = 16 := by unfold tagBitsI; rw [if_neg h0, if_pos h1]
      rw [htag] at hcap ⊢
      obtain ⟨a1, k1, k2, k3, k4⟩ := writeTagPayloadI_spec u 1 14 x (by omega) (by omega)
        (by omega) (by show -(2 ^ 13 : Int) < x; omega) (by show x < (2 ^ 13 : Int); omega)
        hwf (by omega)
      have hred : writeArrayValueI u x = (u.writeBitsU 1 2).2.writeBitsI x 14 := by
        unfold writeArrayValueI
        rw [if_neg h0, if_pos h1]
        simp only [a1, if_true]
      rw [hred]
      refine ⟨k1, k2, by omega, ?_⟩
      intro w hwp hws hagree
      obtain ⟨e1, e2⟩ := k4 w hwp hws hagree
      have hnum : readArrayNumberI w =
          (true, x, { w with bitPos := w.bitPos + (2 + 14) }) := by
        unfold readArrayNumberI
        rw [e1]
        simp only [Bool.not_true, Bool.false_eq_true, if_false]
        exact e2
      rw [hnum,
        Serializer.update_pos_congr w (w.bitPos + (2 + 14)) (u.bitPos + 16) (by omega)]
    · by_cases h2 : x.natAbs < 2 ^ 29
      · have htag : tagBitsI x = 32 := by
          unfold tagBitsI; rw [if_neg h0, if_neg h1, if_pos h2]
        rw [htag] at hcap ⊢
        obtain ⟨a1, k1, k2, k3, k4⟩ := writeTagPayloadI_spec u 2 30 x (by omega) (by omega)
          (by omega) (by show -(2 ^ 29 : Int) < x; omega)
          (by show x < (2 ^ 29 : Int); omega) hwf (by omega)
        have hred : writeArrayValueI u x = (u.writeBitsU 2 2).2.writeBitsI x 30 := by
          unfold writeArrayValueI
          rw [if_neg h0, if_neg h1, if_pos h2]
          simp only [a1, if_true]
        rw [hred]
        refine ⟨k1, k2, by omega, ?_⟩
        intro w hwp hws hagree
        obtain ⟨e1, e2⟩ := k4 w hwp hws hagree
        have hnum : readArrayNumberI w =
            (true, x, { w with bitPos := w.bitPos + (2 + 30) }) := by
          unfold readArrayNumberI
          rw [e1]
          simp only [Bool.not_true, Bool.false_eq_true, if_false]
          exact e2
        rw [hnum,
          Serializer.update_pos_congr w (w.bitPos + (2 + 30)) (u.bitPos + 32) (by omega)]
      · exact absurd hx h2

/-- The unsigned element loop of `ValueArray::serialize` followed by the
element loop of `ValueArray::deserialize` restores the element list. -/
theorem writeArrayValuesU_roundtrip (b : Nat) : ∀ (l gl : List Nat) (u : Serializer),
    (∀ x ∈ l, tagBitsU x ≤ 8 * b ∧ x < 2 ^ 62 ∧ x < 2 ^ (8 * b)) →
    gl.length = l.length →
    u.bufferSize ≤ 64 * u.buffer.length →
    u.bitPos + l.length * (8 * b) ≤ u.bufferSize →
    (writeArrayValuesU l u).1 = true ∧
    WStep u (writeArrayValuesU l u).2 ∧
    (writeArrayValuesU l u).2.bitPos ≤ u.bitPos + l.length * (8 * b) ∧
    ∀ w : Serializer, w.bitPos = u.bitPos → w.bufferSize = u.bufferSize →
      (∀ i, u.bitPos ≤ i → i < (writeArrayValuesU l u).2.bitPos →
        w.bitAt i = (writeArrayValuesU l u).2.bitAt i) →
      readArrayValuesU b gl w =
        (true, l, { w with bitPos := (writeArrayValuesU l u).2.bitPos })
  | [], gl, u => by
    intro _ hgl _ _
    have hgl0 : gl = [] := List.eq_nil_of_length_eq_zero hgl
    subst hgl0
    refine ⟨rfl, WStep.refl u,
      by show u.bitPos ≤ u.bitPos + ([] : List Nat).length * (8 * b); simp, ?_⟩
    intro w hwp _ _
    show (true, [], w) = _
    rw [Serializer.update_pos_congr w ((writeArrayValuesU [] u).2.bitPos) w.bitPos
      (by show u.bitPos = w.bitPos; omega)]
  | x :: rest, gl, u => by
    intro hel hgl hwf hcap
    obtain ⟨y, grest, rfl⟩ : ∃ y grest, gl = y :: grest := by
      cases gl with
      | nil => exact absurd hgl (by simp)
      | cons y grest => exact ⟨y, grest, rfl⟩
    have hx := hel x (by simp)
    have hmul : (x :: rest).length * (8 * b) = rest.length * (8 * b) + 8 * b := by
      simp only [List.length_cons]
      ring
    obtain ⟨e1, e2, e3, e4⟩ := writeArrayValueU_roundtrip u x hx.2.1 hwf (by omega)
    have hstep : writeArrayValuesU (x :: rest) u =
        writeArrayValuesU rest (writeArrayValueU u x).2 := by
      show (let r := writeArrayValueU u x
        if r.1 then writeArrayValuesU rest r.2 else (false, r.2)) = _
      rw [if_pos e1]
    obtain ⟨f1, f2, f3, f4⟩ := writeArrayValuesU_roundtrip b rest grest
      (writeArrayValueU u x).2
      (fun z hz => hel z (by simp [hz]))
      (by simp only [List.length_cons] at hgl; omega)
      (by have hs := e2.size; have hl := e2.len; omega)
      (by have hs := e2.size; omega)
    rw [hstep]
    have hfm := f2.mono
    refine ⟨f1, e2.comp f2, by omega, ?_⟩
    intro w hwp hws hagree
    have hrd : readArrayNumberU w = (true, x, { w with bitPos := u.bitPos + tagBitsU x }) := by
      refine e4 w hwp hws ?_
      intro i hi1 hi2
      rw [hagree i hi1 (by omega)]
      exact f2.frame i (Or.inl (by omega))
    have hrr := f4 ({ w with bitPos := u.bitPos + tagBitsU x } : Serializer)
      (by show u.bitPos + tagBitsU x = (writeArrayValueU u x).2.bitPos; omega)
      (by show w.bufferSize = (writeArrayValueU u x).2.bufferSize
          have hs := e2.size
          omega)
      (by
        intro i hi1 hi2
        show w.bitAt i = _
        exact hagree i (by omega) hi2)
    show (let r := readArrayNumberU w
      if r.1 then
        let rr := readArrayValuesU b grest r.2.2
        (rr.1, r.2.1 % 2 ^ (8 * b) :: rr.2.1, rr.2.2)
      else (false, y :: grest, r.2.2)) = _
    rw [hrd]
    dsimp only
    rw [hrr]
    dsimp only
    rw [Nat.mod_eq_of_lt hx.2.2, if_pos rfl]

/-- Signed variant of `writeArrayValuesU_roundtrip`. -/
theorem writeArrayValuesI_roundtrip (b : Nat) : ∀ (l gl : List Int) (u : Serializer),
    (∀ x ∈ l, tagBitsI x ≤ 8 * b ∧ x.natAbs < 2 ^ 29 ∧ wrapS x (8 * b) = x) →
    gl.length = l.length →
    u.bufferSize ≤ 64 * u.buffer.length →
    u.bitPos + l.length * (8 * b) ≤ u.bufferSize →
    (writeArrayValuesI l u).1 = true ∧
    WStep u (writeArrayValuesI l u).2 ∧
    (writeArrayValuesI l u).2.bitPos ≤ u.bitPos + l.length * (8 * b) ∧
    ∀ w : Serializer, w.bitPos = u.bitPos → w.bufferSize = u.bufferSize →
      (∀ i, u.bitPos ≤ i → i < (writeArrayValuesI l u).2.bitPos →
        w.bitAt i = (writeArrayValuesI l u).2.bitAt i) →
      readArrayValuesI b gl w =
        (true, l, { w with bitPos := (writeArrayValuesI l u).2.bitPos })
  | [], gl, u => by
    intro _ hgl _ _
    have hgl0 : gl = [] := List.eq_nil_of_length_eq_zero hgl
    subst hgl0
    refine ⟨rfl, WStep.refl u,
      by show u.bitPos ≤ u.bitPos + ([] : List Int).length * (8 * b); simp, ?_⟩
    intro w hwp _ _
    show (true, [], w) = _
    rw [Serializer.update_pos_congr w ((writeArrayValuesI [] u).2.bitPos) w.bitPos
      (by show u.bitPos = w.bitPos; omega)]
  | x :: rest, gl, u => by
    intro hel hgl hwf hcap
    obtain ⟨y, grest, rfl⟩ : ∃ y grest, gl = y :: grest := by
      cases gl with
      | nil => exact absurd hgl (by simp)
      | cons y grest => exact ⟨y, grest, rfl⟩
    have hx := hel x (by simp)
    have hmul : (x :: rest).length * (8 * b) = rest.length * (8 * b) + 8 * b := by
      simp only [List.length_cons]
      ring
    obtain ⟨e1, e2, e3, e4⟩ := writeArrayValueI_roundtrip u x hx.2.1 hwf (by omega)
    have hstep : writeArrayValuesI (x :: rest) u =
        writeArrayValuesI rest (writeArrayValueI u x).2 := by
      show (let r := writeArrayValueI u x
        if r.1 then writeArrayValuesI rest r.2 else (false, r.2)) = _
      rw [if_pos e1]
    obtain ⟨f1, f2, f3, f4⟩ := writeArrayValuesI_roundtrip b rest grest
      (writeArrayValueI u x).2
      (fun z hz => hel z (by simp [hz]))
      (by simp only [List.length_cons] at hgl; omega)
      (by have hs := e2.size; have hl := e2.len; omega)
      (by have hs := e2.size; omega)
    rw [hstep]
    have hfm := f2.mono
    refine ⟨f1, e2.comp f2, by omega, ?_⟩
    intro w hwp hws hagree
    have hrd : readArrayNumberI w = (true, x, { w with bitPos := u.bitPos + tagBitsI x }) := by
      refine e4 w hwp hws ?_
      intro i hi1 hi2
      rw [hagree i hi1 (by omega)]
      exact f2.frame i (Or.inl (by omega))
    have hrr := f4 ({ w with bitPos := u.bitPos + tagBitsI x } : Serializer)
      (by show u.bitPos + tagBitsI x = (writeArrayValueI u x).2.bitPos; omega)
      (by show w.bufferSize = (writeArrayValueI u x).2.bufferSize
          have hs := e2.size
          omega)
      (by
        intro i hi1 hi2
        show w.bitAt i = _
        exact hagree i (by omega) hi2)
    show (let r := readArrayNumberI w
      if r.1 then
        let rr := readArrayValuesI b grest r.2.2
        (rr.1, wrapS r.2.1 (8 * b) :: rr.2.1, rr.2.2)
      else (false, y :: grest, r.2.2)) = _
    rw [hrd]
    dsimp only
    rw [hrr]
    dsimp only
    rw [hx.2.2, if_pos rfl]

theorem tagBitsU_le (x w : Nat) (hx : x < 2 ^ (w - 2))
    (hw : w = 8 ∨ w = 16 ∨ w = 32 ∨ w = 64) : tagBitsU x ≤ w := by
  unfold tagBitsU
  rcases hw with rfl | rfl | rfl | rfl
  · rw [if_pos (by omega)]
  · by_cases h : x < 2 ^ 6
    · rw [if_pos h]; omega
    · rw [if_neg h, if_pos (by omega)]
  · by_cases h : x < 2 ^ 6
    · rw [if_pos h]; omega
    · rw [if_neg h]
      by_cases h2 : x < 2 ^ 14
      · rw [if_pos h2]; omega
      · rw [if_neg h2, if_pos (by omega)]
  · by_cases h : x < 2 ^ 6
    · rw [if_pos h]; omega
    · rw [if_neg h]
      by_cases h2 : x < 2 ^ 14
      · rw [if_pos h2]; omega
      · rw [if_neg h2]
        by_cases h3 : x < 2 ^ 30
        · rw [if_pos h3]; omega
        · rw [if_neg h3]

theorem tagBitsI_le (x : Int) (w : Nat) (hx : x.natAbs < 2 ^ (w - 3))
    (hw : w = 8 ∨ w = 16 ∨ w = 32 ∨ w = 64) : tagBitsI x ≤ w := by
  unfold tagBitsI
  rcases hw with rfl | rfl | rfl | rfl
  · rw [if_pos (by omega)]
  · by_cases h : x.natAbs < 2 ^ 5
    · rw [if_pos h]; omega
    · rw [if_neg h, if_pos (by omega)]
  · by_cases h : x.natAbs < 2 ^ 5
    · rw [if_pos h]; omega
    · rw [if_neg h]
      by_cases h2 : x.natAbs < 2 ^ 13
      · rw [if_pos h2]; omega
      · rw [if_neg h2, if_pos (by omega)]
  · by_cases h : x.natAbs < 2 ^ 5
    · rw [if_pos h]; omega
    · rw [if_neg h]
      by_cases h2 : x.natAbs < 2 ^ 13
      · rw [if_pos h2]; omega
      · rw [if_neg h2]
        by_cases h3 : x.natAbs < 2 ^ 29
        · rw [if_pos h3]; omega
        · rw [if_neg h3]

/-- One encodable field serializes successfully within its
`getTotalBitSize` contribution, and any same-shape field deserializing the
written window recovers it exactly, ending at the writer's position. -/
theorem fieldRoundtrip (f g : Field) (s : Serializer)
    (henc : f.Encodable) (hsh : Field.sameShape g f = true)
    (hwf : s.bufferSize ≤ 64 * s.buffer.length)
    (hcap : s.bitPos + f.totalBitContrib ≤ s.bufferSize) :
    (f.serialize s).1 = true ∧
    WStep s (f.serialize s).2 ∧
    (f.serialize s).2.bitPos ≤ s.bitPos + f.totalBitContrib ∧
    ∀ w : Serializer, w.bitPos = s.bitPos → w.bufferSize = s.bufferSize →
      (∀ i, s.bitPos ≤ i → i < (f.serialize s).2.bitPos →
        w.bitAt i = (f.serialize s).2.bitAt i) →
      g.deserialize w = (true, f, { w with bitPos := (f.serialize s).2.bitPos }) := by
  cases f with
  | version =>
    cases g <;> try exact Bool.noConfusion hsh
    case version =>
    have hser : Field.serialize .version s = s.writeBitsU BBVersion 2 := rfl
    have hc : (Field.version).totalBitContrib = 2 := rfl
    rw [hc] at hcap
    obtain ⟨a1, a2, a3, a4, a5, a6⟩ := s.writeBitsU_spec BBVersion 2 (by omega) hwf
      (by omega)
    rw [hser, hc]
    refine ⟨a1, a6, by omega, ?_⟩
    intro w hwp hws hagree
    have e1 : w.readBitsU 2 = (true, BBVersion, { w with bitPos := w.bitPos + 2 }) := by
      refine w.readBitsU_window BBVersion 2 (by omega) (by omega) (by decide) ?_
      intro j hj
      rw [hwp, hagree (s.bitPos + j) (by omega) (by omega)]
      exact a5 j hj
    show (let r := w.readBitsU 2
      if r.1 then ((r.2.1 == BBVersion), Field.version, r.2.2)
      else (false, Field.version, r.2.2)) = _
    rw [e1]
    dsimp only
    rw [if_pos rfl,
      Serializer.update_pos_congr w (w.bitPos + 2) ((s.writeBitsU BBVersion 2).2.bitPos)
        (by omega)]
    rfl
  | vbool bv =>
    cases g <;> try exact Bool.noConfusion hsh
    case vbool b0 =>
    have hser : Field.serialize (.vbool bv) s = s.writeBitsI (if bv then 1 else 0) 2 := rfl
    have hc : (Field.vbool bv).totalBitContrib = 2 := rfl
    rw [hc] at hcap
    obtain ⟨a1, a2, a3, a4, a5, a6⟩ := s.writeBitsI_spec (if bv then 1 else 0) 2 (by omega)
      hwf (by omega)
    rw [hser, hc]
    refine ⟨a1, a6, by omega, ?_⟩
    intro w hwp hws hagree
    have hpat : patI (if bv then 1 else 0) 2 = (if bv then 1 else 0 : Nat) := by
      cases bv <;> decide
    have e1 : w.readBitsU 2 =
        (true, (if bv then 1 else 0 : Nat), { w with bitPos := w.bitPos + 2 }) := by
      refine w.readBitsU_window _ 2 (by omega) (by omega) (by cases bv <;> decide) ?_
      intro j hj
      rw [hwp, hagree (s.bitPos + j) (by omega) (by omega)]
      rw [a5 j hj, hpat]
    show (let r := w.readBitsU 2
      if r.1 then
        if r.2.1 == 0 then (true, Field.vbool false, r.2.2)
        else if r.2.1 == 1 then (true, Field.vbool true, r.2.2)
        else (false, Field.vbool b0, r.2.2)
      else (false, Field.vbool b0, r.2.2)) = _
    rw [e1]
    dsimp only
    rw [if_pos rfl]
    cases bv
    · rw [if_pos (by decide),
        Serializer.update_pos_congr w (w.bitPos + 2)
          ((s.writeBitsI (if false then 1 else 0) 2).2.bitPos) (by omega)]
    · rw [if_neg (by decide), if_pos (by decide),
        Serializer.update_pos_congr w (w.bitPos + 2)
          ((s.writeBitsI (if true then 1 else 0) 2).2.bitPos) (by omega)]
  | vstring v =>
    cases g <;> try exact Bool.noConfusion hsh
    case vstring v0 =>
    obtain ⟨hlen, hbytes⟩ := henc
    have hser : Field.serialize (.vstring v) s = serializeString v s := rfl
    have hc : (Field.vstring v).totalBitContrib = 2 + (6 + 1 * (v.length * 8) + 7) := rfl
    rw [hc] at hcap
    obtain ⟨k1, k2, k3, k4, k5⟩ := serializeString_roundtrip s v hlen hbytes hwf (by omega)
    rw [hser, hc]
    refine ⟨k1, k2, by omega, ?_⟩
    intro w hwp hws hagree
    exact k5 w hwp hws hagree v0
  | vnumU b v =>
    cases g <;> try exact Bool.noConfusion hsh
    case vnumU b2 v0 =>
    have hsh2 : (b2 == b) = true := hsh
    have hb2 : b2 = b := by simpa using hsh2
    rw [hb2]
    obtain ⟨hb, hv⟩ := henc
    have hb8 : 8 ≤ b * 8 ∧ b * 8 ≤ 32 := by rcases hb with rfl | rfl | rfl <;> omega
    have hser : Field.serialize (.vnumU b v) s = writeNumberU s v (b * 8) := rfl
    have hc : (Field.vnumU b v).totalBitContrib = 2 + (6 + 1 * (b * 8) + 7) := rfl
    rw [hc] at hcap
    have hv' : v < 2 ^ (b * 8) := by rw [Nat.mul_comm b 8]; exact hv
    by_cases hv0 : v = 0
    · subst hv0
      have hred : writeNumberU s 0 (b * 8) = s.writeBitsU BBZero 2 := by
        unfold writeNumberU
        simp only [beq_self_eq_true, if_true]
      obtain ⟨a1, a2, a3, a4, a5, a6⟩ := s.writeBitsU_spec BBZero 2 (by omega) hwf
        (by omega)
      rw [hser, hred, hc]
      refine ⟨a1, a6, by omega, ?_⟩
      intro w hwp hws hagree
      have e1 : w.readBitsU 2 = (true, 0, { w with bitPos := w.bitPos + 2 }) := by
        refine w.readBitsU_window 0 2 (by omega) (by omega) (by decide) ?_
        intro j hj
        rw [hwp, hagree (s.bitPos + j) (by omega) (by omega)]
        exact a5 j hj
      have hnum : readNumberU w = (true, 0, { w with bitPos := w.bitPos + 2 }) := by
        unfold readNumberU
        rw [e1]
        simp only [Bool.not_true, Bool.false_eq_true, if_false]
        simp only [beq_self_eq_true, if_true]
      show (let r := readNumberU w
        if r.1 then (true, Field.vnumU b (r.2.1 % 2 ^ (8 * b)), r.2.2)
        else (false, Field.vnumU b v0, r.2.2)) = _
      rw [hnum]
      dsimp only
      rw [if_pos rfl, Nat.zero_mod,
        Serializer.update_pos_congr w (w.bitPos + 2) ((s.writeBitsU BBZero 2).2.bitPos)
          (by omega)]
    · obtain ⟨k1, k2, k3, k4⟩ := writeNumberU_roundtrip s v (b * 8) hv0 (by omega)
        (by omega) hv' hwf (by omega)
      rw [hser, hc]
      refine ⟨k1, k2, by omega, ?_⟩
      intro w hwp hws hagree
      have hnum := k4 w hwp hws (fun i hi1 hi2 => hagree i hi1 (by omega))
      show (let r := readNumberU w
        if r.1 then (true, Field.vnumU b (r.2.1 % 2 ^ (8 * b)), r.2.2)
        else (false, Field.vnumU b v0, r.2.2)) = _
      rw [hnum]
      dsimp only
      rw [if_pos rfl, Nat.mod_eq_of_lt hv,
        Serializer.update_pos_congr w (s.bitPos + (8 + b * 8))
          ((writeNumberU s v (b * 8)).2.bitPos) (by omega)]
  | vnumI b v =>
    cases g <;> try exact Bool.noConfusion hsh
    case vnumI b2 v0 =>
    have hsh2 : (b2 == b) = true := hsh
    have hb2 : b2 = b := by simpa using hsh2
    rw [hb2]
    obtain ⟨hb, hvlo, hvhi⟩ := henc
    have hb8 : 8 ≤ b * 8 ∧ b * 8 ≤ 32 := by rcases hb with rfl | rfl | rfl <;> omega
    have hser : Field.serialize (.vnumI b v) s = writeNumberI s v (b * 8) := rfl
    have hc : (Field.vnumI b v).totalBitContrib = 2 + (6 + 1 * (b * 8) + 7) := rfl
    rw [hc] at hcap
    have hwrap : wrapS v (8 * b) = v :=
      wrapS_eq_of_range v (8 * b) (by omega) (le_of_lt hvlo) hvhi
    by_cases hv0 : v = 0
    · subst hv0
      have hred : writeNumberI s 0 (b * 8) = s.writeBitsU BBZero 2 := by
        unfold writeNumberI
        simp only [beq_self_eq_true, if_true]
      obtain ⟨a1, a2, a3, a4, a5, a6⟩ := s.writeBitsU_spec BBZero 2 (by omega) hwf
        (by omega)
      rw [hser, hred, hc]
      refine ⟨a1, a6, by omega, ?_⟩
      intro w hwp hws hagree
      have e1 : w.readBitsU 2 = (true, 0, { w with bitPos := w.bitPos + 2 }) := by
        refine w.readBitsU_window 0 2 (by omega) (by omega) (by decide) ?_
        intro j hj
        rw [hwp, hagree (s.bitPos + j) (by omega) (by omega)]
        exact a5 j hj
      have hnum : readNumberI w = (true, 0, { w with bitPos := w.bitPos + 2 }) := by
        unfold readNumberI
        rw [e1]
        simp only [Bool.not_true, Bool.false_eq_true, if_false]
        simp only [beq_self_eq_true, if_true]
      show (let r := readNumberI w
        if r.1 then (true, Field.vnumI b (wrapS r.2.1 (8 * b)), r.2.2)
        else (false, Field.vnumI b v0, r.2.2)) = _
      rw [hnum]
      dsimp only
      rw [if_pos rfl, hwrap,
        Serializer.update_pos_congr w (w.bitPos + 2) ((s.writeBitsU BBZero 2).2.bitPos)
          (by omega)]
    · have hvlo' : -(2 ^ (b * 8 - 1) : Int) < v := by
        rw [Nat.mul_comm b 8]
        exact hvlo
      have hvhi' : v < (2 ^ (b * 8 - 1) : Int) := by
        rw [Nat.mul_comm b 8]
        exact hvhi
      obtain ⟨k1, k2, k3, k4⟩ := writeNumberI_roundtrip s v (b * 8) hv0 (by omega)
        (by omega) hvlo' hvhi' hwf (by omega)
      rw [hser, hc]
      refine ⟨k1, k2, by omega, ?_⟩
      intro w hwp hws hagree
      have hnum := k4 w hwp hws (fun i hi1 hi2 => hagree i hi1 (by omega))
      show (let r := readNumberI w
        if r.1 then (true, Field.vnumI b (wrapS r.2.1 (8 * b)), r.2.2)
        else (false, Field.vnumI b v0, r.2.2)) = _
      rw [hnum]
      dsimp only
      rw [if_pos rfl, hwrap,
        Serializer.update_pos_congr w (s.bitPos + (8 + b * 8))
          ((writeNumberI s v (b * 8)).2.bitPos) (by omega)]
  | varrU b a =>
    cases g <;> try exact Bool.noConfusion hsh
    case varrU b2 c =>
    have hsh2 : (b2 == b && c.length == a.length) = true := hsh
    simp only [Bool.and_eq_true, beq_iff_eq] at hsh2
    obtain ⟨hb2, hclen⟩ := hsh2
    rw [hb2]
    obtain ⟨hb, hlen2, hlen255, helts⟩ := henc
    have hb8 : 8 * b = 8 ∨ 8 * b = 16 ∨ 8 * b = 32 ∨ 8 * b = 64 := by
      rcases hb with rfl | rfl | rfl | rfl <;> omega
    have hpow62 : (2 : Nat) ^ (8 * b - 2) ≤ 2 ^ 62 :=
      Nat.pow_le_pow_right (by norm_num) (by omega)
    have hpow8b : (2 : Nat) ^ (8 * b - 2) ≤ 2 ^ (8 * b) :=
      Nat.pow_le_pow_right (by norm_num) (by omega)
    have helem : ∀ x ∈ a, tagBitsU x ≤ 8 * b ∧ x < 2 ^ 62 ∧ x < 2 ^ (8 * b) := by
      intro x hx
      have hxe := helts x hx
      exact ⟨tagBitsU_le x (8 * b) hxe hb8, by omega, by omega⟩
    have hc : (Field.varrU b a).totalBitContrib =
        2 + (6 + a.length * (b * 8) + (if a.length > 1 then 8 else 7)) := rfl
    rw [hc, if_pos (show a.length > 1 by omega)] at hcap
    have hmul : a.length * (b * 8) = a.length * (8 * b) := by ring
    obtain ⟨h1, h2, h3, h4⟩ := writeArrayHeader_roundtrip s a.length (by omega) hwf
      (by omega)
    obtain ⟨k1, k2, k3, k4⟩ := writeArrayValuesU_roundtrip b a c
      (writeArrayHeader s a.length).2 helem hclen
      (by have hs := h2.size; have hl := h2.len; omega)
      (by have hs := h2.size; omega)
    have hser : Field.serialize (.varrU b a) s =
        (let r := writeArrayHeader s a.length
          if r.1 then writeArrayValuesU a r.2 else (false, r.2)) := rfl
    have hred : Field.serialize (.varrU b a) s =
        writeArrayValuesU a (writeArrayHeader s a.length).2 := by
      rw [hser]
      dsimp only
      rw [if_pos h1]
    rw [hred, hc, if_pos (show a.length > 1 by omega)]
    refine ⟨k1, h2.comp k2, by omega, ?_⟩
    intro w hwp hws hagree
    have hkm := k2.mono
    have hhdr : readArrayHeader w = (true, a.length, { w with bitPos := s.bitPos + 16 }) := by
      refine h4 w hwp hws ?_
      intro i hi1 hi2
      rw [hagree i hi1 (by omega)]
      exact k2.frame i (Or.inl (by omega))
    have hvals := k4 ({ w with bitPos := s.bitPos + 16 } : Serializer)
      (by show s.bitPos + 16 = (writeArrayHeader s a.length).2.bitPos; omega)
      (by show w.bufferSize = (writeArrayHeader s a.length).2.bufferSize
          have hs := h2.size
          omega)
      (by
        intro i hi1 hi2
        show w.bitAt i = _
        exact hagree i (by omega) hi2)
    show (let r := readArrayHeader w
      if !r.1 then (false, Field.varrU b c, r.2.2)
      else if r.2.1 != c.length then (false, Field.varrU b c, r.2.2)
      else
        let rr := readArrayValuesU b c r.2.2
        (rr.1, Field.varrU b rr.2.1, rr.2.2)) = _
    rw [hhdr]
    simp only [Bool.not_true, Bool.false_eq_true, if_false]
    rw [if_neg (by simp [hclen])]
    rw [hvals]
  | varrI b a =>
    cases g <;> try exact Bool.noConfusion hsh
    case varrI b2 c =>
    have hsh2 : (b2 == b && c.length == a.length) = true := hsh
    simp only [Bool.and_eq_true, beq_iff_eq] at hsh2
    obtain ⟨hb2, hclen⟩ := hsh2
    rw [hb2]
    obtain ⟨hb, hlen2, hlen255, helts⟩ := henc
    have hb8 : 8 * b = 8 ∨ 8 * b = 16 ∨ 8 * b = 32 := by
      rcases hb with rfl | rfl | rfl <;> omega
    have hpow29 : (2 : Nat) ^ (8 * b - 3) ≤ 2 ^ 29 :=
      Nat.pow_le_pow_right (by norm_num) (by omega)
    have hcast : ((2 ^ (8 * b - 3) : Nat) : Int) = 2 ^ (8 * b - 3) := by
      push_cast
      ring
    have hpowI : (2 : Int) ^ (8 * b - 3) ≤ 2 ^ (8 * b - 1) :=
      pow_le_pow_right₀ (by norm_num) (by omega)
    have helem : ∀ x ∈ a, tagBitsI x ≤ 8 * b ∧ x.natAbs < 2 ^ 29 ∧
        wrapS x (8 * b) = x := by
      intro x hx
      have hxe := helts x hx
      have habs : x.natAbs < 2 ^ (8 * b - 3) := by
        have h1 := hxe.1
        have h2 := hxe.2
        omega
      refine ⟨tagBitsI_le x (8 * b) habs (by omega), by omega, ?_⟩
      refine wrapS_eq_of_range x (8 * b) (by omega) (by
        have h1 := hxe.1
        omega) (by
        have h2 := hxe.2
        omega)
    have hc : (Field.varrI b a).totalBitContrib =
        2 + (6 + a.length * (b * 8) + (if a.length > 1 then 8 else 7)) := rfl
    rw [hc, if_pos (show a.length > 1 by omega)] at hcap
    have hmul : a.length * (b * 8) = a.length * (8 * b) := by ring
    obtain ⟨h1, h2, h3, h4⟩ := writeArrayHeader_roundtrip s a.length (by omega) hwf
      (by omega)
    obtain ⟨k1, k2, k3, k4⟩ := writeArrayValuesI_roundtrip b a c
      (writeArrayHeader s a.length).2 helem hclen
      (by have hs := h2.size; have hl := h2.len; omega)
      (by have hs := h2.size; omega)
    have hser : Field.serialize (.varrI b a) s =
        (let r := writeArrayHeader s a.length
          if r.1 then writeArrayValuesI a r.2 else (false, r.2)) := rfl
    have hred : Field.serialize (.varrI b a) s =
        writeArrayValuesI a (writeArrayHeader s a.length).2 := by
      rw [hser]
      dsimp only
      rw [if_pos h1]
    rw [hred, hc, if_pos (show a.length > 1 by omega)]
    refine ⟨k1, h2.comp k2, by omega, ?_⟩
    intro w hwp hws hagree
    have hkm := k2.mono
    have hhdr : readArrayHeader w = (true, a.length, { w with bitPos := s.bitPos + 16 }) := by
      refine h4 w hwp hws ?_
      intro i hi1 hi2
      rw [hagree i hi1 (by omega)]
      exact k2.frame i (Or.inl (by omega))
    have hvals := k4 ({ w with bitPos := s.bitPos + 16 } : Serializer)
      (by show s.bitPos + 16 = (writeArrayHeader s a.length).2.bitPos; omega)
      (by show w.bufferSize = (writeArrayHeader s a.length).2.bufferSize
          have hs := h2.size
          omega)
      (by
        intro i hi1 hi2
        show w.bitAt i = _
        exact hagree i (by omega) hi2)
    show (let r := readArrayHeader w
      if !r.1 then (false, Field.varrI b c, r.2.2)
      else if r.2.1 != c.length then (false, Field.varrI b c, r.2.2)
      else
        let rr := readArrayValuesI b c r.2.2
        (rr.1, Field.varrI b rr.2.1, rr.2.2)) = _
    rw [hhdr]
    simp only [Bool.not_true, Bool.false_eq_true, if_false]
    rw [if_neg (by simp [hclen])]
    rw [hvals]

/-- The serializer walk of `ValueLink::serialize` on encodable fields, with
the matching decode walk of `ValueLink::deserialize` on any same-shape
record reading the written window. -/
theorem serializeFieldsAux_roundtrip (beg : Nat) (gs fs : List Field)
    (hsh : List.Forall₂ (fun g f => Field.sameShape g f = true) gs fs) :
    ∀ s : Serializer, (∀ f ∈ fs, f.Encodable) →
    s.bufferSize ≤ 64 * s.buffer.length →
    s.bitPos + linkTotalBitSize fs ≤ s.bufferSize →
    (serializeFieldsAux fs s).1 = true ∧
    WStep s (serializeFieldsAux fs s).2 ∧
    (serializeFieldsAux fs s).2.bitPos ≤ s.bitPos + linkTotalBitSize fs ∧
    ∀ w : Serializer, w.bitPos = s.bitPos → w.bufferSize = s.bufferSize →
      (∀ i, s.bitPos ≤ i → i < (serializeFieldsAux fs s).2.bitPos →
        w.bitAt i = (serializeFieldsAux fs s).2.bitAt i) →
      deserializeFieldsAux beg gs w =
        (true, fs, { w with bitPos := (serializeFieldsAux fs s).2.bitPos }) := by
  induction hsh with
  | nil =>
    intro s _ _ _
    refine ⟨rfl, WStep.refl s, by show s.bitPos ≤ s.bitPos + 0; omega, ?_⟩
    intro w hwp hws hagree
    show (true, [], w) = _
    rw [Serializer.update_pos_congr w ((serializeFieldsAux [] s).2.bitPos) w.bitPos
      (by show s.bitPos = w.bitPos; omega)]
  | cons hgf hrest ih =>
    rename_i g0 f0 gr fr
    intro s henc hwf hcap
    have hlink : linkTotalBitSize (f0 :: fr) = f0.totalBitContrib + linkTotalBitSize fr := rfl
    obtain ⟨e1, e2, e3, e4⟩ := fieldRoundtrip f0 g0 s (henc f0 (by simp)) hgf hwf (by omega)
    have hstep : serializeFieldsAux (f0 :: fr) s = serializeFieldsAux fr (f0.serialize s).2 := by
      show (let r := f0.serialize s
        if r.1 then serializeFieldsAux fr r.2 else (false, r.2)) = _
      rw [if_pos e1]
    obtain ⟨k1, k2, k3, k4⟩ := ih (f0.serialize s).2
      (fun f hf => henc f (by simp [hf]))
      (by have hs := e2.size; have hl := e2.len; omega)
      (by have hs := e2.size; omega)
    rw [hstep]
    have hkm := k2.mono
    have hem := e2.mono
    refine ⟨k1, e2.comp k2, by omega, ?_⟩
    intro w hwp hws hagree
    have hfld : g0.deserialize w =
        (true, f0, { w with bitPos := (f0.serialize s).2.bitPos }) := by
      refine e4 w hwp hws ?_
      intro i hi1 hi2
      rw [hagree i hi1 (by omega)]
      exact k2.frame i (Or.inl (by omega))
    have hrec := k4 ({ w with bitPos := (f0.serialize s).2.bitPos } : Serializer)
      rfl
      (by show w.bufferSize = (f0.serialize s).2.bufferSize
          have hs := e2.size
          omega)
      (by
        intro i hi1 hi2
        show w.bitAt i = _
        exact hagree i (by omega) hi2)
    show (let prevPos := w.bitPos
      let r := g0.deserialize w
      if r.1 then
        let rr := deserializeFieldsAux beg gr r.2.2
        (rr.1, r.2.1 :: rr.2.1, rr.2.2)
      else if g0.isSeparator then (true, r.2.1 :: gr, r.2.2.seek prevPos)
      else (false, r.2.1 :: gr, r.2.2.seek beg)) = _
    rw [hfld]
    dsimp only
    rw [if_pos rfl]
    rw [hrec]

/-- C1 (amended): serialize-then-deserialize is the identity for records in
the encodable ranges, given stream capacity of at least
`getTotalBitSize()` remaining bits: `ValueLink::serialize` succeeds, and a
same-shape record deserializing the stream from the starting position
recovers every written field value and ends at the writer's position. -/
theorem c1_roundtrip_amended (fs gs : List Field) (s : Serializer)
    (henc : ∀ f ∈ fs, f.Encodable)
    (hsh : List.Forall₂ (fun g f => Field.sameShape g f = true) gs fs)
    (hwf : s.bufferSize ≤ 64 * s.buffer.length)
    (hcap : s.bitPos + linkTotalBitSize fs ≤ s.bufferSize) :
    (linkSerialize fs s).1 = true ∧
    linkDeserialize gs ((linkSerialize fs s).2.seek s.bitPos) =
      (true, fs, (linkSerialize fs s).2) := by
  obtain ⟨k1, k2, k3, k4⟩ := serializeFieldsAux_roundtrip s.bitPos gs fs hsh s henc hwf hcap
  have hred : linkSerialize fs s = (true, (serializeFieldsAux fs s).2) := by
    unfold linkSerialize
    simp only [k1, if_true]
  rw [hred]
  refine ⟨rfl, ?_⟩
  show deserializeFieldsAux s.bitPos gs ((serializeFieldsAux fs s).2.seek s.bitPos) = _
  have hdec := k4 ((serializeFieldsAux fs s).2.seek s.bitPos) rfl
    (by show (serializeFieldsAux fs s).2.bufferSize = s.bufferSize
        have hs := k2.size
        omega)
    (fun i hi1 hi2 => rfl)
  rw [hdec]
  refine congrArg _ (congrArg _ ?_)
  show ({ (serializeFieldsAux fs s).2 with
    bitPos := (serializeFieldsAux fs s).2.bitPos } : Serializer) = _
  exact Serializer.mk_pos_eta _ _ rfl

/-- C1 witness: a boolean, a one-byte number and a two-element byte array
round-trip through a 100-byte stream into a same-shape record holding
different prior values. -/
theorem c1_witness :
    (linkSerialize [Field.vbool true, Field.vnumU 1 5, Field.varrU 1 [1, 2]]
        (Serializer.init 100)).1 = true ∧
    linkDeserialize [Field.vbool false, Field.vnumU 1 0, Field.varrU 1 [0, 0]]
        ((linkSerialize [Field.vbool true, Field.vnumU 1 5, Field.varrU 1 [1, 2]]
          (Serializer.init 100)).2.seek (Serializer.init 100).bitPos) =
      (true, [Field.vbool true, Field.vnumU 1 5, Field.varrU 1 [1, 2]],
        (linkSerialize [Field.vbool true, Field.vnumU 1 5, Field.varrU 1 [1, 2]]
          (Serializer.init 100)).2) :=
  c1_roundtrip_amended [Field.vbool true, Field.vnumU 1 5, Field.varrU 1 [1, 2]]
    [Field.vbool false, Field.vnumU 1 0, Field.varrU 1 [0, 0]] (Serializer.init 100)
    (by decide)
    (List.Forall₂.cons (by decide)
      (List.Forall₂.cons (by decide) (List.Forall₂.cons (by decide) List.Forall₂.nil)))
    (by decide) (by decide)

/-! ### The bitfield block codec: writer windows and reader adaptation -/

theorem pair_testBit (a b : Nat) (ha : a < 2 ^ 32) :
    ∀ j, j < 64 → (a + (b <<< 32)).testBit j =
      if j < 32 then a.testBit j else b.testBit (j - 32) := by
  intro j hj
  rw [Nat.shiftLeft_eq]
  by_cases h32 : j < 32
  · rw [if_pos h32]
    have h1 : ((a + b * 2 ^ 32) % 2 ^ 32).testBit j = (a + b * 2 ^ 32).testBit j := by
      rw [Nat.testBit_mod_two_pow]
      simp [h32]
    have h2 : (a + b * 2 ^ 32) % 2 ^ 32 = a := by
      rw [Nat.add_mul_mod_self_right, Nat.mod_eq_of_lt ha]
    rw [← h1, h2]
  · rw [if_neg h32]
    have h1 : (a + b * 2 ^ 32).testBit j = ((a + b * 2 ^ 32) >>> 32).testBit (j - 32) := by
      rw [Nat.testBit_shiftRight]
      congr 1
      omega
    have h2 : (a + b * 2 ^ 32) >>> 32 = b := by
      rw [Nat.shiftRight_eq_div_pow]
      omega
    rw [h1, h2]

/-- The 32-bit write loop: each word lands in its own 32-bit window. -/
theorem writeWords32_spec : ∀ (ws : List Nat) (u : Serializer),
    (∀ x ∈ ws, x < 2 ^ 32) →
    u.bufferSize ≤ 64 * u.buffer.length →
    u.bitPos + 32 * ws.length ≤ u.bufferSize →
    (writeWords32 ws u).1 = true ∧
    WStep u (writeWords32 ws u).2 ∧
    (writeWords32 ws u).2.bitPos = u.bitPos + 32 * ws.length ∧
    ∀ k, k < ws.length → ∀ j, j < 32 →
      (writeWords32 ws u).2.bitAt (u.bitPos + (32 * k + j)) = (ws.getD k 0).testBit j
  | [], u => by
    intro _ _ _
    exact ⟨rfl, WStep.refl u, by show u.bitPos = u.bitPos + 32 * 0; omega,
      fun k hk => absurd hk (by simp)⟩
  | x :: rest, u => by
    intro hws hwf hcap
    obtain ⟨a1, a2, a3, a4, a5, a6⟩ := u.writeBitsU_spec x 32 (by omega) hwf
      (by simp only [List.length_cons] at hcap; omega)
    have hstep : writeWords32 (x :: rest) u = writeWords32 rest (u.writeBitsU x 32).2 := by
      show (let r := u.writeBitsU x 32
        if r.1 then writeWords32 rest r.2 else (false, r.2)) = _
      rw [if_pos a1]
    obtain ⟨b1, b2, b3, b4⟩ := writeWords32_spec rest (u.writeBitsU x 32).2
      (fun z hz => hws z (by simp [hz]))
      (by omega)
      (by simp only [List.length_cons] at hcap; omega)
    rw [hstep]
    refine ⟨b1, a6.comp b2, by simp only [List.length_cons]; omega, ?_⟩
    intro k hk j hj
    match k with
    | 0 =>
      show (writeWords32 rest (u.writeBitsU x 32).2).2.bitAt (u.bitPos + (32 * 0 + j)) = _
      rw [show u.bitPos + (32 * 0 + j) = u.bitPos + j by omega]
      rw [b2.frame _ (Or.inl (by omega))]
      exact a5 j hj
    | k + 1 =>
      show (writeWords32 rest (u.writeBitsU x 32).2).2.bitAt
        (u.bitPos + (32 * (k + 1) + j)) = (rest.getD k 0).testBit j
      have := b4 k (by simp only [List.length_cons] at hk; omega) j hj
      rw [a2] at this
      rw [show u.bitPos + (32 * (k + 1) + j) = u.bitPos + 32 + (32 * k + j) by omega]
      exact this

/-- The 64-bit write loop over paired 32-bit words produces exactly the
same 32-bit windows as the 32-bit loop, provided the cursor is not
word-aligned (at an aligned cursor the 64-bit single-word mask
`(1ULL << 64) - 1` degenerates to 0 under the masked shift count and the
write stores nothing). -/
theorem writeWords64_pairs_spec : ∀ (ws : List Nat) (u : Serializer),
    ws.length % 2 = 0 →
    u.bitPos % 64 ≠ 0 →
    (∀ x ∈ ws, x < 2 ^ 32) →
    u.bufferSize ≤ 64 * u.buffer.length →
    u.bitPos + 32 * ws.length ≤ u.bufferSize →
    (writeWords64 (pairWords ws) u).1 = true ∧
    WStep u (writeWords64 (pairWords ws) u).2 ∧
    (writeWords64 (pairWords ws) u).2.bitPos = u.bitPos + 32 * ws.length ∧
    ∀ k, k < ws.length → ∀ j, j < 32 →
      (writeWords64 (pairWords ws) u).2.bitAt (u.bitPos + (32 * k + j)) =
        (ws.getD k 0).testBit j
  | [], u => by
    intro _ _ _ _ _
    exact ⟨rfl, WStep.refl u, by show u.bitPos = u.bitPos + 32 * 0; omega,
      fun k hk => absurd hk (by simp)⟩
  | [a], u => by
    intro he _ _ _ _
    exact absurd he (by simp)
  | a :: b :: rest, u => by
    intro he hal hws hwf hcap
    have ha : a < 2 ^ 32 := hws a (by simp)
    have hb : b < 2 ^ 32 := hws b (by simp)
    have hred : writeWords64 (pairWords (a :: b :: rest)) u =
        (let r := u.writeBits64 (a + (b <<< 32)) 64
          if r.1 then writeWords64 (pairWords rest) r.2 else (false, r.2)) := rfl
    have hcap1 : u.bitPos + 64 ≤ u.bufferSize := by
      simp only [List.length_cons] at hcap
      omega
    obtain ⟨a1, a2, a3, a4⟩ := u.writeBits64_state (a + (b <<< 32)) 64 hcap1
    have a5 : ∀ j, j < 64 → (u.writeBits64 (a + (b <<< 32)) 64).2.bitAt (u.bitPos + j) =
        (a + (b <<< 32)).testBit j :=
      fun j hj => u.writeBits64_window (a + (b <<< 32)) 64 (by omega) (fun _ => hal)
        hwf hcap1 j hj
    have a6 : WStep u (u.writeBits64 (a + (b <<< 32)) 64).2 :=
      u.writeBits64_wstep (a + (b <<< 32)) 64 (by omega) hwf
    have hstep : writeWords64 (pairWords (a :: b :: rest)) u =
        writeWords64 (pairWords rest) (u.writeBits64 (a + (b <<< 32)) 64).2 := by
      rw [hred]
      dsimp only
      rw [if_pos a1]
    obtain ⟨b1, b2, b3, b4⟩ := writeWords64_pairs_spec rest
      (u.writeBits64 (a + (b <<< 32)) 64).2
      (by simp only [List.length_cons] at he; omega)
      (by rw [a2]; omega)
      (fun z hz => hws z (by simp [hz]))
      (by omega)
      (by simp only [List.length_cons] at hcap; omega)
    rw [hstep]
    refine ⟨b1, a6.comp b2, by simp only [List.length_cons]; omega, ?_⟩
    intro k hk j hj
    match k with
    | 0 =>
      show (writeWords64 (pairWords rest) (u.writeBits64 (a + (b <<< 32)) 64).2).2.bitAt
        (u.bitPos + (32 * 0 + j)) = ((a :: b :: rest).getD 0 0).testBit j
      rw [show u.bitPos + (32 * 0 + j) = u.bitPos + j by omega]
      rw [b2.frame _ (Or.inl (by omega))]
      rw [a5 j (by omega), pair_testBit a b ha j (by omega), if_pos hj]
      rfl
    | 1 =>
      show (writeWords64 (pairWords rest) (u.writeBits64 (a + (b <<< 32)) 64).2).2.bitAt
        (u.bitPos + (32 * 1 + j)) = ((a :: b :: rest).getD 1 0).testBit j
      rw [show u.bitPos + (32 * 1 + j) = u.bitPos + (32 + j) by omega]
      rw [b2.frame _ (Or.inl (by omega))]
      rw [a5 (32 + j) (by omega), pair_testBit a b ha (32 + j) (by omega),
        if_neg (by omega)]
      rw [show 32 + j - 32 = j by omega]
      rfl
    | k + 2 =>
      show (writeWords64 (pairWords rest) (u.writeBits64 (a + (b <<< 32)) 64).2).2.bitAt
        (u.bitPos + (32 * (k + 2) + j)) = (rest.getD k 0).testBit j
      have := b4 k (by simp only [List.length_cons] at hk; omega) j hj
      rw [a2] at this
      rw [show u.bitPos + (32 * (k + 2) + j) = u.bitPos + 64 + (32 * k + j) by omega]
      exact this

theorem getD_take_of_lt {α : Type} (d : α) : ∀ (l : List α) (n k : Nat), k < n →
    (l.take n).getD k d = l.getD k d
  | [], n, k => by simp
  | e :: rest, n + 1, 0 => fun _ => by simp
  | e :: rest, n + 1, k + 1 => fun hk => by
    simp only [List.take_succ_cons, List.getD_cons_succ]
    exact getD_take_of_lt d rest n k (by omega)
  | e :: rest, 0, k => fun hk => absurd hk (by omega)

theorem getD_map_take (rs : Nat) : ∀ (l : List (List Nat)) (k : Nat),
    (l.map (fun e => e.take rs)).getD k [] = (l.getD k []).take rs
  | [], k => by simp
  | e :: rest, 0 => by simp
  | e :: rest, k + 1 => by
    simp only [List.map_cons, List.getD_cons_succ]
    exact getD_map_take rs rest k

theorem flatten_length (W : Nat) : ∀ (ds : List (List Nat)),
    (∀ e ∈ ds, e.length = W) → ds.flatten.length = ds.length * W
  | [], _ => by simp
  | e :: rest, hl => by
    have he : e.length = W := hl e (by simp)
    have ih := flatten_length W rest (fun z hz => hl z (by simp [hz]))
    simp only [List.flatten_cons, List.length_append, List.length_cons, ih, he]
    ring

theorem flatten_getD (W : Nat) : ∀ (ds : List (List Nat)),
    (∀ e ∈ ds, e.length = W) →
    ∀ k m, k < ds.length → m < W →
    ds.flatten.getD (k * W + m) 0 = (ds.getD k []).getD m 0
  | [], _ => by
    intro k m hk _
    exact absurd hk (by simp)
  | e :: rest, hl => by
    intro k m hk hm
    have he : e.length = W := hl e (by simp)
    match k with
    | 0 =>
      show (e :: rest).flatten.getD (0 * W + m) 0 = e.getD m 0
      rw [show (0 : Nat) * W + m = m by omega, List.flatten_cons,
        List.getD_append _ _ _ _ (by omega)]
    | k + 1 =>
      show (e :: rest).flatten.getD ((k + 1) * W + m) 0 = (rest.getD k []).getD m 0
      rw [List.flatten_cons]
      rw [show (k + 1) * W + m = e.length + (k * W + m) by rw [he]; ring]
      rw [List.getD_append_right _ _ _ _ (by omega)]
      rw [show e.length + (k * W + m) - e.length = k * W + m by omega]
      exact flatten_getD W rest (fun z hz => hl z (by simp [hz])) k m
        (by simp only [List.length_cons] at hk; omega) hm

/-- The inner word loop of `deserializeBitField` reads back the words in
its window, replacing the element's first `ws.length` slots. -/
theorem readWordsInto_spec : ∀ (ws : List Nat) (elem : List Nat) (u : Serializer),
    (∀ x ∈ ws, x < 2 ^ 32) →
    u.bitPos + 32 * ws.length ≤ u.bufferSize →
    (∀ m, m < ws.length → ∀ j, j < 32 →
      u.bitAt (u.bitPos + (32 * m + j)) = (ws.getD m 0).testBit j) →
    readWordsInto ws.length elem u =
      (true, ws ++ elem.drop ws.length, { u with bitPos := u.bitPos + 32 * ws.length })
  | [], elem, u => by
    intro _ _ _
    show (true, elem, u) = _
    have hpe : u.bitPos + 32 * ([] : List Nat).length = u.bitPos := by simp
    rw [hpe]
    simp
  | w :: ws, elem, u => by
    intro hws hcap hbits
    have e1 : u.readBitsU 32 = (true, w, { u with bitPos := u.bitPos + 32 }) := by
      refine u.readBitsU_window w 32 (by omega)
        (by simp only [List.length_cons] at hcap; omega) (hws w (by simp)) ?_
      intro j hj
      have := hbits 0 (by simp) j hj
      rw [show u.bitPos + (32 * 0 + j) = u.bitPos + j by omega] at this
      exact this
    have ih := readWordsInto_spec ws elem.tail ({ u with bitPos := u.bitPos + 32 })
      (fun z hz => hws z (by simp [hz]))
      (by show u.bitPos + 32 + 32 * ws.length ≤ u.bufferSize
          simp only [List.length_cons] at hcap
          omega)
      (by
        intro m hm j hj
        show u.bitAt (u.bitPos + 32 + (32 * m + j)) = _
        have := hbits (m + 1) (by simp only [List.length_cons]; omega) j hj
        rw [show u.bitPos + (32 * (m + 1) + j) = u.bitPos + 32 + (32 * m + j) by omega]
          at this
        exact this)
    show (let r := u.readBitsU 32
      if r.1 then
        let rr := readWordsInto ws.length elem.tail r.2.2
        (rr.1, r.2.1 :: rr.2.1, rr.2.2)
      else (false, elem, r.2.2)) = _
    rw [e1]
    dsimp only
    rw [ih]
    dsimp only
    rw [show elem.tail.drop ws.length = elem.drop (ws.length + 1) from by
      rw [← List.drop_one, List.drop_drop, Nat.add_comm]]
    rw [Serializer.update_pos_congr u (u.bitPos + 32 + 32 * ws.length)
      (u.bitPos + 32 * (w :: ws).length) (by simp only [List.length_cons]; omega)]
    rw [if_pos rfl]
    rfl

/-- The element loop of `deserializeBitField`: each of the `n` first slots
receives its window's words followed by its own remaining words, and the
cursor advances by the full element stride each time. -/
theorem readBitElems_spec (rs po : Nat) : ∀ (n : Nat) (wws elems : List (List Nat))
    (u : Serializer),
    wws.length = n →
    n ≤ elems.length →
    (∀ e ∈ wws, e.length = rs ∧ ∀ x ∈ e, x < 2 ^ 32) →
    u.bitPos + n * (32 * rs + po) ≤ u.bufferSize →
    (∀ k, k < n → ∀ m, m < rs → ∀ j, j < 32 →
      u.bitAt (u.bitPos + (k * (32 * rs + po) + (32 * m + j))) =
        ((wws.getD k []).getD m 0).testBit j) →
    readBitElems rs po n elems u =
      (true, (List.zipWith (fun ww e => ww ++ e.drop rs) wws (elems.take n)) ++ elems.drop n,
        { u with bitPos := u.bitPos + n * (32 * rs + po) })
  | 0, wws, elems, u => by
    intro hlen _ _ _ _
    have hw0 : wws = [] := List.eq_nil_of_length_eq_zero hlen
    subst hw0
    show (true, elems, u) = _
    have hpe : u.bitPos + 0 * (32 * rs + po) = u.bitPos := by omega
    rw [hpe]
    simp
  | n + 1, wws, elems, u => by
    intro hlen hne hel hcap hbits
    obtain ⟨ww, wrest, rfl⟩ : ∃ ww wrest, wws = ww :: wrest := by
      cases wws with
      | nil => exact absurd hlen (by simp)
      | cons ww wrest => exact ⟨ww, wrest, rfl⟩
    obtain ⟨e, erest, rfl⟩ : ∃ e erest, elems = e :: erest := by
      cases elems with
      | nil => exact absurd hne (by simp)
      | cons e erest => exact ⟨e, erest, rfl⟩
    have hwwl := (hel ww (by simp)).1
    have hmul : (n + 1) * (32 * rs + po) = (32 * rs + po) + n * (32 * rs + po) := by ring
    have hrd : readWordsInto rs e u =
        (true, ww ++ e.drop rs, { u with bitPos := u.bitPos + 32 * rs }) := by
      have := readWordsInto_spec ww e u (hel ww (by simp)).2
        (by rw [hwwl]; omega)
        (by
          intro m hm j hj
          rw [hwwl] at hm
          have := hbits 0 (by omega) m hm j hj
          rw [show u.bitPos + (0 * (32 * rs + po) + (32 * m + j)) =
            u.bitPos + (32 * m + j) by omega] at this
          exact this)
      rw [hwwl] at this
      exact this
    have ih := readBitElems_spec rs po n wrest erest
      ({ u with bitPos := u.bitPos + (32 * rs + po) } : Serializer)
      (by simp only [List.length_cons] at hlen; omega)
      (by simp only [List.length_cons] at hne; omega)
      (fun z hz => hel z (by simp [hz]))
      (by show u.bitPos + (32 * rs + po) + n * (32 * rs + po) ≤ u.bufferSize; omega)
      (by
        intro k hk m hm j hj
        show u.bitAt (u.bitPos + (32 * rs + po) + (k * (32 * rs + po) + (32 * m + j))) = _
        have := hbits (k + 1) (by omega) m hm j hj
        rw [show u.bitPos + ((k + 1) * (32 * rs + po) + (32 * m + j)) =
          u.bitPos + (32 * rs + po) + (k * (32 * rs + po) + (32 * m + j)) by ring]
          at this
        exact this)
    show (let r := readWordsInto rs e u
      if r.1 then
        let s2 := r.2.2.seek (r.2.2.bitPos + po)
        let rr := readBitElems rs po n erest s2
        (rr.1, r.2.1 :: rr.2.1, rr.2.2)
      else (false, r.2.1 :: erest, r.2.2)) = _
    rw [hrd]
    dsimp only
    rw [show u.bitPos + 32 * rs + po = u.bitPos + (32 * rs + po) by omega]
    rw [show ({ u with bitPos := u.bitPos + 32 * rs } : Serializer).seek
      (u.bitPos + (32 * rs + po)) = { u with bitPos := u.bitPos + (32 * rs + po) } from rfl]
    rw [ih]
    dsimp only
    rw [Serializer.update_pos_congr u (u.bitPos + (32 * rs + po) + n * (32 * rs + po))
      (u.bitPos + (n + 1) * (32 * rs + po)) (by omega)]
    rw [if_pos rfl]
    rfl

/-- `serializeBitField` succeeds within capacity and lays the flattened
32-bit words out contiguously after the 16-bit header, whichever write
width (64-bit pairs or plain 32-bit) the element size selects. -/
theorem serializeBitField_spec (Ww : Nat) (wdata : List (List Nat)) (s : Serializer)
    (hWw1 : 1 ≤ Ww) (hWw8 : Ww ≤ 8)
    (hal : Ww % 2 = 1 ∨ (s.bitPos + 16) % 64 ≠ 0)
    (hwlen : ∀ e ∈ wdata, e.length = Ww)
    (hwords : ∀ e ∈ wdata, ∀ x ∈ e, x < 2 ^ 32)
    (hcnt : wdata.length < 2 ^ 13)
    (hwf : s.bufferSize ≤ 64 * s.buffer.length)
    (hcap : s.bitPos + (16 + wdata.length * (Ww * 32)) ≤ s.bufferSize) :
    (serializeBitField Ww wdata s).1 = true ∧
    WStep s (serializeBitField Ww wdata s).2 ∧
    (serializeBitField Ww wdata s).2.bitPos = s.bitPos + (16 + wdata.length * (Ww * 32)) ∧
    (∀ j, j < 3 → (serializeBitField Ww wdata s).2.bitAt (s.bitPos + j) =
      (Ww - 1).testBit j) ∧
    (∀ j, j < 13 → (serializeBitField Ww wdata s).2.bitAt (s.bitPos + 3 + j) =
      wdata.length.testBit j) ∧
    (∀ k, k < wdata.length * Ww → ∀ j, j < 32 →
      (serializeBitField Ww wdata s).2.bitAt (s.bitPos + 16 + (32 * k + j)) =
        (wdata.flatten.getD k 0).testBit j) := by
  have hflen : wdata.flatten.length = wdata.length * Ww := flatten_length Ww wdata hwlen
  have hflw : ∀ x ∈ wdata.flatten, x < 2 ^ 32 := by
    intro x hx
    obtain ⟨l, hl, hxl⟩ := List.mem_flatten.mp hx
    exact hwords l hl x hxl
  have hprod : 32 * (wdata.length * Ww) = wdata.length * (Ww * 32) := by ring
  obtain ⟨a1, a2, a3, a4, a5, a6⟩ := s.writeBitsU_spec (Ww - 1) 3 (by omega) hwf (by omega)
  obtain ⟨b1, b2, b3, b4, b5, b6⟩ := (s.writeBitsU (Ww - 1) 3).2.writeBitsU_spec
    wdata.length 13 (by omega) (by omega) (by omega)
  have hcap2 : ((s.writeBitsU (Ww - 1) 3).2.writeBitsU wdata.length 13).2.bitPos +
      32 * wdata.flatten.length ≤
      ((s.writeBitsU (Ww - 1) 3).2.writeBitsU wdata.length 13).2.bufferSize := by
    rw [hflen]
    omega
  have hwf2 : ((s.writeBitsU (Ww - 1) 3).2.writeBitsU wdata.length 13).2.bufferSize ≤
      64 * ((s.writeBitsU (Ww - 1) 3).2.writeBitsU wdata.length 13).2.buffer.length := by
    omega
  obtain ⟨w1, w2, w3, w4⟩ : (serializeBitField Ww wdata s).1 = true ∧
      WStep ((s.writeBitsU (Ww - 1) 3).2.writeBitsU wdata.length 13).2
        (serializeBitField Ww wdata s).2 ∧
      (serializeBitField Ww wdata s).2.bitPos =
        ((s.writeBitsU (Ww - 1) 3).2.writeBitsU wdata.length 13).2.bitPos +
          32 * wdata.flatten.length ∧
      ∀ k, k < wdata.flatten.length → ∀ j, j < 32 →
        (serializeBitField Ww wdata s).2.bitAt
          (((s.writeBitsU (Ww - 1) 3).2.writeBitsU wdata.length 13).2.bitPos +
            (32 * k + j)) = (wdata.flatten.getD k 0).testBit j := by
    by_cases hpar : Ww % 2 == 0
    · have hred : serializeBitField Ww wdata s =
          writeWords64 (pairWords wdata.flatten)
            ((s.writeBitsU (Ww - 1) 3).2.writeBitsU wdata.length 13).2 := by
        unfold serializeBitField
        simp only [a1, Bool.not_true, Bool.false_eq_true, if_false, b1]
        rw [if_pos hpar]
      have hpar2 : Ww % 2 = 0 := by simpa using hpar
      have heven : wdata.flatten.length % 2 = 0 := by
        rw [hflen, Nat.mul_mod, hpar2]
        simp
      have hal2 : ((s.writeBitsU (Ww - 1) 3).2.writeBitsU wdata.length 13).2.bitPos
          % 64 ≠ 0 := by
        rw [b2, a2]
        rcases hal with h | h <;> omega
      obtain ⟨w1, w2, w3, w4⟩ := writeWords64_pairs_spec wdata.flatten
        ((s.writeBitsU (Ww - 1) 3).2.writeBitsU wdata.length 13).2 heven hal2 hflw
        hwf2 hcap2
      rw [hred]
      exact ⟨w1, w2, w3, w4⟩
    · have hred : serializeBitField Ww wdata s =
          writeWords32 wdata.flatten
            ((s.writeBitsU (Ww - 1) 3).2.writeBitsU wdata.length 13).2 := by
        unfold serializeBitField
        simp only [a1, Bool.not_true, Bool.false_eq_true, if_false, b1]
        rw [if_neg hpar]
      obtain ⟨w1, w2, w3, w4⟩ := writeWords32_spec wdata.flatten
        ((s.writeBitsU (Ww - 1) 3).2.writeBitsU wdata.length 13).2 hflw hwf2 hcap2
      rw [hred]
      exact ⟨w1, w2, w3, w4⟩
  have hwm := w2.mono
  refine ⟨w1, a6.comp (b6.comp w2), by rw [w3, hflen]; omega, ?_, ?_, ?_⟩
  · intro j hj
    rw [w2.frame _ (Or.inl (by omega)), b6.frame _ (Or.inl (by omega))]
    exact a5 j hj
  · intro j hj
    rw [w2.frame _ (Or.inl (by omega))]
    have := b5 j hj
    rw [a2] at this
    exact this
  · intro k hk j hj
    have := w4 k (by omega) j hj
    rw [b2, a2] at this
    rw [show s.bitPos + 16 + (32 * k + j) = s.bitPos + 3 + 13 + (32 * k + j) by omega]
    exact this

/-- C8: a bitfield block written with `Cw` elements of `Ww` 32-bit words
and read back by a `deserializeBitField` instantiated at `Wr` words per
element and a capacity of `Cr = rdata.length` elements succeeds; the
reported count is `min Cr Cw`; each decoded element holds the writer's
first `min Wr Ww` words followed by its own remaining words (so a wider
reader keeps its trailing words); and the cursor advances by the writer's
full `Ww·32`-bit stride for each decoded element (so a narrower reader
skips the `(Ww − Wr)·32` bits it does not understand).  Amended: when `Ww`
is even (the 64-bit paired write path), the word data must not start at a
64-bit-aligned stream position, because there the single-word mask
`(1ULL << 64) - 1` degenerates to 0 under the masked shift count and the
aligned 64-bit write stores nothing. -/
theorem c8_bitfield_adaptation (Ww Wr : Nat) (wdata rdata : List (List Nat))
    (s : Serializer)
    (hWw1 : 1 ≤ Ww) (hWw8 : Ww ≤ 8) (hWr1 : 1 ≤ Wr)
    (hal : Ww % 2 = 1 ∨ (s.bitPos + 16) % 64 ≠ 0)
    (hwlen : ∀ e ∈ wdata, e.length = Ww)
    (hwords : ∀ e ∈ wdata, ∀ x ∈ e, x < 2 ^ 32)
    (hcnt : wdata.length < 2 ^ 13)
    (hwf : s.bufferSize ≤ 64 * s.buffer.length)
    (hcap : s.bitPos + (16 + wdata.length * (Ww * 32)) ≤ s.bufferSize) :
    (serializeBitField Ww wdata s).1 = true ∧
    (serializeBitField Ww wdata s).2.bitPos = s.bitPos + (16 + wdata.length * (Ww * 32)) ∧
    deserializeBitField Wr rdata ((serializeBitField Ww wdata s).2.seek s.bitPos) =
      (true, min rdata.length wdata.length,
        (List.zipWith (fun we re => we.take (min Wr Ww) ++ re.drop (min Wr Ww))
          (wdata.take (min rdata.length wdata.length))
          (rdata.take (min rdata.length wdata.length))) ++
          rdata.drop (min rdata.length wdata.length),
        { (serializeBitField Ww wdata s).2 with
          bitPos := s.bitPos + (16 + min rdata.length wdata.length * (Ww * 32)) }) := by
  obtain ⟨h1, h2, h3, h4, h5, h6⟩ := serializeBitField_spec Ww wdata s hWw1 hWw8 hal
    hwlen hwords hcnt hwf hcap
  refine ⟨h1, h3, ?_⟩
  have hflen : wdata.flatten.length = wdata.length * Ww := flatten_length Ww wdata hwlen
  have hsz := h2.size
  have e1 : ((serializeBitField Ww wdata s).2.seek s.bitPos).readBitsU 3 =
      (true, Ww - 1, { (serializeBitField Ww wdata s).2.seek s.bitPos with
        bitPos := s.bitPos + 3 }) := by
    refine Serializer.readBitsU_window _ (Ww - 1) 3 (by omega)
      (by show s.bitPos + 3 ≤ (serializeBitField Ww wdata s).2.bufferSize; omega)
      (by omega) ?_
    intro j hj
    exact h4 j hj
  have e2 : ({ (serializeBitField Ww wdata s).2.seek s.bitPos with
        bitPos := s.bitPos + 3 } : Serializer).readBitsU 13 =
      (true, wdata.length, { (serializeBitField Ww wdata s).2.seek s.bitPos with
        bitPos := s.bitPos + 16 }) := by
    have := Serializer.readBitsU_window ({ (serializeBitField Ww wdata s).2.seek s.bitPos
        with bitPos := s.bitPos + 3 } : Serializer) wdata.length 13 (by omega)
      (by show s.bitPos + 3 + 13 ≤ (serializeBitField Ww wdata s).2.bufferSize; omega)
      hcnt ?_
    · rw [this]
    · intro j hj
      exact h5 j hj
  have hstride : 32 * min Wr Ww + (if Wr < Ww then (Ww * 4 - Wr * 4) * 8 else 0) =
      32 * Ww := by
    by_cases h : Wr < Ww
    · rw [if_pos h]
      have : min Wr Ww = Wr := by omega
      rw [this]
      omega
    · rw [if_neg h]
      have : min Wr Ww = Ww := by omega
      rw [this]
      omega
  have hn : min rdata.length wdata.length ≤ wdata.length := by omega
  have hrs : min Wr Ww ≤ Ww := by omega
  have hread := readBitElems_spec (min Wr Ww)
    (if Wr < Ww then (Ww * 4 - Wr * 4) * 8 else 0)
    (min rdata.length wdata.length)
    ((wdata.take (min rdata.length wdata.length)).map (fun e => e.take (min Wr Ww)))
    rdata
    ({ (serializeBitField Ww wdata s).2.seek s.bitPos with bitPos := s.bitPos + 16 })
    (by simp only [List.length_map, List.length_take]; omega)
    (by omega)
    (by
      intro e he
      obtain ⟨we, hwe, rfl⟩ := List.mem_map.mp he
      have hwe2 : we ∈ wdata := List.mem_of_mem_take hwe
      have hl := hwlen we hwe2
      refine ⟨by simp only [List.length_take]; omega, ?_⟩
      intro x hx
      exact hwords we hwe2 x (List.mem_of_mem_take hx))
    (by
      show s.bitPos + 16 + min rdata.length wdata.length *
        (32 * min Wr Ww + (if Wr < Ww then (Ww * 4 - Wr * 4) * 8 else 0)) ≤
        (serializeBitField Ww wdata s).2.bufferSize
      rw [hstride]
      have hb1 : min rdata.length wdata.length * (32 * Ww) ≤ wdata.length * (32 * Ww) :=
        Nat.mul_le_mul_right _ hn
      have hb2 : wdata.length * (32 * Ww) = wdata.length * (Ww * 32) := by ring
      omega)
    (by
      intro k hk m hm j hj
      show ((serializeBitField Ww wdata s).2).bitAt (s.bitPos + 16 +
        (k * (32 * min Wr Ww + (if Wr < Ww then (Ww * 4 - Wr * 4) * 8 else 0)) +
          (32 * m + j))) = _
      rw [hstride]
      have hidx : k * Ww + m < wdata.length * Ww := by
        calc k * Ww + m < k * Ww + Ww := by omega
          _ = (k + 1) * Ww := by ring
          _ ≤ wdata.length * Ww := Nat.mul_le_mul_right _ (by omega)
      have hwin := h6 (k * Ww + m) hidx j hj
      rw [show s.bitPos + 16 + (k * (32 * Ww) + (32 * m + j)) =
        s.bitPos + 16 + (32 * (k * Ww + m) + j) by ring] at *
      rw [hwin]
      rw [flatten_getD Ww wdata hwlen k m (by omega) (by omega)]
      rw [getD_map_take, getD_take_of_lt _ _ _ _ (by omega),
        getD_take_of_lt _ _ _ _ (by omega)]
    )
  show (let r1 := ((serializeBitField Ww wdata s).2.seek s.bitPos).readBitsU 3
    if !r1.1 then (false, rdata.length, rdata, r1.2.2)
    else
      let r2 := r1.2.2.readBitsU 13
      if !r2.1 then (false, rdata.length, rdata, r2.2.2)
      else
        let readSize := r1.2.1 + 1
        let num := if rdata.length < r2.2.1 then rdata.length else r2.2.1
        let posOffset := if Wr < readSize then (readSize * 4 - Wr * 4) * 8 else 0
        let readSize2 := if Wr < readSize then Wr else readSize
        let r3 := readBitElems readSize2 posOffset num rdata r2.2.2
        (r3.1, num, r3.2.1, r3.2.2)) = _
  rw [e1]
  simp only [Bool.not_true, Bool.false_eq_true, if_false]
  rw [e2]
  simp only [Bool.not_true, Bool.false_eq_true, if_false]
  rw [show Ww - 1 + 1 = Ww by omega]
  rw [show (if rdata.length < wdata.length then rdata.length else wdata.length) =
    min rdata.length wdata.length by
      by_cases h : rdata.length < wdata.length
      · rw [if_pos h]; omega
      · rw [if_neg h]; omega]
  rw [show (if Wr < Ww then Wr else Ww) = min Wr Ww by
      by_cases h : Wr < Ww
      · rw [if_pos h]; omega
      · rw [if_neg h]; omega]
  rw [hread]
  dsimp only
  rw [List.zipWith_map_left]
  rw [Serializer.update_pos_congr _ (s.bitPos + 16 + min rdata.length wdata.length *
      (32 * min Wr Ww + (if Wr < Ww then (Ww * 4 - Wr * 4) * 8 else 0)))
    (s.bitPos + (16 + min rdata.length wdata.length * (Ww * 32)))
    (by
      rw [hstride]
      have : min rdata.length wdata.length * (32 * Ww) =
        min rdata.length wdata.length * (Ww * 32) := by ring
      omega)]
  rfl

/-- C8 witness: two 2-word elements written, read back by a 1-word reader
with capacity 3: both elements' first words are recovered, the count is 2,
and the cursor lands past both full-width elements. -/
theorem c8_witness :
    (serializeBitField 2 [[1, 2], [3, 4]] (Serializer.init 100)).1 = true ∧
    (serializeBitField 2 [[1, 2], [3, 4]] (Serializer.init 100)).2.bitPos =
      (Serializer.init 100).bitPos +
        (16 + ([[1, 2], [3, 4]] : List (List Nat)).length * (2 * 32)) ∧
    deserializeBitField 1 [[7], [8], [9]]
        ((serializeBitField 2 [[1, 2], [3, 4]] (Serializer.init 100)).2.seek
          (Serializer.init 100).bitPos) =
      (true, min ([[7], [8], [9]] : List (List Nat)).length
          ([[1, 2], [3, 4]] : List (List Nat)).length,
        (List.zipWith (fun we re => we.take (min 1 2) ++ re.drop (min 1 2))
          (([[1, 2], [3, 4]] : List (List Nat)).take
            (min ([[7], [8], [9]] : List (List Nat)).length
              ([[1, 2], [3, 4]] : List (List Nat)).length))
          (([[7], [8], [9]] : List (List Nat)).take
            (min ([[7], [8], [9]] : List (List Nat)).length
              ([[1, 2], [3, 4]] : List (List Nat)).length))) ++
          ([[7], [8], [9]] : List (List Nat)).drop
            (min ([[7], [8], [9]] : List (List Nat)).length
              ([[1, 2], [3, 4]] : List (List Nat)).length),
        { (serializeBitField 2 [[1, 2], [3, 4]] (Serializer.init 100)).2 with
          bitPos := (Serializer.init 100).bitPos +
            (16 + min ([[7], [8], [9]] : List (List Nat)).length
              ([[1, 2], [3, 4]] : List (List Nat)).length * (2 * 32)) }) :=
  c8_bitfield_adaptation 2 1 [[1, 2], [3, 4]] [[7], [8], [9]] (Serializer.init 100)
    (by decide) (by decide) (by decide) (Or.inr (by decide)) (by decide) (by decide)
    (by decide) (by decide) (by decide)

/-- C8 counterexample: one 2-word element written starting at stream
position 48.  The 16-bit header ends exactly at bit 64, so the even-width
64-bit paired write lands word-aligned; there the single-word mask
`(1ULL << 64) - 1` degenerates to 0 under the masked shift count, the
write stores nothing (while still reporting success), and the same-width
reader recovers `[0, 0]` instead of the written element `[1, 2]`. -/
theorem c8_counterexample :
    (serializeBitField 2 [[1, 2]] ((Serializer.init 20).seek 48)).1 = true ∧
    (deserializeBitField 2 [[7, 7]]
      ((serializeBitField 2 [[1, 2]] ((Serializer.init 20).seek 48)).2.seek 48)).2.2.1
      = [[0, 0]] ∧
    ([[0, 0]] : List (List Nat)) ≠ [[1, 2]] := by
  refine ⟨by decide, by decide, by decide⟩

end record
